import Mathlib

/-! HILA lattice framework: field storage, halo transfer and loop ranges.

A shallow embedding of

* `src/libraries/plumbing/backend_cuda/field_storage_backend.h`
  (`field_storage<T>::get`, `set`, the gather / place kernels and their host wrappers),
* `src/libraries/plumbing/lattice.h` and `src/programs/plumbing/lattice.h`
  (`comm_node_struct`, `loop_begin`, `loop_end`).

Conventions of the embedding.

* Device and host arrays of `base_type` are functions `Nat → β` from address to content.
  A value of the element type `T` is its `n_elements = sizeof(T) / sizeof(base_type)`
  components, a function `Fin n_elements → β`.
* `unsigned` is 32 bits wide: every expression the source evaluates in `unsigned`
  is reduced modulo `2 ^ 32`; `size_t` fields are natural numbers.
* `assert` is a fatal failure: a function that asserts returns `Option`.
* A kernel launch `<<< N_blocks, N_threads >>>` runs the kernel body once for every
  thread index `0 .. N_blocks * N_threads - 1`, here in increasing index order.
* The block size `N_threads` and the switch `CUDA_AWARE_MPI` are preprocessor symbols
  defined outside these files; they are parameters of the host functions. The unary
  minus of the element type `T` is the parameter `neg`.
-/

namespace HILA

/-! ## Machine integers -/

/-- Number of values of the 32 bit type `unsigned`. -/
def UNSIGNED_MOD : Nat := 2 ^ 32

/-- Conversion of a value to `unsigned`. -/
def to_unsigned (x : Nat) : Nat := x % UNSIGNED_MOD

/-- Conversion of an `unsigned` or `size_t` value to the 32 bit type `int`. -/
def to_int (x : Nat) : Int :=
  if x % UNSIGNED_MOD < 2 ^ 31 then ((x % UNSIGNED_MOD : Nat) : Int)
  else ((x % UNSIGNED_MOD : Nat) : Int) - (2 ^ 32 : Int)

/-- Conversion of an `int` to `unsigned`, as in `Index < n` with `unsigned Index`, `int n`. -/
def int_to_unsigned (x : Int) : Nat := (x % (2 ^ 32 : Int)).toNat

/-! ## Memory -/

/-- An array seen from its base pointer: position to content. Arrays of `base_type`
are `Mem β`, arrays of `T` are `Mem (Fin n_elements → β)`. -/
abbrev Mem (β : Type) := Nat → β

/-- Store `x` at address `a`: the assignment `fp[a] = x`. -/
def Mem.write {β : Type} (fp : Mem β) (a : Nat) (x : β) : Mem β :=
  fun b => if b = a then x else fp b

/-- Result of `cudaMemcpy(dst, src, count)`, with `count` counted in array entries. -/
def cudaMemcpy {α : Type} (dst src : Mem α) (count : Nat) : Mem α :=
  fun a => if a < count then src a else dst a

/-! ## `field_storage<T>::get` and `set` (field_storage_backend.h, lines 37-63) -/

namespace field_storage

/-- Device read of element `i`: `value_f[e] = fp[e*field_alloc_size + i]` for every
component `e`, after `assert(i < field_alloc_size)`. -/
def get {β : Type} {n_elements : Nat} (fieldbuf : Mem β) (i field_alloc_size : Nat) :
    Option (Fin n_elements → β) :=
  if i < field_alloc_size then
    some (fun e => fieldbuf ((e.val * field_alloc_size + i) % UNSIGNED_MOD))
  else none

/-- Device write of element `i`: the loop `fp[e*field_alloc_size + i] = value_f[e]`
for `e = 0 .. n_elements - 1`, after `assert(i < field_alloc_size)`. -/
def set {β : Type} {n_elements : Nat} (fieldbuf : Mem β) (value : Fin n_elements → β)
    (i field_alloc_size : Nat) : Option (Mem β) :=
  if i < field_alloc_size then
    some ((List.finRange n_elements).foldl
      (fun fp e => fp.write ((e.val * field_alloc_size + i) % UNSIGNED_MOD) (value e))
      fieldbuf)
  else none

end field_storage

/-! ## Kernel launches -/

/-- The launch `kernel<<< N_blocks, N_threads >>>(...)`: the body runs once for each of the
`N_blocks * N_threads` threads, here in increasing order of the thread index
(`launch_scheduled` takes the order as a parameter); a failed device assertion aborts the
launch. The body receives `threadIdx.x + blockIdx.x * blockDim.x` before its reduction to
`unsigned`. -/
def launch {σ : Type} (N_blocks N_threads : Nat) (kernel : Nat → σ → Option σ) (s : σ) :
    Option σ :=
  (List.range (N_blocks * N_threads)).foldlM (fun st tid => kernel tid st) s

/-! ## `lattice_struct::comm_node_struct` (libraries/plumbing/lattice.h, lines 110-158) -/

/-- Site parity selector. -/
inductive Parity where
  | EVEN
  | ODD
  | ALL
  deriving DecidableEq, Repr

/-- Information necessary to communicate with a node. The counters are `size_t`;
`sitelist` is the content of the array the `unsigned *` points to. -/
structure comm_node_struct where
  rank : Nat
  sites : Nat
  evensites : Nat
  oddsites : Nat
  buffer : Nat
  sitelist : Nat → Nat

namespace comm_node_struct

/-- The sites of parity `par`: the returned pointer (the array seen from that pointer)
and the `int` written to `size`. -/
def get_sitelist (c : comm_node_struct) (par : Parity) : (Nat → Nat) × Int :=
  if par = Parity.ALL then (c.sitelist, to_int c.sites)
  else if par = Parity.EVEN then (c.sitelist, to_int c.evensites)
  else (fun k => c.sitelist (c.evensites + k), to_int c.oddsites)

/-- The number of sites that need to be communicated, an `unsigned`. -/
def n_sites (c : comm_node_struct) (par : Parity) : Nat :=
  if par = Parity.ALL then to_unsigned c.sites
  else if par = Parity.EVEN then to_unsigned c.evensites
  else to_unsigned c.oddsites

/-- The local index of a site that is sent to the neighbour. -/
def site_index (c : comm_node_struct) (site : Nat) (par : Parity) : Nat :=
  if par = Parity.ODD then c.sitelist (c.evensites + site) else c.sitelist site

/-- The offset of the halo from the start of the field array, an `unsigned`. -/
def offset (c : comm_node_struct) (par : Parity) : Nat :=
  if par = Parity.ODD then to_unsigned (c.buffer + c.evensites) else to_unsigned c.buffer

end comm_node_struct

/-- The first `size` entries of the array behind a pointer, as a list. -/
def entries (p : Nat → Nat) (size : Int) : List Nat :=
  (List.range size.toNat).map p

/-! ## Halo gather and place (field_storage_backend.h, lines 194-285 and 378-418) -/

namespace field_storage

/-- Body of `gather_comm_elements_kernel`: thread `Index < n` reads the element at
`site_index[Index]` and stores component `e` at `fp[Index + n*e]` of the buffer. -/
def gather_comm_elements_kernel {β : Type} (n_elements : Nat) (field : Mem β)
    (site_index : Nat → Nat) (n : Int) (field_alloc_size : Nat) (tid : Nat)
    (buffer : Mem β) : Option (Mem β) :=
  let Index := to_unsigned tid
  if Index < int_to_unsigned n then
    match (get field (site_index Index) field_alloc_size : Option (Fin n_elements → β)) with
    | none => none
    | some element =>
      some ((List.finRange n_elements).foldl
        (fun fp e => fp.write (to_unsigned (Index + int_to_unsigned n * e.val)) (element e))
        buffer)
  else some buffer

/-- Body of `gather_comm_elements_negated_kernel`: as above with `element = -field.get(..)`;
`neg` is the unary minus of `T`. -/
def gather_comm_elements_negated_kernel {β : Type} {n_elements : Nat}
    (neg : (Fin n_elements → β) → (Fin n_elements → β)) (field : Mem β)
    (site_index : Nat → Nat) (n : Int) (field_alloc_size : Nat) (tid : Nat)
    (buffer : Mem β) : Option (Mem β) :=
  let Index := to_unsigned tid
  if Index < int_to_unsigned n then
    match (get field (site_index Index) field_alloc_size : Option (Fin n_elements → β)) with
    | none => none
    | some got =>
      let element := neg got
      some ((List.finRange n_elements).foldl
        (fun fp e => fp.write (to_unsigned (Index + int_to_unsigned n * e.val)) (element e))
        buffer)
  else some buffer

/-- Host side `gather_comm_elements`. With `CUDA_AWARE_MPI` the kernel fills `buffer`
itself; otherwise it fills a fresh device allocation (content `d_alloc`) whose first
`n*sizeof(T)` bytes are copied to `buffer`. `N_blocks = n/N_threads + 1` is `int`
arithmetic. The device copy of the site list has the content of the host list. -/
def gather_comm_elements {β : Type} {n_elements : Nat} (N_threads : Nat)
    (CUDA_AWARE_MPI : Bool) (d_alloc : Mem β)
    (neg : (Fin n_elements → β) → (Fin n_elements → β))
    (fieldbuf : Mem β) (buffer : Mem β) (to_node : comm_node_struct) (par : Parity)
    (field_alloc_size : Nat) (antiperiodic : Bool) : Option (Mem β) :=
  let d_site_index := (to_node.get_sitelist par).1
  let n : Int := (to_node.get_sitelist par).2
  let d_buffer := if CUDA_AWARE_MPI then buffer else d_alloc
  let N_blocks : Int := Int.tdiv n (N_threads : Int) + 1
  let filled :=
    if antiperiodic then
      launch N_blocks.toNat N_threads
        (gather_comm_elements_negated_kernel neg fieldbuf d_site_index n field_alloc_size)
        d_buffer
    else
      launch N_blocks.toNat N_threads
        (gather_comm_elements_kernel n_elements fieldbuf d_site_index n
          field_alloc_size)
        d_buffer
  if CUDA_AWARE_MPI then filled
  else filled.map (fun d => cudaMemcpy buffer d (n.toNat * n_elements))

/-- Body of `place_comm_elements_kernel`: thread `Index < n` reads component `e` of its
element from `fp[Index + n*e]` of the buffer and stores the element at `offset + Index`. -/
def place_comm_elements_kernel {β : Type} (n_elements : Nat) (buffer : Mem β)
    (offset : Nat) (n : Int) (field_alloc_size : Nat) (tid : Nat) (field : Mem β) :
    Option (Mem β) :=
  let Index := to_unsigned tid
  if Index < int_to_unsigned n then
    let element : Fin n_elements → β :=
      fun e => buffer (to_unsigned (Index + int_to_unsigned n * e.val))
    set field element (to_unsigned (offset + Index)) field_alloc_size
  else some field

/-- Host side `place_comm_elements` (the direction argument is not used by the source).
Without `CUDA_AWARE_MPI` the kernel reads a device copy of the first `n*sizeof(T)` bytes
of `buffer`. `n` and `N_blocks` are `unsigned`. -/
def place_comm_elements {β : Type} (n_elements : Nat) (N_threads : Nat)
    (CUDA_AWARE_MPI : Bool) (d_alloc : Mem β)
    (fieldbuf : Mem β) (par : Parity) (buffer : Mem β) (from_node : comm_node_struct)
    (field_alloc_size : Nat) : Option (Mem β) :=
  let n := from_node.n_sites par
  let d_buffer := if CUDA_AWARE_MPI then buffer else cudaMemcpy d_alloc buffer (n * n_elements)
  let N_blocks := to_unsigned (n / N_threads + 1)
  launch N_blocks N_threads
    (place_comm_elements_kernel n_elements d_buffer (from_node.offset par)
      (to_int n) field_alloc_size)
    fieldbuf

/-! ## Gather and place by index list (field_storage_backend.h, lines 117-149, 291-323) -/

/-- Body of `gather_elements_kernel`: `buffer[Index] = field.get(site_index[Index], ..)`. -/
def gather_elements_kernel {β : Type} {n_elements : Nat} (field : Mem β)
    (site_index : Nat → Nat) (n : Int) (field_alloc_size : Nat) (tid : Nat)
    (buffer : Mem (Fin n_elements → β)) : Option (Mem (Fin n_elements → β)) :=
  let Index := to_unsigned tid
  if Index < int_to_unsigned n then
    match (get field (site_index Index) field_alloc_size : Option (Fin n_elements → β)) with
    | none => none
    | some value => some (buffer.write Index value)
  else some buffer

/-- Host side `gather_elements`: the kernel fills a fresh device allocation (content
`d_alloc`), whose first `n` entries are copied to `buffer`. The device copy of the index
list has the content of the host list. -/
def gather_elements {β : Type} {n_elements : Nat} (N_threads : Nat)
    (d_alloc : Mem (Fin n_elements → β)) (fieldbuf : Mem β)
    (buffer : Mem (Fin n_elements → β)) (index_list : Nat → Nat) (n : Int)
    (field_alloc_size : Nat) : Option (Mem (Fin n_elements → β)) :=
  let N_blocks : Int := Int.tdiv n (N_threads : Int) + 1
  (launch N_blocks.toNat N_threads
      (gather_elements_kernel fieldbuf index_list n field_alloc_size) d_alloc).map
    (fun d_buffer => cudaMemcpy buffer d_buffer n.toNat)

/-- Body of `place_elements_kernel`: `field.set(buffer[Index], site_index[Index], ..)`. -/
def place_elements_kernel {β : Type} {n_elements : Nat}
    (buffer : Mem (Fin n_elements → β)) (site_index : Nat → Nat) (n : Int)
    (field_alloc_size : Nat) (tid : Nat) (field : Mem β) : Option (Mem β) :=
  let Index := to_unsigned tid
  if Index < int_to_unsigned n then
    set field (buffer Index) (site_index Index) field_alloc_size
  else some field

/-- Host side `place_elements`: the first `n` entries of `buffer` are copied to a fresh
device allocation (content `d_alloc`), then the kernel runs. The device copy of the index
list has the content of the host list. -/
def place_elements {β : Type} {n_elements : Nat} (N_threads : Nat)
    (d_alloc : Mem (Fin n_elements → β)) (fieldbuf : Mem β)
    (buffer : Mem (Fin n_elements → β)) (index_list : Nat → Nat) (n : Int)
    (field_alloc_size : Nat) : Option (Mem β) :=
  let d_buffer := cudaMemcpy d_alloc buffer n.toNat
  let N_blocks : Int := Int.tdiv n (N_threads : Int) + 1
  launch N_blocks.toNat N_threads
    (place_elements_kernel d_buffer index_list n field_alloc_size) fieldbuf

end field_storage

/-! ## Loop ranges (libraries/plumbing/lattice.h, lines 270-301;
programs/plumbing/lattice.h, lines 165-195, with the same text) -/

/-- The site counters of `lattice_struct::node_struct` (`mynode`, `this_node`). -/
structure node_struct where
  sites : Nat
  evensites : Nat
  oddsites : Nat
  field_alloc_size : Nat

/-- First index of the loop over parity `P`, an `int`. `EVEN_SITES_FIRST` selects the
branch of the `#ifdef`. -/
def loop_begin (EVEN_SITES_FIRST : Bool) (mynode : node_struct) (P : Parity) : Int :=
  if EVEN_SITES_FIRST then
    if P = Parity.ODD then to_int mynode.evensites else 0
  else
    if P = Parity.EVEN then to_int mynode.evensites else 0

/-- One past the last index of the loop over parity `P`, an `int`. -/
def loop_end (EVEN_SITES_FIRST : Bool) (mynode : node_struct) (P : Parity) : Int :=
  if EVEN_SITES_FIRST then
    if P = Parity.EVEN then to_int mynode.evensites else to_int mynode.sites
  else
    if P = Parity.ODD then to_int mynode.evensites else to_int mynode.sites

/-! ## Sample data used to instantiate the theorems -/

/-- Unary minus of an element type whose components are integers. -/
def neg_int (n_elements : Nat) (v : Fin n_elements → Int) : Fin n_elements → Int :=
  fun e => - v e

/-- A sender node listing three sites (two even, one odd): `0, 2, 4`. -/
def sample_to_node : comm_node_struct := ⟨1, 3, 2, 1, 0, fun k => 2 * k⟩

/-- A receiver node expecting three sites (two even, one odd) from offset `8`. -/
def sample_from_node : comm_node_struct := ⟨0, 3, 2, 1, 8, fun _ => 0⟩

/-- A sender node listing 17 even sites `0, 2, .., 32`. -/
def wide_to_node : comm_node_struct := ⟨1, 17, 17, 0, 0, fun k => 2 * k⟩

/-- A receiver node expecting 17 even sites from offset `100`. -/
def wide_from_node : comm_node_struct := ⟨0, 17, 17, 0, 100, fun _ => 0⟩

/-- A node of three sites, two even and one odd. -/
def small_node : node_struct := ⟨3, 2, 1, 3⟩

/-- A node of `2^32` sites, half of them even. -/
def huge_node : node_struct := ⟨2 ^ 32, 2 ^ 31, 2 ^ 31, 2 ^ 32⟩

/-- A comm node with one even and `2^32 - 1` odd sites. -/
def huge_comm_node : comm_node_struct := ⟨0, 2 ^ 32, 1, 2 ^ 32 - 1, 0, fun k => k⟩

/-- Membership of index `i` in the halo range `[offset(par), offset(par) + n_sites(par))`. -/
def in_halo_range (c : comm_node_struct) (par : Parity) (i : Nat) : Prop :=
  c.offset par ≤ i ∧ i < c.offset par + c.n_sites par

/-! ## Kernel threads as lists of stores -/

/-- A sequence of stores `(address, value)`, applied in order. -/
def store_all {β : Type} (ws : List (Nat × β)) (m : Mem β) : Mem β :=
  ws.foldl (fun fp w => fp.write w.1 w.2) m

/-- The stores of all threads of a launch, in thread order; `W tid` is the list of stores
of thread `tid`, or `none` when its assertion fails. -/
def launch_stores {β : Type} (W : Nat → Option (List (Nat × β))) (L : List Nat) :
    List (Nat × β) :=
  (L.map (fun tid => (W tid).getD [])).flatten

/-- The stores of one thread of the gather kernel (with `neg` the identity for the kernel
that does not negate): `none` when the assertion of `get` fails. -/
def gather_comm_stores {β : Type} {n_elements : Nat}
    (neg : (Fin n_elements → β) → (Fin n_elements → β)) (field : Mem β)
    (site_index : Nat → Nat) (n : Int) (field_alloc_size : Nat) (tid : Nat) :
    Option (List (Nat × β)) :=
  if to_unsigned tid < int_to_unsigned n then
    (field_storage.get field (site_index (to_unsigned tid)) field_alloc_size).map
      (fun got => (List.finRange n_elements).map
        (fun e => (to_unsigned (to_unsigned tid + int_to_unsigned n * e.val), neg got e)))
  else some []

/-- The stores of one thread of the place kernel: `none` when the assertion of `set`
fails. -/
def place_comm_stores {β : Type} (n_elements : Nat) (buffer : Mem β) (offset : Nat)
    (n : Int) (field_alloc_size : Nat) (tid : Nat) : Option (List (Nat × β)) :=
  if to_unsigned tid < int_to_unsigned n then
    if to_unsigned (offset + to_unsigned tid) < field_alloc_size then
      some ((List.finRange n_elements).map
        (fun e => ((e.val * field_alloc_size + to_unsigned (offset + to_unsigned tid))
            % UNSIGNED_MOD,
          buffer (to_unsigned (to_unsigned tid + int_to_unsigned n * e.val)))))
    else none
  else some []

/-- The host buffer after a first antiperiodic transfer from the sample sender. -/
def first_transfer_buffer : Mem Int :=
  (field_storage.gather_comm_elements 4 false (fun _ => 0) (neg_int 2)
    (fun a => (a : Int)) (fun _ => 0) sample_to_node Parity.ALL 8 true).getD (fun _ => 0)

/-- The receiver field after that first transfer. -/
def first_transfer_field : Mem Int :=
  (field_storage.place_comm_elements 2 4 false (fun _ => 0) (fun _ => 0) Parity.ALL
    first_transfer_buffer sample_from_node 12).getD (fun _ => 0)

/-! ## Local antiperiodic boundary (field_storage_backend.h, lines 328-372) -/

/-- The record `lattice_struct::special_boundary_struct` of one direction
(libraries/plumbing/lattice.h, lines 189-195); the counters are `size_t`, the arrays are
seen from their `unsigned *`. -/
structure special_boundary_struct where
  neighbours : Nat → Nat
  move_index : Nat → Nat
  offset : Nat
  n_even : Nat
  n_odd : Nat
  n_total : Nat
  is_needed : Bool
  is_on_edge : Bool

namespace field_storage

/-- Body of `set_local_boundary_elements_kernel`: thread `Index < n` stores
`- field.get(site_index[Index])` at `offset + Index`. -/
def set_local_boundary_elements_kernel {β : Type} {n_elements : Nat}
    (neg : (Fin n_elements → β) → (Fin n_elements → β)) (offset : Nat)
    (site_index : Nat → Nat) (n : Int) (field_alloc_size : Nat) (tid : Nat)
    (field : Mem β) : Option (Mem β) :=
  let Index := to_unsigned tid
  if Index < int_to_unsigned n then
    match (get field (site_index Index) field_alloc_size : Option (Fin n_elements → β)) with
    | none => none
    | some got => set field (neg got) (to_unsigned (offset + Index)) field_alloc_size
  else some field

/-- Host side `set_local_boundary_elements`; `sb` is `lattice->special_boundaries[dir]`.
`n`, `start`, `offset` and `N_blocks` are `unsigned`; the device index list is a copy of
`move_index + start`. -/
def set_local_boundary_elements {β : Type} {n_elements : Nat} (N_threads : Nat)
    (neg : (Fin n_elements → β) → (Fin n_elements → β)) (fieldbuf : Mem β)
    (sb : special_boundary_struct) (par : Parity) (field_alloc_size : Nat)
    (antiperiodic : Bool) : Option (Mem β) :=
  if antiperiodic then
    let n := if par = Parity.ODD then to_unsigned sb.n_odd
      else if par = Parity.EVEN then to_unsigned sb.n_even else to_unsigned sb.n_total
    let start := if par = Parity.ODD then to_unsigned sb.n_even else 0
    let offset := to_unsigned (sb.offset + start)
    let d_site_index := fun k => sb.move_index (start + k)
    let N_blocks := to_unsigned (n / N_threads + 1)
    launch N_blocks N_threads
      (set_local_boundary_elements_kernel neg offset d_site_index (to_int n)
        field_alloc_size)
      fieldbuf
  else some fieldbuf

/-! ## Assertion failures and host side single element access
(field_storage_backend.h, lines 37-111) -/

/-- The field array that a call of `set` leaves behind, whether or not its assertion
holds: the assertion is the first statement, a failing call has stored nothing. -/
def set_effect {β : Type} {n_elements : Nat} (fieldbuf : Mem β)
    (value : Fin n_elements → β) (i field_alloc_size : Nat) : Mem β :=
  if i < field_alloc_size then
    (List.finRange n_elements).foldl
      (fun fp e => fp.write ((e.val * field_alloc_size + i) % UNSIGNED_MOD) (value e))
      fieldbuf
  else fieldbuf

/-- Body of `get_element_kernel` (one thread): `*((T*) buffer) = field.get(i, ..)`. -/
def get_element_kernel {β : Type} {n_elements : Nat} (field : Mem β)
    (buffer : Mem (Fin n_elements → β)) (i field_alloc_size : Nat) :
    Option (Mem (Fin n_elements → β)) :=
  (get field i field_alloc_size).map (fun value => buffer.write 0 value)

/-- Host side `get_element`: the kernel fills a fresh device allocation of one `T`
(content `d_alloc`), which is copied to the host value that is returned. -/
def get_element {β : Type} {n_elements : Nat} (d_alloc : Mem (Fin n_elements → β))
    (fieldbuf : Mem β) (i field_alloc_size : Nat) : Option (Fin n_elements → β) :=
  (get_element_kernel fieldbuf d_alloc i field_alloc_size).map (fun d_buffer => d_buffer 0)

/-- Body of `set_element_kernel` (one thread): `field.set((T*) buffer, i, ..)`. The
argument of `set` is the pointer, its template parameter `A` is `T*`, and
`(base_type *)&value` in `set` addresses the pointer object: the components stored are
the `n_elements` units of `base_type` that start at the pointer object (`pointer_object`),
the content of `buffer` is not read. -/
def set_element_kernel {β : Type} {n_elements : Nat} (pointer_object : Fin n_elements → β)
    (field : Mem β) (_buffer : Mem (Fin n_elements → β)) (i field_alloc_size : Nat) :
    Option (Mem β) :=
  set field pointer_object i field_alloc_size

/-- Host side `set_element`: the value is copied to a fresh device allocation of one `T`
(content `d_alloc`), then the kernel runs. -/
def set_element {β : Type} {n_elements : Nat} (pointer_object : Fin n_elements → β)
    (d_alloc : Mem (Fin n_elements → β)) (fieldbuf : Mem β) (value : Fin n_elements → β)
    (i field_alloc_size : Nat) : Option (Mem β) :=
  let t_value := value
  let d_buffer := d_alloc.write 0 t_value
  set_element_kernel pointer_object fieldbuf d_buffer i field_alloc_size

end field_storage

/-- A special boundary of 17 sites at offset `100`, moved from the sites `0, 2, .., 32`. -/
def wide_boundary : special_boundary_struct :=
  ⟨fun _ => 0, fun k => 2 * k, 100, 17, 0, 17, true, true⟩

/-- A special boundary of two even sites and one odd site at offset `8`, moved from the
sites `1, 3, 5`. -/
def sample_boundary : special_boundary_struct :=
  ⟨fun _ => 0, fun k => 2 * k + 1, 8, 2, 1, 3, true, true⟩

/-- Number of sites of parity `par` of a special boundary: `n_even`, `n_odd` or
`n_total`. -/
def special_boundary_struct.count (sb : special_boundary_struct) (par : Parity) : Nat :=
  if par = Parity.ODD then sb.n_odd else if par = Parity.EVEN then sb.n_even else sb.n_total

/-- Position of the first site of parity `par` in a special boundary: `n_even` for `ODD`,
`0` otherwise. -/
def special_boundary_struct.start (sb : special_boundary_struct) (par : Parity) : Nat :=
  if par = Parity.ODD then sb.n_even else 0

/-! ## MPI collectives and the communication routines of com_mpi.h

The processes of the communicator appear as a list in rank order: one entry per process
holds that process's copy of a variable or array. `MPI_Bcast`, `MPI_Allreduce` and
`MPI_Reduce` are the collectives of the MPI library, with the meaning the MPI standard
gives them. -/

/-- `MPI_Bcast(buffer, count, datatype, root, comm)`: every process ends with the content
of the buffer of `root`; a `root` that is not a rank of the communicator is an error. -/
def MPI_Bcast {α : Type} (buffers : List α) (root : Nat) : Option (List α) :=
  match buffers.get? root with
  | none => none
  | some x => some (buffers.map (fun _ => x))

/-- The template `hila::broadcast(T &var, int rank)` (com_mpi.h, lines 33-45);
`hila::number_of_nodes()` is the number of processes. -/
def broadcast {α : Type} (check_input : Bool) (var : List α) (rank : Int) :
    Option (List α) :=
  if check_input then some var
  else if 0 ≤ rank ∧ rank < (var.length : Int) then MPI_Bcast var 0
  else none

/-- The arithmetic types that `hila::number_type<T>` can be. -/
inductive number_type where
  | signed_char_t
  | unsigned_char_t
  | short_t
  | unsigned_short_t
  | int_t
  | unsigned_t
  | long_t
  | unsigned_long_t
  | long_long_t
  | unsigned_long_long_t
  | float_t
  | double_t
  | long_double_t
  deriving DecidableEq, Repr

/-- The type `int64_t` names on an LP64 platform. -/
def int64_t : number_type := number_type.long_t

/-- The type `uint64_t` names on an LP64 platform. -/
def uint64_t : number_type := number_type.unsigned_long_t

/-- Value of `sizeof` for an arithmetic type (LP64, x86-64). -/
def sizeof_number : number_type → Nat
  | number_type.signed_char_t => 1
  | number_type.unsigned_char_t => 1
  | number_type.short_t => 2
  | number_type.unsigned_short_t => 2
  | number_type.int_t => 4
  | number_type.unsigned_t => 4
  | number_type.long_t => 8
  | number_type.unsigned_long_t => 8
  | number_type.long_long_t => 8
  | number_type.unsigned_long_long_t => 8
  | number_type.float_t => 4
  | number_type.double_t => 8
  | number_type.long_double_t => 16

/-- The MPI datatypes named in com_mpi.h. -/
inductive MPI_Datatype where
  | MPI_INT
  | MPI_UNSIGNED
  | MPI_LONG
  | MPI_INT64_T
  | MPI_UINT64_T
  | MPI_FLOAT
  | MPI_DOUBLE
  | MPI_LONG_DOUBLE
  | MPI_BYTE
  | MPI_2INT
  | MPI_LONG_INT
  | MPI_FLOAT_INT
  | MPI_DOUBLE_INT
  | MPI_LONG_DOUBLE_INT
  deriving DecidableEq, Repr

/-- The function `get_MPI_number_type<T>(size, with_int)` (com_mpi.h, lines 116-147), as a
function of `hila::number_type<T>`: the datatype returned and the value stored in `size`. -/
def get_MPI_number_type (nt : number_type) (with_int : Bool) : MPI_Datatype × Nat :=
  if nt = number_type.int_t then
    (if with_int then MPI_Datatype.MPI_2INT else MPI_Datatype.MPI_INT,
      sizeof_number number_type.int_t)
  else if nt = number_type.unsigned_t then
    (if with_int then MPI_Datatype.MPI_2INT else MPI_Datatype.MPI_UNSIGNED,
      sizeof_number number_type.unsigned_t)
  else if nt = number_type.long_t then
    (if with_int then MPI_Datatype.MPI_LONG_INT else MPI_Datatype.MPI_LONG,
      sizeof_number number_type.long_t)
  else if nt = int64_t then
    (if with_int then MPI_Datatype.MPI_LONG_INT else MPI_Datatype.MPI_INT64_T,
      sizeof_number int64_t)
  else if nt = uint64_t then
    (if with_int then MPI_Datatype.MPI_LONG_INT else MPI_Datatype.MPI_UINT64_T,
      sizeof_number uint64_t)
  else if nt = number_type.float_t then
    (if with_int then MPI_Datatype.MPI_FLOAT_INT else MPI_Datatype.MPI_FLOAT,
      sizeof_number number_type.float_t)
  else if nt = number_type.double_t then
    (if with_int then MPI_Datatype.MPI_DOUBLE_INT else MPI_Datatype.MPI_DOUBLE,
      sizeof_number number_type.double_t)
  else if nt = number_type.long_double_t then
    (if with_int then MPI_Datatype.MPI_LONG_DOUBLE_INT else MPI_Datatype.MPI_LONG_DOUBLE,
      sizeof_number number_type.long_double_t)
  else (MPI_Datatype.MPI_BYTE, 1)

/-- The datatypes for which the MPI standard defines the operation `MPI_SUM`: the integer
and floating point types, not `MPI_BYTE` and not the value-index pair types. -/
def MPI_SUM_defined : MPI_Datatype → Bool
  | MPI_Datatype.MPI_INT => true
  | MPI_Datatype.MPI_UNSIGNED => true
  | MPI_Datatype.MPI_LONG => true
  | MPI_Datatype.MPI_INT64_T => true
  | MPI_Datatype.MPI_UINT64_T => true
  | MPI_Datatype.MPI_FLOAT => true
  | MPI_Datatype.MPI_DOUBLE => true
  | MPI_Datatype.MPI_LONG_DOUBLE => true
  | _ => false

/-- The contributions of all processes combined with `op`, in rank order. -/
def MPI_combine {α : Type} (op : α → α → α) : List α → Option α
  | [] => none
  | x :: xs => some (xs.foldl op x)

/-- What a reduction stores in a receive buffer `r`: entry `j < count` is the combination
of the entries `j` of all send buffers, the other entries keep their content. -/
def MPI_reduced {α : Type} (op : α → α → α) (sendbuf : List (Mem α)) (count : Int)
    (r : Mem α) : Mem α :=
  fun j => if j < count.toNat then (MPI_combine op (sendbuf.map (fun s => s j))).getD (r j)
    else r j

/-- `MPI_Allreduce(sendbuf, recvbuf, count, datatype, op, comm)`: every process receives
the reduction. `defined` says whether `op` is defined for the datatype; an undefined
operation or a negative count is an error. -/
def MPI_Allreduce {α : Type} (op : α → α → α) (defined : Bool)
    (sendbuf recvbuf : List (Mem α)) (count : Int) : Option (List (Mem α)) :=
  if defined = false ∨ count < 0 then none
  else some (recvbuf.map (MPI_reduced op sendbuf count))

/-- `MPI_Reduce(sendbuf, recvbuf, count, datatype, op, root, comm)`: only the process
`root` receives the reduction. -/
def MPI_Reduce {α : Type} (op : α → α → α) (defined : Bool)
    (sendbuf recvbuf : List (Mem α)) (count : Int) (root : Nat) : Option (List (Mem α)) :=
  if defined = false ∨ count < 0 then none
  else some (List.zipWith
    (fun rank r => if rank = root then MPI_reduced op sendbuf count r else r)
    (List.range recvbuf.length) recvbuf)

/-- The template `lattice_struct::reduce_node_sum(T *value, int N, bool distribute)`
(com_mpi.h, lines 151-175). `nt` is `hila::number_type<T>`, `k` is
`sizeof(T) / sizeof(hila::number_type<T>)`, the arrays hold numbers of type `nt`,
`MPI_SUM` is the sum of that type, `work` is the content of the local array `work` of
each process, `N` is a non-negative `int`. The element count of the collective is a
`size_t` converted to `int`. -/
def reduce_node_sum {α : Type} (MPI_SUM : α → α → α) (nt : number_type) (k : Nat)
    (work value : List (Mem α)) (N : Nat) (distribute : Bool) : Option (List (Mem α)) :=
  let dtype := (get_MPI_number_type nt false).1
  let count := to_int (N * k)
  if distribute then
    (MPI_Allreduce MPI_SUM (MPI_SUM_defined dtype) value work count).map
      (fun work' => List.zipWith (fun v w => fun i => if i < N * k then w i else v i)
        value work')
  else
    (MPI_Reduce MPI_SUM (MPI_SUM_defined dtype) value work count 0).map
      (fun work' => List.zipWith
        (fun rank vw => if rank = 0 then fun i => if i < N * k then vw.2 i else vw.1 i
          else vw.1)
        (List.range value.length) (List.zip value work'))

/-- The member `lattice_struct::reduce_node_sum(T &value, bool distribute)`
(libraries/plumbing/lattice.h, lines 351-356): the value of each process afterwards. -/
def reduce_node_sum_value {α : Type} (check_input : Bool) (MPI_SUM : α → α → α)
    (nt : number_type) (k : Nat) (work value : List (Mem α)) (distribute : Bool) :
    Option (List (Mem α)) :=
  if check_input = false then reduce_node_sum MPI_SUM nt k work value 1 distribute
  else some value

/-- Whether an arithmetic type is a signed integer type. -/
def number_signed : number_type → Bool
  | number_type.signed_char_t => true
  | number_type.short_t => true
  | number_type.int_t => true
  | number_type.long_t => true
  | number_type.long_long_t => true
  | _ => false

/-- Reduction of an integer to the range of an integer type of `bits` bits: modulo
`2^bits`, for a signed type into `[-2^(bits-1), 2^(bits-1))`. -/
def wrap_int (bits : Nat) (signed : Bool) (x : Int) : Int :=
  if signed then (x + 2 ^ (bits - 1)) % 2 ^ bits - 2 ^ (bits - 1) else x % 2 ^ bits

/-- Reduction of an integer to the range of the integer type `nt`. -/
def number_wrap (nt : number_type) (x : Int) : Int :=
  wrap_int (8 * sizeof_number nt) (number_signed nt) x

/-- Addition in the integer type `nt`, as `MPI_SUM` and `+=` perform it. -/
def number_add (nt : number_type) (a b : Int) : Int :=
  number_wrap nt (a + b)

/-- The total that a loop `for (int i = loop_begin(P); i < loop_end(P); i++) sum += c`
over the sites of parity `P` accumulates in a variable of integer type `nt`, from `0`. -/
def onsites_sum (nt : number_type) (EVEN_SITES_FIRST : Bool) (mynode : node_struct)
    (P : Parity) (c : Int) : Int :=
  (List.range (loop_end EVEN_SITES_FIRST mynode P
      - loop_begin EVEN_SITES_FIRST mynode P).toNat).foldl
    (fun sum _ => number_add nt sum c) 0

/-- The array a process holds after a completed sum reduction, in the words of the
claim: entry `i < N * k` is the sum over all processes of their entries `i`, taken in the
integer type `nt`; the other entries are those of `v`. -/
def reduced_sum (nt : number_type) (k N : Nat) (value : List (Mem Int)) (v : Mem Int) :
    Mem Int :=
  fun i => if i < N * k then number_wrap nt ((value.map (fun s => s i)).sum) else v i

/-- The arrays of three processes, two numbers each. -/
def sample_values : List (Mem Int) :=
  [fun i => 1 + (i : Int), fun i => 10 * ((i : Int) + 1), fun i => 7 - 12 * (i : Int)]

/-- Four nodes of 64 sites each, 32 of them even: a lattice of extent `(4,4,4,4)` on four
processes. -/
def four_nodes : List node_struct :=
  [⟨64, 32, 32, 64⟩, ⟨64, 32, 32, 64⟩, ⟨64, 32, 32, 64⟩, ⟨64, 32, 32, 64⟩]

/-- Two nodes of 128 sites each: a lattice of extent `(4,4,4,4)` on two processes. -/
def two_nodes : List node_struct := [⟨128, 64, 64, 128⟩, ⟨128, 64, 64, 128⟩]

/-! ## Seed shuffling (libraries/plumbing/random.cpp, lines 41-54) -/

/-- The node number `n` of `shuffle_rng_seed`, a `uint64_t`: the rank, plus
`hila::partitions.mylattice() * hila::number_of_nodes()` when there are several
partitions. `lattice_offset` is the value of that product, whose operands are declared
outside these files. -/
def node_number (myrank partitions_number lattice_offset : Nat) : Nat :=
  if partitions_number > 1 then (myrank % 2 ^ 64 + lattice_offset) % 2 ^ 64
  else myrank % 2 ^ 64

/-- The function `hila::shuffle_rng_seed(seed)`: `(seed + n) ^ (n << 31)` in `uint64_t`. -/
def shuffle_rng_seed (seed myrank partitions_number lattice_offset : Nat) : Nat :=
  let n := node_number myrank partitions_number lattice_offset
  ((seed + n) % 2 ^ 64) ^^^ ((n <<< 31) % 2 ^ 64)

/-! ## Site indexing and neighbour resolution

`lattice.h` declares `site_index`, `is_on_mynode`, the table `mynode.coordinates` and the
neighbour arrays `neighb`; the code that fills them (the layout and neighbour setup) is not
among the files at hand. The definitions of this section follow the specification. -/

/-- A coordinate vector: one signed integer per axis. -/
abbrev CoordinateVector := List Int

/-- A sub-box of the lattice: for every axis the first coordinate and the number of
coordinates the node owns. -/
abbrev SubBox := List (Int × Nat)

/-- Modelled from the spec: the parity of a site, missing with `coordinates.h`. A site is
even when the sum of its global coordinates is even. -/
def parity_even (c : CoordinateVector) : Bool := decide (c.sum % 2 = 0)

/-- Modelled from the spec: the enumeration of the sites of the local sub-box in row-major
coordinate order (Site Indexer, section 4.2); the layout setup is missing. The first axis
is the slowest. -/
def box_sites : SubBox → List CoordinateVector
  | [] => [[]]
  | (m, s) :: rest =>
    (List.range s).flatMap (fun x => (box_sites rest).map (fun c => (m + (x : Int)) :: c))

/-- Modelled from the spec: the local site order (Site Indexer, section 4.2), missing with
the layout setup: the row-major enumeration stably reordered so that all even sites
precede all odd sites. -/
def site_order (box : SubBox) : List CoordinateVector :=
  (box_sites box).filter parity_even ++ (box_sites box).filter (fun c => !parity_even c)

/-- Position of the first occurrence of `c` in a list of coordinates (the length of the
list when there is none). -/
def position (c : CoordinateVector) : List CoordinateVector → Nat
  | [] => 0
  | x :: xs => if x = c then 0 else position c xs + 1

/-- Modelled from the spec: `coordinateOf(index)`. In lattice.h `coordinates(idx)` returns
`mynode.coordinates[idx]`; the table is filled by the missing layout setup, here in the
site order of the spec. -/
def coordinates (box : SubBox) (idx : Nat) : CoordinateVector :=
  (site_order box).getD idx []

/-- Modelled from the spec: `indexOf(coordinate)`, the function `site_index` that lattice.h
only declares: the position of the coordinate in the site order. -/
def site_index (box : SubBox) (c : CoordinateVector) : Nat :=
  position c (site_order box)

/-- Modelled from the spec: `is_on_mynode`, only declared in lattice.h: the coordinate
lies in the local sub-box. -/
def is_on_mynode : SubBox → CoordinateVector → Bool
  | [], [] => true
  | (m, s) :: rest, x :: c => decide (m ≤ x) && decide (x < m + (s : Int)) && is_on_mynode rest c
  | _, _ => false

/-- One of the `2 * D` lattice directions: an axis, up or down. -/
structure Direction where
  axis : Nat
  up : Bool
  deriving DecidableEq, Repr

/-- The opposite direction. -/
def opp_dir (d : Direction) : Direction := ⟨d.axis, !d.up⟩

/-- Modelled from the spec: the unit vector `unit(d)` of a direction in `D` dimensions,
missing with `coordinates.h`. -/
def unit_vector (D : Nat) (d : Direction) : CoordinateVector :=
  (List.range D).map (fun j => if j = d.axis then (if d.up then 1 else -1) else 0)

/-- The member `mod_size` of lattice.h (line 236), `mod(v, l_size)`. Modelled from the
spec: `mod`, missing with `coordinates.h`, reduces every coordinate modulo the global
extent to a non-negative remainder. -/
def mod_size (l_size v : CoordinateVector) : CoordinateVector :=
  List.zipWith (fun x l => x % l) v l_size

/-- Modelled from the spec: the neighbour coordinate of the Neighbor Table Builder
(section 4.3), `coordinateOf(i) + unit(d)` modulo the global extent; the neighbour setup
is missing. -/
def neighbour_coordinate (l_size c : CoordinateVector) (d : Direction) : CoordinateVector :=
  mod_size l_size (List.zipWith (fun x u => x + u) c (unit_vector l_size.length d))

/-- The coordinate is a site of the lattice of extent `l_size`. -/
def is_site : CoordinateVector → CoordinateVector → Bool
  | [], [] => true
  | l :: ls, x :: c => decide (0 ≤ x) && decide (x < l) && is_site ls c
  | _, _ => false

/-- The sub-box `[0,2) x [2,5)` of a lattice of extent `(4, 5)`. -/
def sample_box : SubBox := [(0, 2), (2, 3)]

/-- Number of sites of a sub-box, `mynode.sites`: the product of its sizes. -/
def box_volume (box : SubBox) : Nat := (box.map (fun ms => ms.2)).prod

/-! ## Neighbour table, comm nodes and halo exchange

The neighbour arrays `neighb`, the comm nodes `nn_comminfo` and the node neighbours
`mynode.nn` are declared in `lattice.h`; the code that fills them and the exchange that a
field access starts are not among the files at hand. The definitions of this section
follow sections 3 and 4.3 to 4.5 of the specification, on field buffers indexed by the
local site index. -/

/-- Modelled from the spec: a boundary site of direction `d`, a site "whose `d`-neighbor
coordinate falls outside the local sub-box" (section 4.4); the setup of the comm nodes is
missing. -/
def is_boundary_site (box : SubBox) (l_size : CoordinateVector) (d : Direction)
    (c : CoordinateVector) : Bool :=
  !is_on_mynode box (neighbour_coordinate l_size c d)

/-- Modelled from the spec: the halo region of direction `d` (section 3), missing with the
setup of the comm nodes: one slot per boundary site, for the site expected from the
neighbour in that direction, in the order of the site indexer (row-major, all even sites
before all odd sites). -/
def halo_sites (box : SubBox) (l_size : CoordinateVector) (d : Direction) :
    List CoordinateVector :=
  (((box_sites box).filter (is_boundary_site box l_size d)).map
      (fun c => neighbour_coordinate l_size c d)).filter parity_even ++
    (((box_sites box).filter (is_boundary_site box l_size d)).map
      (fun c => neighbour_coordinate l_size c d)).filter (fun c => !parity_even c)

/-- Modelled from the spec: the receive offset of direction `d`, "the next free halo slot"
(section 4.4), missing with the setup of the comm nodes: the halo regions of the
directions `ds` are appended one after the other from `c_offset` on. -/
def halo_offset_from (box : SubBox) (l_size : CoordinateVector) :
    List Direction → Nat → Direction → Nat
  | [], c_offset, _ => c_offset
  | d' :: ds, c_offset, d =>
    if d' = d then c_offset
    else halo_offset_from box l_size ds (c_offset + (halo_sites box l_size d').length) d

/-- The class `SU2<radix>`: its four members `a`, `b`, `c`, `d`. -/
structure SU2 (radix : Type) where
  a : radix
  b : radix
  c : radix
  d : radix
  deriving DecidableEq, Repr

/-- The function-like define `nn_a(x,y)` (sun.h, line 12). -/
def nn_a {radix : Type} [Ring radix] (x y : SU2 radix) : radix :=
  x.d * y.a + x.a * y.d - x.b * y.c + x.c * y.b

/-- The function-like define `nn_b(x,y)` (sun.h, line 13). -/
def nn_b {radix : Type} [Ring radix] (x y : SU2 radix) : radix :=
  x.d * y.b + x.b * y.d - x.c * y.a + x.a * y.c

/-- The function-like define `nn_c(x,y)` (sun.h, line 14). -/
def nn_c {radix : Type} [Ring radix] (x y : SU2 radix) : radix :=
  x.d * y.c + x.c * y.d - x.a * y.b + x.b * y.a

/-- The function-like define `nn_d(x,y)` (sun.h, line 15). -/
def nn_d {radix : Type} [Ring radix] (x y : SU2 radix) : radix :=
  x.d * y.d - x.a * y.a - x.b * y.b - x.c * y.c

namespace SU2

/-- The friend `operator * (const SU2 & x, const SU2 & y)` (sun.h, lines 100-105). -/
def mul {radix : Type} [Ring radix] (x y : SU2 radix) : SU2 radix :=
  { a := nn_a x y, b := nn_b x y, c := nn_c x y, d := nn_d x y }

/-- The member `operator *= (const SU2 & y)` (sun.h, lines 234-241), for `y` another
object than `*this`: the four members of `*this` are assigned one after the other, and
each right hand side reads `*this` as the assignments before it left it. The result is
`*this` after the call. -/
def mul_assign {radix : Type} [Ring radix] (x y : SU2 radix) : SU2 radix :=
  let x1 : SU2 radix := { x with a := nn_a x y }
  let x2 : SU2 radix := { x1 with b := nn_b x1 y }
  let x3 : SU2 radix := { x2 with c := nn_c x2 y }
  { x3 with d := nn_d x3 y }

/-- The member `sqr()` (sun.h, lines 165-168). -/
def sqr {radix : Type} [Ring radix] (x : SU2 radix) : radix :=
  x.a * x.a + x.b * x.b + x.c * x.c + x.d * x.d

/-- The member `det()` (sun.h, lines 170-173). -/
def det {radix : Type} [Ring radix] (x : SU2 radix) : radix :=
  x.a * x.a + x.b * x.b + x.c * x.c + x.d * x.d

end SU2

/-! ## Thermalization step size (applications/suN_hmc/src/suN_hmc.cpp, lines 1127-1149) -/

/-- The block `if (nreject > 1) { for (irej = 0; irej < nreject - 1; ++irej)
{ p.dt *= 0.5; p.trajlen *= 2; } }` of the thermalization schedule: `p.dt` and
`p.trajlen` after it, from their values before it. `p.dt` is taken as an exact number
(halving is exact in binary floating point), `p.trajlen` and `nreject` are 32 bit `int`
and a doubling that leaves the range of `int` wraps around. -/
def reduce_step_size (dt : ℚ) (trajlen nreject : Int) : ℚ × Int :=
  if nreject > 1 then
    (List.range (nreject - 1).toNat).foldl
      (fun p _ => (p.1 * (1 / 2), wrap_int 32 true (p.2 * 2))) (dt, trajlen)
  else (dt, trajlen)

/-! ## Element count of the sum reduction (com_mpi.h, lines 151-175) -/

/-- The count argument `N * sizeof(T) / sizeof(hila::number_type<T>)` of the collective in
`reduce_node_sum`: a `size_t` expression converted to the `int` parameter. `sizeof_T` is
`sizeof(T)` and `nt` is `hila::number_type<T>`. -/
def reduce_node_sum_count (N sizeof_T : Nat) (nt : number_type) : Int :=
  to_int (N * sizeof_T / sizeof_number nt)

/-- Number of bytes of the array that the collective of `reduce_node_sum` covers: the count
times the byte size of the datatype that `get_MPI_number_type<T>` selects. -/
def reduce_node_sum_bytes (N sizeof_T : Nat) (nt : number_type) : Int :=
  reduce_node_sum_count N sizeof_T nt * ((get_MPI_number_type nt false).2 : Int)

/-! ## Adaptive Wilson flow (applications/suN_hmc/src/suN_hmc.cpp, lines 869-975) -/

/-- The variables of `do_wilson_flow_adapt` that the integration loop updates: the flow
time `t`, the step size `step`, the flag `stop`, the field `V` and its copy `V0`. -/
structure flow_state (G : Type) where
  t : ℚ
  step : ℚ
  stop : Bool
  V : G
  V0 : G

/-- One pass through the body of the loop `while (t < tmax && !stop)`. The numbers are
exact. `flow_step step V` is the field that the three Runge-Kutta stages leave in `V`,
`error_root step V` is the value of `pow(maxreldiff, 1.0/3.0)` found for that step; a
division of the positive step size by zero gives `+inf`, so `maxstep` is `1.0` then. -/
def wilson_flow_iteration {G : Type} (flow_step : ℚ → G → G) (error_root : ℚ → G → ℚ)
    (tmax lstab : ℚ) (s : flow_state G) : flow_state G :=
  let step := if s.t + s.step ≥ tmax then tmax - s.t
    else if s.t + 2 * s.step ≥ tmax then 51 / 100 * (tmax - s.t) else s.step
  let stop := if s.t + s.step ≥ tmax then true else s.stop
  let V := flow_step step s.V
  let maxstep := if error_root step s.V = 0 then 1 else min (step / error_root step s.V) 1
  if step > maxstep then
    { t := s.t, step := min (9 / 10 * maxstep) lstab, stop := stop, V := s.V0, V0 := s.V0 }
  else
    { t := s.t + step, step := min (9 / 10 * maxstep) lstab, stop := stop, V := V, V0 := V }

/-- The loop `while (t < tmax && !stop)`, run for at most `fuel` passes; `none` when the
loop has not ended by then. -/
def wilson_flow_loop {G : Type} (flow_step : ℚ → G → G) (error_root : ℚ → G → ℚ)
    (tmax lstab : ℚ) : Nat → flow_state G → Option (flow_state G)
  | 0, s => if s.t < tmax ∧ s.stop = false then none else some s
  | fuel + 1, s =>
    if s.t < tmax ∧ s.stop = false then
      wilson_flow_loop flow_step error_root tmax lstab fuel
        (wilson_flow_iteration flow_step error_root tmax lstab s)
    else some s

/-- The function `do_wilson_flow_adapt(V, l_start, l_end, p, tstep)`: the variables at the
return, with `V` after `V.reunitarize_gauge()`; the value returned is `step`. -/
def do_wilson_flow_adapt {G : Type} (flow_step : ℚ → G → G) (error_root : ℚ → G → ℚ)
    (reunitarize_gauge : G → G) (fuel : Nat) (V : G) (l_start l_end tstep : ℚ) :
    Option (flow_state G) :=
  let t := l_start * l_start / 8
  let tmax := l_end * l_end / 8
  let lstab : ℚ := 95 / 1000
  let step := min (min tstep (51 / 100 * (tmax - t))) lstab
  (wilson_flow_loop flow_step error_root tmax lstab fuel
    { t := t, step := step, stop := false, V := V, V0 := V }).map
    (fun s => { s with V := reunitarize_gauge s.V })

/-- A field that only records the sizes of the steps taken on it. -/
def record_step (step : ℚ) (V : List ℚ) : List ℚ := V ++ [step]

/-- An error estimate just below the tolerance on the unflowed field and just above it
afterwards. -/
def sample_error_root (_ : ℚ) (V : List ℚ) : ℚ := if V = [] then 9 / 10 else 11 / 10

/-! ## Matrix inverse by the Cayley-Hamilton theorem (suN_hmc.cpp, lines 662-678) -/

/-- The variables of `ch_inv`: the array `tB[2]`, the index `ip` and the scalar `tc`. -/
structure ch_inv_state (K : Type) (N : Nat) where
  tB : Fin 2 → Matrix (Fin N) (Fin N) K
  ip : Fin 2
  tc : K

/-- Body of the loop `for (k = 2; k <= T::size(); ++k)` of `ch_inv`:
`tB[1-ip] -= tc; mult(U, tB[1-ip], tB[ip]); tc = trace(tB[ip]) / k; ip = 1 - ip`.
Subtracting a scalar from a matrix subtracts it on the diagonal, and `mult(a, b, c)`
stores the product `a * b` in `c`. -/
def ch_inv_step {K : Type} [Field K] {N : Nat} (U : Matrix (Fin N) (Fin N) K) (k : Nat)
    (s : ch_inv_state K N) : ch_inv_state K N :=
  let tB1 := Function.update s.tB (1 - s.ip)
    (s.tB (1 - s.ip) - Matrix.diagonal (fun _ => s.tc))
  let tB2 := Function.update tB1 s.ip (U * tB1 (1 - s.ip))
  { tB := tB2, ip := 1 - s.ip, tc := Matrix.trace (tB2 s.ip) / (k : K) }

/-- The function `ch_inv(U)` for an `N × N` matrix type `T` over exact numbers `K`
(`N = T::size()`): `tB[0] = 1`, `tc = trace(U)`, `tB[1] = U`, the loop for
`k = 2, .., N`, and the result `tB[ip] / tc`. -/
def ch_inv {K : Type} [Field K] {N : Nat} (U : Matrix (Fin N) (Fin N) K) :
    Matrix (Fin N) (Fin N) K :=
  let s := (List.range' 2 (N - 1)).foldl (fun s k => ch_inv_step U k s)
    ({ tB := fun i => if i = 0 then 1 else U, ip := 0, tc := Matrix.trace U } :
      ch_inv_state K N)
  (s.tB s.ip).map (fun x => x / s.tc)

/-- A `3 × 3` matrix of determinant `8` with rational entries. -/
def sample_matrix : Matrix (Fin 3) (Fin 3) ℚ := !![2, 1, 0; 1, 3, 1; 0, 1, 2]

/-! ## Launches with an explicit thread order -/

/-- The launch `kernel<<< N_blocks, N_threads >>>(...)` with the order of its threads made
explicit. CUDA fixes no order among the threads of a launch: `schedule` arranges the
thread indices `0 .. N_blocks * N_threads - 1`, and the body runs once for each thread in
that order. -/
def launch_scheduled {σ : Type} (schedule : List Nat → List Nat) (N_blocks N_threads : Nat)
    (kernel : Nat → σ → Option σ) (s : σ) : Option σ :=
  (schedule (List.range (N_blocks * N_threads))).foldlM (fun st tid => kernel tid st) s

namespace field_storage

/-- Host side `gather_comm_elements`, with the thread order of its launch made explicit. -/
def gather_comm_elements_scheduled {β : Type} {n_elements : Nat}
    (schedule : List Nat → List Nat) (N_threads : Nat)
    (CUDA_AWARE_MPI : Bool) (d_alloc : Mem β)
    (neg : (Fin n_elements → β) → (Fin n_elements → β))
    (fieldbuf : Mem β) (buffer : Mem β) (to_node : comm_node_struct) (par : Parity)
    (field_alloc_size : Nat) (antiperiodic : Bool) : Option (Mem β) :=
  let d_site_index := (to_node.get_sitelist par).1
  let n : Int := (to_node.get_sitelist par).2
  let d_buffer := if CUDA_AWARE_MPI then buffer else d_alloc
  let N_blocks : Int := Int.tdiv n (N_threads : Int) + 1
  let filled :=
    if antiperiodic then
      launch_scheduled schedule N_blocks.toNat N_threads
        (gather_comm_elements_negated_kernel neg fieldbuf d_site_index n field_alloc_size)
        d_buffer
    else
      launch_scheduled schedule N_blocks.toNat N_threads
        (gather_comm_elements_kernel n_elements fieldbuf d_site_index n
          field_alloc_size)
        d_buffer
  if CUDA_AWARE_MPI then filled
  else filled.map (fun d => cudaMemcpy buffer d (n.toNat * n_elements))

/-- Host side `place_comm_elements`, with the thread order of its launch made explicit. -/
def place_comm_elements_scheduled {β : Type} (n_elements : Nat)
    (schedule : List Nat → List Nat) (N_threads : Nat)
    (CUDA_AWARE_MPI : Bool) (d_alloc : Mem β)
    (fieldbuf : Mem β) (par : Parity) (buffer : Mem β) (from_node : comm_node_struct)
    (field_alloc_size : Nat) : Option (Mem β) :=
  let n := from_node.n_sites par
  let d_buffer := if CUDA_AWARE_MPI then buffer else cudaMemcpy d_alloc buffer (n * n_elements)
  let N_blocks := to_unsigned (n / N_threads + 1)
  launch_scheduled schedule N_blocks N_threads
    (place_comm_elements_kernel n_elements d_buffer (from_node.offset par)
      (to_int n) field_alloc_size)
    fieldbuf

end field_storage

/-! ## Basic facts: machine integers and memory -/

theorem to_unsigned_of_lt {x : Nat} (h : x < 2 ^ 32) : to_unsigned x = x := by
  unfold to_unsigned UNSIGNED_MOD
  exact Nat.mod_eq_of_lt h

theorem to_unsigned_lt (x : Nat) : to_unsigned x < 2 ^ 32 := by
  unfold to_unsigned UNSIGNED_MOD
  exact Nat.mod_lt _ (by norm_num)

theorem to_unsigned_le (x : Nat) : to_unsigned x ≤ x := by
  unfold to_unsigned
  exact Nat.mod_le _ _

theorem to_int_of_lt {x : Nat} (h : x < 2 ^ 31) : to_int x = (x : Int) := by
  have h32 : x % 2 ^ 32 = x := Nat.mod_eq_of_lt (by omega)
  simp only [to_int, UNSIGNED_MOD, h32, if_pos h]

theorem int_to_unsigned_to_int (x : Nat) : int_to_unsigned (to_int x) = to_unsigned x := by
  unfold int_to_unsigned to_int to_unsigned UNSIGNED_MOD
  have hlt : x % 2 ^ 32 < 2 ^ 32 := Nat.mod_lt _ (by norm_num)
  split <;> omega

theorem int_to_unsigned_natCast {x : Nat} (h : x < 2 ^ 32) :
    int_to_unsigned (x : Int) = x := by
  unfold int_to_unsigned
  omega

theorem Mem.write_same {β : Type} (fp : Mem β) (a : Nat) (x : β) : fp.write a x a = x := by
  simp [Mem.write]

theorem Mem.write_of_ne {β : Type} (fp : Mem β) {a b : Nat} (x : β) (h : b ≠ a) :
    fp.write a x b = fp b := by
  simp [Mem.write, h]

/-- A loop of stores leaves every address alone that no iteration writes. -/
theorem foldl_write_of_not_mem {β ι : Type} (addr : ι → Nat) (val : ι → β) (a : Nat) :
    ∀ (l : List ι) (fp : Mem β), (∀ e ∈ l, addr e ≠ a) →
      l.foldl (fun fp e => fp.write (addr e) (val e)) fp a = fp a := by
  intro l
  induction l with
  | nil => intro fp _; rfl
  | cons x xs ih =>
    intro fp h
    rw [List.foldl_cons, ih _ (fun e he => h e (List.mem_cons_of_mem _ he))]
    exact Mem.write_of_ne _ _ (fun hax => h x (List.mem_cons_self _ _) hax.symm)

/-- A loop of stores to pairwise different addresses: each address holds its value. -/
theorem foldl_write_of_mem {β ι : Type} (addr : ι → Nat) (val : ι → β) :
    ∀ (l : List ι) (fp : Mem β) (e : ι), e ∈ l →
      (∀ x ∈ l, ∀ y ∈ l, addr x = addr y → x = y) → l.Nodup →
      l.foldl (fun fp e => fp.write (addr e) (val e)) fp (addr e) = val e := by
  intro l
  induction l with
  | nil => intro fp e he; cases he
  | cons x xs ih =>
    intro fp e he hinj hnd
    rw [List.foldl_cons]
    rcases List.mem_cons.mp he with rfl | hmem
    · rw [foldl_write_of_not_mem]
      · exact Mem.write_same _ _ _
      · intro y hy hxy
        have : y = e := hinj y (List.mem_cons_of_mem _ hy) e (List.mem_cons_self _ _) hxy
        subst this
        exact (List.nodup_cons.mp hnd).1 hy
    · exact ih _ e hmem
        (fun a ha b hb => hinj a (List.mem_cons_of_mem _ ha) b (List.mem_cons_of_mem _ hb))
        (List.nodup_cons.mp hnd).2

/-- Component addresses `e * F + i` stay below `2 ^ 32` when the field does. -/
theorem addr_lt {n_elements F i : Nat} (e : Fin n_elements) (hF : n_elements * F ≤ 2 ^ 32)
    (hi : i < F) : e.val * F + i < 2 ^ 32 := by
  have h1 : (e.val + 1) * F ≤ n_elements * F := Nat.mul_le_mul_right F e.isLt
  have h2 : (e.val + 1) * F = e.val * F + F := by ring
  omega

/-- Without wrap-around the component addresses of all sites are pairwise different. -/
theorem addr_inj {F i j e e' : Nat} (hi : i < F) (hj : j < F)
    (h : e * F + i = e' * F + j) : e = e' ∧ i = j := by
  have hi' : (e * F + i) % F = i := by
    rw [Nat.add_comm, Nat.add_mul_mod_self_right]; exact Nat.mod_eq_of_lt hi
  have hj' : (e' * F + j) % F = j := by
    rw [Nat.add_comm, Nat.add_mul_mod_self_right]; exact Nat.mod_eq_of_lt hj
  have hij : i = j := by rw [← hi', ← hj', h]
  subst hij
  have hF : 0 < F := by omega
  exact ⟨Nat.eq_of_mul_eq_mul_right hF (by omega), rfl⟩

namespace field_storage

/-- What `set` leaves behind when the field fits 32 bit addressing: the components of
`value` at the addresses of site `i`, everything else untouched. -/
theorem set_spec {β : Type} {n_elements : Nat} (fieldbuf : Mem β)
    (value : Fin n_elements → β) {i F : Nat} (hF : n_elements * F ≤ 2 ^ 32) (hi : i < F) :
    ∃ fp, set fieldbuf value i F = some fp ∧
      (∀ e : Fin n_elements, fp (e.val * F + i) = value e) ∧
      (∀ a, (∀ e : Fin n_elements, a ≠ e.val * F + i) → fp a = fieldbuf a) := by
  refine ⟨_, by unfold set; rw [if_pos hi], ?_, ?_⟩
  · intro e
    have hmod : (e.val * F + i) % UNSIGNED_MOD = e.val * F + i :=
      Nat.mod_eq_of_lt (addr_lt e hF hi)
    rw [← hmod]
    refine foldl_write_of_mem (fun e : Fin n_elements => (e.val * F + i) % UNSIGNED_MOD) value
      _ _ e (List.mem_finRange e) ?_ (List.nodup_finRange _)
    intro x _ y _ hxy
    simp only [UNSIGNED_MOD] at hxy
    rw [Nat.mod_eq_of_lt (addr_lt x hF hi), Nat.mod_eq_of_lt (addr_lt y hF hi)] at hxy
    exact Fin.ext (addr_inj hi hi hxy).1
  · intro a ha
    refine foldl_write_of_not_mem
      (fun e : Fin n_elements => (e.val * F + i) % UNSIGNED_MOD) value a _ _ ?_
    intro e _ hea
    simp only [UNSIGNED_MOD] at hea
    rw [Nat.mod_eq_of_lt (addr_lt e hF hi)] at hea
    exact ha e hea.symm

/-- Reading through `get` when the field fits 32 bit addressing. -/
theorem get_eq {β : Type} {n_elements : Nat} (fieldbuf : Mem β) {i F : Nat}
    (hF : n_elements * F ≤ 2 ^ 32) (hi : i < F) :
    (get fieldbuf i F : Option (Fin n_elements → β)) =
      some (fun e => fieldbuf (e.val * F + i)) := by
  simp only [get, if_pos hi]
  congr 1
  funext e
  simp only [UNSIGNED_MOD]
  rw [Nat.mod_eq_of_lt (addr_lt e hF hi)]

end field_storage

/-! ## Kernel launches: proof rules -/

theorem lt_blocks_mul (n T : Nat) (hT : 0 < T) : n < (n / T + 1) * T := by
  have h := Nat.div_add_mod n T
  have h2 := Nat.mod_lt n hT
  have h3 : (n / T + 1) * T = T * (n / T) + T := by ring
  omega

theorem tdiv_blocks (n T : Nat) : (Int.tdiv (n : Int) (T : Int) + 1).toNat = n / T + 1 := by
  have : Int.tdiv (n : Int) (T : Int) = ((n / T : Nat) : Int) := by
    simp [Int.tdiv]
  rw [this]
  generalize n / T = q
  omega

/-- Hoare rule for a launch: `I` is kept by every thread, `Q tid` is established by
thread `tid` and kept by all threads. -/
theorem foldlM_threads {σ : Type} (k : Nat → σ → Option σ) (I : σ → Prop)
    (Q : Nat → σ → Prop) :
    ∀ (L : List Nat) (s : σ), I s →
      (∀ tid ∈ L, ∀ st, I st →
        ∃ st', k tid st = some st' ∧ I st' ∧ Q tid st' ∧ ∀ t, Q t st → Q t st') →
      ∃ st, L.foldlM (fun st tid => k tid st) s = some st ∧ I st ∧
        (∀ tid ∈ L, Q tid st) ∧ ∀ t, Q t s → Q t st := by
  intro L
  induction L with
  | nil => intro s hI _; exact ⟨s, rfl, hI, fun _ h => absurd h (List.not_mem_nil _), fun _ h => h⟩
  | cons x xs ih =>
    intro s hI hstep
    obtain ⟨s1, hk, hI1, hQ1, hkeep1⟩ := hstep x (List.mem_cons_self _ _) s hI
    obtain ⟨st, hfold, hIst, hQxs, hkeep⟩ :=
      ih s1 hI1 (fun tid htid => hstep tid (List.mem_cons_of_mem _ htid))
    refine ⟨st, ?_, hIst, ?_, fun t ht => hkeep t (hkeep1 t ht)⟩
    · rw [List.foldlM_cons, hk]; exact hfold
    · intro tid htid
      rcases List.mem_cons.mp htid with rfl | h
      · exact hkeep _ hQ1
      · exact hQxs tid h

/-- A property kept by every thread that completes holds after a completed launch. -/
theorem foldlM_preserves {σ : Type} (k : Nat → σ → Option σ) (I : σ → Prop) :
    ∀ (L : List Nat) (s st' : σ),
      (∀ tid ∈ L, ∀ st st1, I st → k tid st = some st1 → I st1) → I s →
      L.foldlM (fun st tid => k tid st) s = some st' → I st' := by
  intro L
  induction L with
  | nil =>
    intro s st' _ hI h
    have : s = st' := by simpa using h
    exact this ▸ hI
  | cons x xs ih =>
    intro s st' hstep hI h
    rw [List.foldlM_cons] at h
    cases hk : k x s with
    | none => rw [hk] at h; simp at h
    | some s1 =>
      rw [hk] at h
      exact ih s1 st' (fun tid htid => hstep tid (List.mem_cons_of_mem _ htid))
        (hstep x (List.mem_cons_self _ _) s s1 hI hk) h

/-- A thread whose assertion fails in every state aborts the launch. -/
theorem foldlM_none_of_thread {σ : Type} (k : Nat → σ → Option σ) (tid : Nat)
    (hfail : ∀ st, k tid st = none) :
    ∀ (L : List Nat) (s : σ), tid ∈ L → L.foldlM (fun st t => k t st) s = none := by
  intro L
  induction L with
  | nil => intro s h; cases h
  | cons x xs ih =>
    intro s h
    rw [List.foldlM_cons]
    cases hk : k x s with
    | none => rfl
    | some s1 =>
      rcases List.mem_cons.mp h with rfl | hmem
      · rw [hfail] at hk; cases hk
      · exact ih s1 hmem

/-- One thread's loop of stores over the components, to pairwise different addresses. -/
theorem row_write {β : Type} {n_elements : Nat} (addr : Fin n_elements → Nat)
    (val : Fin n_elements → β) (hinj : ∀ x y, addr x = addr y → x = y) (fp : Mem β) :
    (∀ e, (List.finRange n_elements).foldl (fun fp e => fp.write (addr e) (val e)) fp
        (addr e) = val e) ∧
    (∀ a, (∀ e, a ≠ addr e) →
      (List.finRange n_elements).foldl (fun fp e => fp.write (addr e) (val e)) fp a = fp a) :=
  ⟨fun e => foldl_write_of_mem addr val _ fp e (List.mem_finRange e)
      (fun x _ y _ h => hinj x y h) (List.nodup_finRange _),
   fun a ha => foldl_write_of_not_mem addr val a _ fp (fun e _ h => ha e h.symm)⟩

/-- Buffer positions `Index + n*e` stay below `2 ^ 32` when the buffer does. -/
theorem buf_addr_lt {n_elements n k : Nat} (e : Fin n_elements) (hk : k < n) :
    k + n * e.val < n * n_elements := by
  have h1 : n * (e.val + 1) ≤ n * n_elements := Nat.mul_le_mul_left n e.isLt
  have h2 : n * (e.val + 1) = n * e.val + n := by ring
  omega

theorem buf_addr_inj {n k k' e e' : Nat} (hk : k < n) (hk' : k' < n)
    (h : k + n * e = k' + n * e') : k = k' ∧ e = e' := by
  have h' : e * n + k = e' * n + k' := by
    rw [Nat.mul_comm e n, Nat.mul_comm e' n, Nat.add_comm, h, Nat.add_comm]
  exact ⟨(addr_inj hk hk' h').2, (addr_inj hk hk' h').1⟩

namespace field_storage

theorem gather_comm_elements_kernel_eq {β : Type} (n_elements : Nat) (field : Mem β)
    (site_index : Nat → Nat) (n : Int) (F : Nat) :
    gather_comm_elements_kernel n_elements field site_index n F =
      gather_comm_elements_negated_kernel (id : (Fin n_elements → β) → Fin n_elements → β) field site_index n F :=
  rfl

/-- Effect of the threads of a gather launch on the buffer, when the buffer positions do
not wrap and every listed site passes the assertion of `get`. -/
theorem gather_comm_threads {β : Type} {n_elements : Nat}
    (neg : (Fin n_elements → β) → (Fin n_elements → β)) (field : Mem β)
    (site_index : Nat → Nat) (n_int : Int) (n F : Nat) (hn : int_to_unsigned n_int = n)
    (hbuf : n * n_elements ≤ 2 ^ 32) (hidx : ∀ k, k < n → site_index k < F)
    (L : List Nat) (buffer : Mem β) :
    ∃ buf', L.foldlM (fun st tid =>
        gather_comm_elements_negated_kernel neg field site_index n_int F tid st) buffer
          = some buf' ∧
      ∀ tid ∈ L, to_unsigned tid < n → ∀ e : Fin n_elements,
        buf' (to_unsigned tid + n * e.val) =
          neg (fun e => field ((e.val * F + site_index (to_unsigned tid)) % UNSIGNED_MOD)) e := by
  obtain ⟨buf', h, -, hQ, -⟩ := foldlM_threads
    (gather_comm_elements_negated_kernel neg field site_index n_int F) (fun _ => True)
    (fun tid st => to_unsigned tid < n → ∀ e : Fin n_elements,
        st (to_unsigned tid + n * e.val) =
          neg (fun e => field ((e.val * F + site_index (to_unsigned tid)) % UNSIGNED_MOD)) e)
    L buffer trivial (by
      intro tid _ st _
      by_cases hact : to_unsigned tid < n
      · have hget : (get field (site_index (to_unsigned tid)) F : Option (Fin n_elements → β)) =
            some (fun e => field ((e.val * F + site_index (to_unsigned tid)) % UNSIGNED_MOD)) := by
          unfold get; rw [if_pos (hidx _ hact)]
        have haddr : ∀ e : Fin n_elements,
            to_unsigned (to_unsigned tid + n * e.val) = to_unsigned tid + n * e.val :=
          fun e => to_unsigned_of_lt (lt_of_lt_of_le (buf_addr_lt e hact) hbuf)
        have hk : gather_comm_elements_negated_kernel neg field site_index n_int F tid st =
            some ((List.finRange n_elements).foldl (fun fp e => fp.write
              ((fun e : Fin n_elements => to_unsigned (to_unsigned tid + n * e.val)) e)
              (neg (fun e => field ((e.val * F + site_index (to_unsigned tid)) % UNSIGNED_MOD)) e))
              st) := by
          simp only [gather_comm_elements_negated_kernel, hn, if_pos hact, hget]
        obtain ⟨hw, hframe⟩ := row_write
          (fun e : Fin n_elements => to_unsigned (to_unsigned tid + n * e.val))
          (neg (fun e => field ((e.val * F + site_index (to_unsigned tid)) % UNSIGNED_MOD)))
          (by
            intro x y hxy
            simp only [haddr] at hxy
            exact Fin.ext (buf_addr_inj hact hact hxy).2) st
        refine ⟨_, hk, trivial, ?_, ?_⟩
        · intro _ e
          have := hw e
          rw [haddr e] at this
          exact this
        · intro t hQt ht e
          by_cases hsame : to_unsigned t = to_unsigned tid
          · have := hw e
            rw [haddr e] at this
            rw [hsame]; exact this
          · rw [hframe]
            · exact hQt ht e
            · intro e' he'
              rw [haddr] at he'
              exact hsame (buf_addr_inj ht hact he').1
      · exact ⟨st, by simp only [gather_comm_elements_negated_kernel, hn, if_neg hact],
          trivial, fun h => absurd h hact, fun t hQt => hQt⟩)
  exact ⟨buf', h, hQ⟩

end field_storage

namespace field_storage

/-- Effect of the threads of a place launch on the field, when the halo range lies inside
a field that fits 32 bit addressing. -/
theorem place_comm_threads {β : Type} (n_elements : Nat) (buffer : Mem β)
    (offset : Nat) (n_int : Int) (n F : Nat) (hn : int_to_unsigned n_int = n)
    (hF : n_elements * F ≤ 2 ^ 32) (hFu : F < 2 ^ 32) (hoff : offset + n ≤ F)
    (L : List Nat) (field : Mem β) :
    ∃ fld', L.foldlM (fun st tid =>
        place_comm_elements_kernel n_elements buffer offset n_int F tid st)
          field = some fld' ∧
      (∀ a, (∀ k, k < n → ∀ e : Fin n_elements, a ≠ e.val * F + (offset + k)) →
        fld' a = field a) ∧
      ∀ tid ∈ L, to_unsigned tid < n → ∀ e : Fin n_elements,
        fld' (e.val * F + (offset + to_unsigned tid)) =
          buffer (to_unsigned (to_unsigned tid + n * e.val)) := by
  obtain ⟨fld', h, hI, hQ, -⟩ := foldlM_threads
    (place_comm_elements_kernel n_elements buffer offset n_int F)
    (fun st => ∀ a, (∀ k, k < n → ∀ e : Fin n_elements, a ≠ e.val * F + (offset + k)) →
        st a = field a)
    (fun tid st => to_unsigned tid < n → ∀ e : Fin n_elements,
        st (e.val * F + (offset + to_unsigned tid)) =
          buffer (to_unsigned (to_unsigned tid + n * e.val)))
    L field (fun _ _ => rfl) (by
      intro tid _ st hI
      by_cases hact : to_unsigned tid < n
      · have hi : offset + to_unsigned tid < F := by omega
        have hiu : to_unsigned (offset + to_unsigned tid) = offset + to_unsigned tid :=
          to_unsigned_of_lt (by omega)
        obtain ⟨fp, hset, hval, hframe⟩ := set_spec st
          (fun e : Fin n_elements => buffer (to_unsigned (to_unsigned tid + n * e.val))) hF hi
        refine ⟨fp, by simp only [place_comm_elements_kernel, hn, if_pos hact, hiu, hset],
          ?_, fun _ e => hval e, ?_⟩
        · intro a ha
          rw [hframe a (fun e => ha _ hact e)]
          exact hI a ha
        · intro t hQt ht e
          by_cases hsame : to_unsigned t = to_unsigned tid
          · rw [hsame]; exact hval e
          · rw [hframe]
            · exact hQt ht e
            · intro e' he'
              have := (addr_inj (show offset + to_unsigned t < F by omega) hi he').2
              omega
      · exact ⟨st, by simp only [place_comm_elements_kernel, hn, if_neg hact],
          hI, fun h => absurd h hact, fun t hQt => hQt⟩)
  exact ⟨fld', h, hI, hQ⟩

end field_storage

theorem to_int_of_unsigned_lt {x : Nat} (h : to_unsigned x < 2 ^ 31) :
    to_int x = (to_unsigned x : Int) := by
  unfold to_unsigned at h
  simp only [to_int, to_unsigned, if_pos h]

namespace comm_node_struct

theorem n_sites_lt (c : comm_node_struct) (par : Parity) : c.n_sites par < 2 ^ 32 := by
  unfold n_sites
  split_ifs <;> exact to_unsigned_lt _

theorem offset_lt (c : comm_node_struct) (par : Parity) : c.offset par < 2 ^ 32 := by
  unfold offset
  split_ifs <;> exact to_unsigned_lt _

theorem get_sitelist_size (c : comm_node_struct) (par : Parity) :
    int_to_unsigned (c.get_sitelist par).2 = c.n_sites par := by
  unfold get_sitelist n_sites
  split_ifs <;> exact int_to_unsigned_to_int _

theorem get_sitelist_size_of_lt (c : comm_node_struct) (par : Parity)
    (h : c.n_sites par < 2 ^ 31) : (c.get_sitelist par).2 = (c.n_sites par : Int) := by
  unfold get_sitelist n_sites at *
  split_ifs at * <;> exact to_int_of_unsigned_lt h

theorem get_sitelist_entry (c : comm_node_struct) (par : Parity) (k : Nat) :
    (c.get_sitelist par).1 k = c.site_index k par := by
  cases par <;> simp [get_sitelist, site_index]

end comm_node_struct

theorem mem_launch_range {n T k : Nat} (hT : 0 < T) (hk : k < n) :
    k ∈ List.range ((n / T + 1) * T) :=
  List.mem_range.mpr (lt_trans hk (lt_blocks_mul n T hT))

namespace field_storage

/-- What `gather_comm_elements` leaves in the buffer: position `k + n*e` holds component `e`
of the (negated, if antiperiodic) element read at the `k`-th listed site. -/
theorem gather_comm_elements_spec {β : Type} {n_elements : Nat} (N_threads : Nat)
    (CUDA_AWARE_MPI : Bool) (d_alloc : Mem β)
    (neg : (Fin n_elements → β) → (Fin n_elements → β))
    (fieldbuf buffer : Mem β) (to_node : comm_node_struct) (par : Parity) (F : Nat)
    (antiperiodic : Bool) (hT : 0 < N_threads) (hn : to_node.n_sites par < 2 ^ 31)
    (hbuf : to_node.n_sites par * n_elements ≤ 2 ^ 32)
    (hidx : ∀ k, k < to_node.n_sites par → to_node.site_index k par < F) :
    ∃ buf', gather_comm_elements N_threads CUDA_AWARE_MPI d_alloc neg fieldbuf buffer
        to_node par F antiperiodic = some buf' ∧
      ∀ k, k < to_node.n_sites par → ∀ e : Fin n_elements,
        buf' (k + to_node.n_sites par * e.val) =
          (if antiperiodic then neg else id)
            (fun e => fieldbuf ((e.val * F + to_node.site_index k par) % UNSIGNED_MOD)) e := by
  have hblocks : (Int.tdiv (to_node.get_sitelist par).2 (N_threads : Int) + 1).toNat =
      to_node.n_sites par / N_threads + 1 := by
    rw [to_node.get_sitelist_size_of_lt par hn]; exact tdiv_blocks _ _
  have hcount : (to_node.get_sitelist par).2.toNat = to_node.n_sites par := by
    rw [to_node.get_sitelist_size_of_lt par hn]; exact Int.toNat_ofNat _
  have hidx' : ∀ k, k < to_node.n_sites par → (to_node.get_sitelist par).1 k < F := by
    intro k hk; rw [to_node.get_sitelist_entry]; exact hidx k hk
  have key : ∀ (ng : (Fin n_elements → β) → (Fin n_elements → β)) (d_buffer : Mem β),
      ∃ buf', launch (to_node.n_sites par / N_threads + 1) N_threads
          (gather_comm_elements_negated_kernel ng fieldbuf (to_node.get_sitelist par).1
            (to_node.get_sitelist par).2 F) d_buffer = some buf' ∧
        ∀ k, k < to_node.n_sites par → ∀ e : Fin n_elements,
          buf' (k + to_node.n_sites par * e.val) =
            ng (fun e => fieldbuf ((e.val * F + to_node.site_index k par) % UNSIGNED_MOD)) e := by
    intro ng d_buffer
    obtain ⟨buf', h, hQ⟩ := gather_comm_threads ng fieldbuf (to_node.get_sitelist par).1
      (to_node.get_sitelist par).2 (to_node.n_sites par) F (to_node.get_sitelist_size par)
      hbuf hidx' (List.range ((to_node.n_sites par / N_threads + 1) * N_threads)) d_buffer
    refine ⟨buf', h, ?_⟩
    intro k hk e
    have hku : to_unsigned k = k := to_unsigned_of_lt (by omega)
    have := hQ k (mem_launch_range hT hk) (by rw [hku]; exact hk) e
    rw [hku, to_node.get_sitelist_entry] at this
    exact this
  have hcopy : ∀ (d : Mem β) (k : Nat), k < to_node.n_sites par → ∀ e : Fin n_elements,
      cudaMemcpy buffer d (to_node.n_sites par * n_elements)
        (k + to_node.n_sites par * e.val) = d (k + to_node.n_sites par * e.val) := by
    intro d k hk e
    simp only [cudaMemcpy, if_pos (buf_addr_lt e hk)]
  unfold gather_comm_elements
  simp only [hblocks, hcount, gather_comm_elements_kernel_eq]
  cases antiperiodic <;> cases CUDA_AWARE_MPI
  · obtain ⟨buf', h, hQ⟩ := key id d_alloc
    refine ⟨cudaMemcpy buffer buf' (to_node.n_sites par * n_elements), by simp [h], ?_⟩
    intro k hk e
    rw [hcopy _ k hk e]; simpa using hQ k hk e
  · obtain ⟨buf', h, hQ⟩ := key id buffer
    exact ⟨buf', by simp [h], by simpa using hQ⟩
  · obtain ⟨buf', h, hQ⟩ := key neg d_alloc
    refine ⟨cudaMemcpy buffer buf' (to_node.n_sites par * n_elements), by simp [h], ?_⟩
    intro k hk e
    rw [hcopy _ k hk e]; simpa using hQ k hk e
  · obtain ⟨buf', h, hQ⟩ := key neg buffer
    exact ⟨buf', by simp [h], by simpa using hQ⟩

end field_storage

namespace field_storage

/-- What `place_comm_elements` leaves in the field: component `e` of halo slot
`offset + k` holds buffer position `k + n*e`; every other address keeps its content. -/
theorem place_comm_elements_spec {β : Type} (n_elements : Nat) (N_threads : Nat)
    (CUDA_AWARE_MPI : Bool) (d_alloc fieldbuf : Mem β) (par : Parity) (buffer : Mem β)
    (from_node : comm_node_struct) (F : Nat) (hT : 0 < N_threads)
    (hn : from_node.n_sites par < 2 ^ 31) (hF : n_elements * F ≤ 2 ^ 32) (hFu : F < 2 ^ 32)
    (hoff : from_node.offset par + from_node.n_sites par ≤ F) :
    ∃ g', place_comm_elements n_elements N_threads CUDA_AWARE_MPI d_alloc
        fieldbuf par buffer from_node F = some g' ∧
      (∀ k, k < from_node.n_sites par → ∀ e : Fin n_elements,
        g' (e.val * F + (from_node.offset par + k)) =
          buffer (k + from_node.n_sites par * e.val)) ∧
      (∀ a, (∀ k, k < from_node.n_sites par → ∀ e : Fin n_elements,
          a ≠ e.val * F + (from_node.offset par + k)) → g' a = fieldbuf a) := by
  have hblocks : to_unsigned (from_node.n_sites par / N_threads + 1) =
      from_node.n_sites par / N_threads + 1 := by
    have := Nat.div_le_self (from_node.n_sites par) N_threads
    exact to_unsigned_of_lt (by omega)
  have hnu : int_to_unsigned (to_int (from_node.n_sites par)) = from_node.n_sites par := by
    rw [int_to_unsigned_to_int]; exact to_unsigned_of_lt (by omega)
  have hnF : from_node.n_sites par ≤ F := by omega
  have hbuf : from_node.n_sites par * n_elements ≤ 2 ^ 32 :=
    le_trans (Nat.mul_le_mul_right n_elements hnF) (by rw [Nat.mul_comm]; exact hF)
  have hread : ∀ k, k < from_node.n_sites par → ∀ e : Fin n_elements,
      (if CUDA_AWARE_MPI then buffer
        else cudaMemcpy d_alloc buffer (from_node.n_sites par * n_elements))
        (to_unsigned (k + from_node.n_sites par * e.val)) =
      buffer (k + from_node.n_sites par * e.val) := by
    intro k hk e
    rw [to_unsigned_of_lt (lt_of_lt_of_le (buf_addr_lt e hk) hbuf)]
    cases CUDA_AWARE_MPI
    · simp [cudaMemcpy, buf_addr_lt e hk]
    · simp
  obtain ⟨g', h, hframe, hQ⟩ := place_comm_threads n_elements
    (if CUDA_AWARE_MPI then buffer
      else cudaMemcpy d_alloc buffer (from_node.n_sites par * n_elements))
    (from_node.offset par) (to_int (from_node.n_sites par)) (from_node.n_sites par) F hnu
    hF hFu hoff (List.range ((from_node.n_sites par / N_threads + 1) * N_threads)) fieldbuf
  refine ⟨g', ?_, ?_, hframe⟩
  · unfold place_comm_elements launch
    simp only [hblocks]
    exact h
  · intro k hk e
    have hku : to_unsigned k = k := to_unsigned_of_lt (by omega)
    have := hQ k (mem_launch_range hT hk) (by rw [hku]; exact hk) e
    rw [hku, hread k hk e] at this
    exact this

end field_storage

namespace field_storage

theorem set_some_lt {β : Type} {n_elements : Nat} {fieldbuf fp : Mem β}
    {value : Fin n_elements → β} {i F : Nat} (h : set fieldbuf value i F = some fp) :
    i < F := by
  by_contra hi
  simp [set, hi] at h

/-- In a completed place launch no active thread has wrapped its slot `offset + Index`:
the thread that stores slot `2^32 - 1` would have failed its assertion. -/
theorem place_comm_no_slot_wrap {β : Type} {n_elements : Nat} (buffer : Mem β)
    (offset : Nat) (n_int : Int) (F M : Nat) (hFu : F < 2 ^ 32) (hoffu : offset < 2 ^ 32)
    (field fld' : Mem β)
    (hdone : (List.range M).foldlM (fun st tid =>
        place_comm_elements_kernel n_elements buffer offset n_int F tid st)
          field = some fld') :
    ∀ tid, tid < M → to_unsigned tid < int_to_unsigned n_int →
      offset + to_unsigned tid < 2 ^ 32 := by
  intro tid htid hact
  by_contra hwrap
  have hu := to_unsigned_le tid
  have h0lt : 2 ^ 32 - 1 - offset < int_to_unsigned n_int := by omega
  have h0u : to_unsigned (2 ^ 32 - 1 - offset) = 2 ^ 32 - 1 - offset :=
    to_unsigned_of_lt (by omega)
  have hfail : ∀ st : Mem β, place_comm_elements_kernel n_elements buffer
      offset n_int F (2 ^ 32 - 1 - offset) st = none := by
    intro st
    have hslot : to_unsigned (offset + (2 ^ 32 - 1 - offset)) = 2 ^ 32 - 1 := by
      rw [to_unsigned_of_lt (by omega)]; omega
    have hnot : ¬ (2 ^ 32 - 1 < F) := by omega
    simp only [place_comm_elements_kernel, h0u, if_pos h0lt, hslot, set, if_neg hnot]
  have := foldlM_none_of_thread _ _ hfail (List.range M) field
    (List.mem_range.mpr (by omega))
  rw [this] at hdone
  cases hdone

end field_storage

/-! ## Single element access -/

/-- C1 (amended). When the field fits 32 bit addressing (`n_elements * F ≤ 2^32`), for
every index `i < F` and every element value `v`, `set(v, i, F)` succeeds and `get(i, F)`
called after it returns `v`. -/
theorem get_after_set {β : Type} {n_elements : Nat} (fieldbuf : Mem β)
    (v : Fin n_elements → β) (i F : Nat) (hF : n_elements * F ≤ 2 ^ 32) (hi : i < F) :
    (field_storage.set fieldbuf v i F).bind (fun fp => field_storage.get fp i F) = some v := by
  obtain ⟨fp, hset, hval, -⟩ := field_storage.set_spec fieldbuf v hF hi
  rw [hset, Option.some_bind, field_storage.get_eq fp hF hi]
  exact congrArg some (funext hval)

/-- C1 (witness). Three components, `F = 5`, index `2`. -/
theorem get_after_set_witness :
    (field_storage.set (fun _ => (0 : Int)) (fun e : Fin 3 => (e.val : Int) - 1) 2 5).bind
      (fun fp => field_storage.get fp 2 5) = some (fun e : Fin 3 => (e.val : Int) - 1) :=
  get_after_set _ _ 2 5 (by norm_num) (by norm_num)

/-- C1 (counterexample). With `F = 2^28` and 18 components, index `0`: `get` after `set`
does not return the value that was set (component 16 is stored over component 0). -/
theorem get_after_set_wraps :
    (0 : Nat) < 2 ^ 28 ∧
    (field_storage.set (fun _ => (0 : Nat)) (fun e : Fin 18 => e.val + 100) 0 (2 ^ 28)).bind
      (fun fp => field_storage.get fp 0 (2 ^ 28)) ≠ some (fun e : Fin 18 => e.val + 100) := by
  decide

/-! ## Halo transfer: gather on the sender, place on the receiver -/

/-- C2 (amended). Gather with `antiperiodic = false` on the sender field `f`, then place on
the receiver field `g` with the same buffer: when the two nodes list the same number `n`
of sites, the halo range `[offset, offset + n)` lies inside the receiver's allocation, every
listed sender site is below the sender's allocation size, `n` fits `int`, and the receiver
field fits 32 bit addressing (`n_elements * F_g ≤ 2^32`), both calls complete and halo slot
`offset + k` of `g` reads as the sender's element at `site_index(k, par)`, for every
`k < n`. -/
theorem halo_transfer_correct {β : Type} {n_elements : Nat} (N_threads : Nat)
    (CUDA_AWARE_MPI : Bool) (d_alloc d_alloc' : Mem β)
    (neg : (Fin n_elements → β) → (Fin n_elements → β)) (f g buffer : Mem β)
    (to_node from_node : comm_node_struct) (par : Parity) (F_f F_g : Nat)
    (hT : 0 < N_threads)
    (hsame : to_node.n_sites par = from_node.n_sites par)
    (hoff : from_node.offset par + from_node.n_sites par ≤ F_g)
    (hidx : ∀ k, k < to_node.n_sites par → to_node.site_index k par < F_f)
    (hn : from_node.n_sites par < 2 ^ 31)
    (hF : n_elements * F_g ≤ 2 ^ 32) (hFu : F_g < 2 ^ 32) :
    ∃ buf g', field_storage.gather_comm_elements N_threads CUDA_AWARE_MPI d_alloc neg f buffer to_node par
        F_f false = some buf ∧
      field_storage.place_comm_elements n_elements N_threads CUDA_AWARE_MPI d_alloc' g par
        buf from_node F_g = some g' ∧
      ∀ k, k < from_node.n_sites par → ∃ v : Fin n_elements → β,
        field_storage.get f (to_node.site_index k par) F_f = some v ∧
        field_storage.get g' (from_node.offset par + k) F_g = some v := by
  have hnF : from_node.n_sites par ≤ F_g := by omega
  have hbuf : to_node.n_sites par * n_elements ≤ 2 ^ 32 := by
    rw [hsame]
    exact le_trans (Nat.mul_le_mul_right n_elements hnF) (by rw [Nat.mul_comm]; exact hF)
  obtain ⟨buf, hgather, hbufval⟩ := field_storage.gather_comm_elements_spec N_threads CUDA_AWARE_MPI d_alloc
    neg f buffer to_node par F_f false hT (hsame ▸ hn) hbuf hidx
  obtain ⟨g', hplace, hval, -⟩ := field_storage.place_comm_elements_spec n_elements
    N_threads CUDA_AWARE_MPI d_alloc' g par buf from_node F_g hT hn hF hFu hoff
  refine ⟨buf, g', hgather, hplace, ?_⟩
  intro k hk
  refine ⟨fun e => f ((e.val * F_f + to_node.site_index k par) % UNSIGNED_MOD), ?_, ?_⟩
  · unfold field_storage.get; rw [if_pos (hidx k (hsame ▸ hk))]
  · rw [field_storage.get_eq g' hF (by omega)]
    congr 1
    funext e
    rw [hval k hk e, ← hsame, hbufval k (hsame ▸ hk) e]
    simp

/-- C2 (witness). Two components, three listed sites, sender allocation `8`, receiver
allocation `12`, staged copies. -/
theorem halo_transfer_correct_witness :
    ∃ buf g', field_storage.gather_comm_elements 4 false (fun _ => 0)
          (neg_int 2)
        (fun a => (a : Int)) (fun _ => 0) sample_to_node Parity.ALL 8 false = some buf ∧
      field_storage.place_comm_elements 2 4 false (fun _ => 0) (fun _ => 0)
        Parity.ALL buf sample_from_node 12 = some g' ∧
      ∀ k, k < sample_from_node.n_sites Parity.ALL → ∃ v : Fin 2 → Int,
        field_storage.get (fun a => (a : Int)) (sample_to_node.site_index k Parity.ALL) 8
          = some v ∧
        field_storage.get g' (sample_from_node.offset Parity.ALL + k) 12 = some v :=
  halo_transfer_correct 4 false (fun _ => 0) (fun _ => 0) (neg_int 2) (fun a => (a : Int))
    (fun _ => 0) (fun _ => 0) sample_to_node sample_from_node Parity.ALL 8 12
    (by decide) (by decide) (by decide) (by decide) (by decide) (by decide) (by decide)

set_option maxRecDepth 1000000 in
/-- C2 (counterexample). A field of `2^28 + 1` sites with 18 components per element,
17 halo sites: the hypotheses of the claim hold, both calls complete, and halo slot
`offset + 0` does not read as the sender's element at `site_index(0, ALL)`. -/
theorem halo_transfer_wraps :
    wide_to_node.n_sites Parity.ALL = wide_from_node.n_sites Parity.ALL ∧
    wide_from_node.offset Parity.ALL + wide_from_node.n_sites Parity.ALL ≤ 2 ^ 28 + 1 ∧
    ∀ aware : Bool,
      ((field_storage.gather_comm_elements 256 aware (fun _ => 0)
          (id : (Fin 18 → Nat) → Fin 18 → Nat)
          (fun a => a) (fun _ => 0) wide_to_node Parity.ALL (2 ^ 28 + 1) false).bind
        (fun buf => field_storage.place_comm_elements 18 256 aware
          (fun _ => 0) (fun _ => 0) Parity.ALL buf wide_from_node (2 ^ 28 + 1))).bind
        (fun g' => field_storage.get g' (wide_from_node.offset Parity.ALL + 0) (2 ^ 28 + 1))
      ≠ (field_storage.get (fun a => a) (wide_to_node.site_index 0 Parity.ALL) (2 ^ 28 + 1) :
          Option (Fin 18 → Nat)) := by
  refine ⟨by decide, by decide, ?_⟩
  intro aware h
  have h16 := congrArg (Option.map (fun v : Fin 18 → Nat => v 16)) h
  revert h16
  cases aware <;> decide

/-- C3 (amended). Under the conditions of the halo transfer theorem (same site count `n` on
both nodes, halo range inside the receiver's allocation, listed sender sites valid, `n`
fits `int`, receiver field fits 32 bit addressing): gather with `antiperiodic = true`
followed by place completes and leaves in halo slot `offset + k` the negation of the
sender's element at `site_index(k, par)`, for every `k < n`; and place alone stores every
buffer element as it is, whatever the buffer holds: slot `offset + k` reads as the
components `fp[k + n*e]` of the buffer. -/
theorem antiperiodic_transfer_flips_once {β : Type} {n_elements : Nat} (N_threads : Nat)
    (CUDA_AWARE_MPI : Bool) (d_alloc d_alloc' : Mem β)
    (neg : (Fin n_elements → β) → (Fin n_elements → β)) (f g buffer : Mem β)
    (to_node from_node : comm_node_struct) (par : Parity) (F_f F_g : Nat)
    (hT : 0 < N_threads)
    (hsame : to_node.n_sites par = from_node.n_sites par)
    (hoff : from_node.offset par + from_node.n_sites par ≤ F_g)
    (hidx : ∀ k, k < to_node.n_sites par → to_node.site_index k par < F_f)
    (hn : from_node.n_sites par < 2 ^ 31)
    (hF : n_elements * F_g ≤ 2 ^ 32) (hFu : F_g < 2 ^ 32) :
    (∃ buf g', field_storage.gather_comm_elements N_threads CUDA_AWARE_MPI d_alloc neg f
        buffer to_node par F_f true = some buf ∧
      field_storage.place_comm_elements n_elements N_threads CUDA_AWARE_MPI
        d_alloc' g par buf from_node F_g = some g' ∧
      ∀ k, k < from_node.n_sites par → ∃ v : Fin n_elements → β,
        field_storage.get f (to_node.site_index k par) F_f = some v ∧
        field_storage.get g' (from_node.offset par + k) F_g = some (neg v)) ∧
    (∀ buf0 : Mem β, ∃ g'',
      field_storage.place_comm_elements n_elements N_threads CUDA_AWARE_MPI
        d_alloc' g par buf0 from_node F_g = some g'' ∧
      ∀ k, k < from_node.n_sites par →
        field_storage.get g'' (from_node.offset par + k) F_g =
          some (fun e : Fin n_elements => buf0 (k + from_node.n_sites par * e.val))) := by
  have hnF : from_node.n_sites par ≤ F_g := by omega
  have hbuf : to_node.n_sites par * n_elements ≤ 2 ^ 32 := by
    rw [hsame]
    exact le_trans (Nat.mul_le_mul_right n_elements hnF) (by rw [Nat.mul_comm]; exact hF)
  have hplace : ∀ buf0 : Mem β, ∃ g'',
      field_storage.place_comm_elements n_elements N_threads CUDA_AWARE_MPI
        d_alloc' g par buf0 from_node F_g = some g'' ∧
      ∀ k, k < from_node.n_sites par →
        field_storage.get g'' (from_node.offset par + k) F_g =
          some (fun e : Fin n_elements => buf0 (k + from_node.n_sites par * e.val)) := by
    intro buf0
    obtain ⟨g'', hp, hval, -⟩ := field_storage.place_comm_elements_spec n_elements N_threads CUDA_AWARE_MPI d_alloc' g par buf0 from_node F_g
      hT hn hF hFu hoff
    refine ⟨g'', hp, fun k hk => ?_⟩
    rw [field_storage.get_eq g'' hF (by omega)]
    exact congrArg some (funext (fun e => hval k hk e))
  refine ⟨?_, hplace⟩
  obtain ⟨buf, hgather, hbufval⟩ := field_storage.gather_comm_elements_spec N_threads
    CUDA_AWARE_MPI d_alloc neg f buffer to_node par F_f true hT (hsame ▸ hn) hbuf hidx
  obtain ⟨g', hp, hval⟩ := hplace buf
  refine ⟨buf, g', hgather, hp, fun k hk => ?_⟩
  refine ⟨fun e => f ((e.val * F_f + to_node.site_index k par) % UNSIGNED_MOD), ?_, ?_⟩
  · unfold field_storage.get; rw [if_pos (hidx k (hsame ▸ hk))]
  · rw [hval k hk]
    congr 1
    funext e
    rw [← hsame, hbufval k (hsame ▸ hk) e]
    simp

/-- C3 (witness). Two integer components, the odd site of the sample nodes, device
buffer used directly. -/
theorem antiperiodic_transfer_flips_once_witness :
    (∃ buf g', field_storage.gather_comm_elements 4 true (fun _ => 0)
          (neg_int 2) (fun a => (a : Int)) (fun _ => 0) sample_to_node Parity.ODD 8 true
          = some buf ∧
      field_storage.place_comm_elements 2 4 true (fun _ => 0) (fun _ => 0)
        Parity.ODD buf sample_from_node 12 = some g' ∧
      ∀ k, k < sample_from_node.n_sites Parity.ODD → ∃ v : Fin 2 → Int,
        field_storage.get (fun a => (a : Int)) (sample_to_node.site_index k Parity.ODD) 8
          = some v ∧
        field_storage.get g' (sample_from_node.offset Parity.ODD + k) 12
          = some (neg_int 2 v)) ∧
    (∀ buf0 : Mem Int, ∃ g'',
      field_storage.place_comm_elements 2 4 true (fun _ => 0) (fun _ => 0)
        Parity.ODD buf0 sample_from_node 12 = some g'' ∧
      ∀ k, k < sample_from_node.n_sites Parity.ODD →
        field_storage.get g'' (sample_from_node.offset Parity.ODD + k) 12 =
          some (fun e : Fin 2 => buf0 (k + sample_from_node.n_sites Parity.ODD * e.val))) :=
  antiperiodic_transfer_flips_once 4 true (fun _ => 0) (fun _ => 0) (neg_int 2)
    (fun a => (a : Int)) (fun _ => 0) (fun _ => 0) sample_to_node sample_from_node Parity.ODD
    8 12 (by decide) (by decide) (by decide) (by decide) (by decide) (by decide) (by decide)

set_option maxRecDepth 1000000 in
/-- C3 (counterexample). A field of `2^28 + 1` sites with 18 integer components per
element, 17 halo sites: the antiperiodic transfer completes and halo slot `offset + 0` does
not read as the negation of the sender's element at `site_index(0, ALL)`. -/
theorem antiperiodic_transfer_wraps :
    wide_to_node.n_sites Parity.ALL = wide_from_node.n_sites Parity.ALL ∧
    wide_from_node.offset Parity.ALL + wide_from_node.n_sites Parity.ALL ≤ 2 ^ 28 + 1 ∧
    ∀ aware : Bool,
      ((field_storage.gather_comm_elements 256 aware (fun _ => 0)
          (neg_int 18)
          (fun a => (a : Int)) (fun _ => 0) wide_to_node Parity.ALL (2 ^ 28 + 1) true).bind
        (fun buf => field_storage.place_comm_elements 18 256 aware
          (fun _ => 0) (fun _ => 0) Parity.ALL buf wide_from_node (2 ^ 28 + 1))).bind
        (fun g' => field_storage.get g' (wide_from_node.offset Parity.ALL + 0) (2 ^ 28 + 1))
      ≠ (field_storage.get (fun a => (a : Int)) (wide_to_node.site_index 0 Parity.ALL)
          (2 ^ 28 + 1) : Option (Fin 18 → Int)).map (neg_int 18) := by
  refine ⟨by decide, by decide, ?_⟩
  intro aware h
  have h16 := congrArg (Option.map (fun v : Fin 18 → Int => v 16)) h
  revert h16
  cases aware <;> decide

/-! ## Frame of the halo placement -/

/-- C4 (amended). When the field fits 32 bit addressing (`n_elements * F ≤ 2^32`), a
completed `place_comm_elements` for `from_node` and `par` changes only the slots in
`[offset(par), offset(par) + n_sites(par))`: every other index `j < F` reads through
`get` as before the call. -/
theorem place_comm_elements_frame {β : Type} {n_elements : Nat} (N_threads : Nat)
    (CUDA_AWARE_MPI : Bool) (d_alloc fieldbuf : Mem β) (par : Parity) (buffer : Mem β)
    (from_node : comm_node_struct) (F : Nat) (g' : Mem β)
    (hF : n_elements * F ≤ 2 ^ 32) (hFu : F < 2 ^ 32)
    (hdone : field_storage.place_comm_elements n_elements N_threads
      CUDA_AWARE_MPI d_alloc fieldbuf par buffer from_node F = some g')
    (j : Nat) (hj : j < F)
    (hout : j < from_node.offset par ∨
      from_node.offset par + from_node.n_sites par ≤ j) :
    (field_storage.get g' j F : Option (Fin n_elements → β)) =
      field_storage.get fieldbuf j F := by
  unfold field_storage.place_comm_elements launch at hdone
  simp only [] at hdone
  have hnu : int_to_unsigned (to_int (from_node.n_sites par)) = from_node.n_sites par := by
    rw [int_to_unsigned_to_int]; exact to_unsigned_of_lt (from_node.n_sites_lt par)
  have hnowrap := field_storage.place_comm_no_slot_wrap _ _ _ F _ hFu
    (from_node.offset_lt par) fieldbuf g' hdone
  have hframe : ∀ a, (∀ i, i < F → from_node.offset par ≤ i →
      i < from_node.offset par + from_node.n_sites par →
      ∀ e : Fin n_elements, a ≠ e.val * F + i) → g' a = fieldbuf a := by
    refine foldlM_preserves _ (fun st : Mem β => ∀ a, (∀ i, i < F → from_node.offset par ≤ i →
      i < from_node.offset par + from_node.n_sites par →
      ∀ e : Fin n_elements, a ≠ e.val * F + i) → st a = fieldbuf a) _ fieldbuf g' ?_
      (fun _ _ => rfl) hdone
    intro tid htid st st1 hI hk a ha
    by_cases hact : to_unsigned tid < from_node.n_sites par
    · have hw := hnowrap tid (List.mem_range.mp htid) (by rw [hnu]; exact hact)
      simp only [field_storage.place_comm_elements_kernel, hnu, if_pos hact,
        to_unsigned_of_lt hw] at hk
      have hi := field_storage.set_some_lt hk
      obtain ⟨fp, hset, -, hfr⟩ := field_storage.set_spec st
        (fun e : Fin n_elements =>
          (if CUDA_AWARE_MPI then buffer
            else cudaMemcpy d_alloc buffer (from_node.n_sites par * n_elements))
            (to_unsigned (to_unsigned tid + from_node.n_sites par * e.val))) hF hi
      rw [hset] at hk
      cases hk
      rw [hfr a (fun e => ha _ hi (by omega) (by omega) e)]
      exact hI a ha
    · simp only [field_storage.place_comm_elements_kernel, hnu, if_neg hact] at hk
      cases hk
      exact hI a ha
  rw [field_storage.get_eq g' hF hj, field_storage.get_eq fieldbuf hF hj]
  congr 1
  funext e
  apply hframe
  intro i hi h1 h2 e' he'
  have := (addr_inj hj hi he').2
  omega

/-- C4 (witness). The odd halo slot of the sample receiver is `10`; slot `3` keeps its
element. -/
theorem place_comm_elements_frame_witness :
    (field_storage.get
      ((field_storage.place_comm_elements 2 4 false (fun _ => 0)
        (fun a => (a : Int) + 1) Parity.ODD (fun a => (a : Int) + 100) sample_from_node
        12).getD (fun _ => 0)) 3 12 : Option (Fin 2 → Int)) =
      field_storage.get (fun a => (a : Int) + 1) 3 12 :=
  place_comm_elements_frame 4 false (fun _ => 0) (fun a => (a : Int) + 1) Parity.ODD
    (fun a => (a : Int) + 100) sample_from_node 12 _ (by decide) (by decide) rfl 3
    (by decide) (by decide)

set_option maxRecDepth 1000000 in
/-- C4 (counterexample). A field of `2^28 + 1` sites with 18 components per element and
the halo range `[100, 117)`: index `117` lies outside the range and below the allocation
size, the call completes, and slot `117` no longer reads as before. -/
theorem place_comm_elements_frame_wraps :
    117 < 2 ^ 28 + 1 ∧
    wide_from_node.offset Parity.ALL + wide_from_node.n_sites Parity.ALL ≤ 117 ∧
    ∀ aware : Bool,
      (field_storage.place_comm_elements 18 256 aware (fun _ => 0)
          (fun _ => 0) Parity.ALL (fun a => a + 1) wide_from_node (2 ^ 28 + 1)).bind
        (fun g' => field_storage.get g' 117 (2 ^ 28 + 1))
      ≠ (field_storage.get (fun _ => 0) 117 (2 ^ 28 + 1) : Option (Fin 18 → Nat)) := by
  refine ⟨by decide, by decide, ?_⟩
  intro aware h
  have h0 := congrArg (Option.map (fun v : Fin 18 → Nat => v 0)) h
  revert h0
  cases aware <;> decide

/-! ## Loop ranges and comm node ranges -/

/-- C6 (amended). With even sites first, for every node with `evensites ≤ sites` and
`sites < 2^31` (the bounds are returned as `int`): `[loop_begin(P), loop_end(P))` is
`[0, evensites)` for `EVEN`, `[evensites, sites)` for `ODD` and `[0, sites)` for `ALL`. -/
theorem loop_range_even_first (mynode : node_struct)
    (hle : mynode.evensites ≤ mynode.sites) (hint : mynode.sites < 2 ^ 31) :
    loop_begin true mynode Parity.EVEN = 0 ∧
    loop_end true mynode Parity.EVEN = (mynode.evensites : Int) ∧
    loop_begin true mynode Parity.ODD = (mynode.evensites : Int) ∧
    loop_end true mynode Parity.ODD = (mynode.sites : Int) ∧
    loop_begin true mynode Parity.ALL = 0 ∧
    loop_end true mynode Parity.ALL = (mynode.sites : Int) := by
  have he : to_int mynode.evensites = (mynode.evensites : Int) := to_int_of_lt (by omega)
  have hs : to_int mynode.sites = (mynode.sites : Int) := to_int_of_lt hint
  simp [loop_begin, loop_end, he, hs]

/-- C6 (witness). A node of three sites, two of them even. -/
theorem loop_range_even_first_witness :
    loop_begin true small_node Parity.EVEN = 0 ∧
    loop_end true small_node Parity.EVEN = (small_node.evensites : Int) ∧
    loop_begin true small_node Parity.ODD = (small_node.evensites : Int) ∧
    loop_end true small_node Parity.ODD = (small_node.sites : Int) ∧
    loop_begin true small_node Parity.ALL = 0 ∧
    loop_end true small_node Parity.ALL = (small_node.sites : Int) :=
  loop_range_even_first small_node (by decide) (by decide)

/-- C6 (counterexample). A node with `2^31` even sites out of `2^32`: `loop_end(EVEN)` is
not `evensites`, and index `0` lies in `[0, evensites)` but not in
`[loop_begin(EVEN), loop_end(EVEN))`. -/
theorem loop_range_even_first_truncates :
    huge_node.evensites ≤ huge_node.sites ∧
    loop_end true huge_node Parity.EVEN ≠ (huge_node.evensites : Int) ∧
    ((0 : Int) ≤ 0 ∧ (0 : Int) < (huge_node.evensites : Int)) ∧
    ¬ (loop_begin true huge_node Parity.EVEN ≤ 0 ∧ 0 < loop_end true huge_node Parity.EVEN) := by
  decide

/-- C7 (the code at the failing input). Odd sites first, a node with two even sites and
one odd site: the `ODD` range holds two indices and the `EVEN` range one. -/
theorem loop_range_odd_first_miscounts :
    small_node.sites = small_node.evensites + small_node.oddsites ∧
    loop_end false small_node Parity.ODD - loop_begin false small_node Parity.ODD = 2 ∧
    small_node.oddsites = 1 ∧
    loop_end false small_node Parity.EVEN - loop_begin false small_node Parity.EVEN = 1 ∧
    small_node.evensites = 2 := by
  decide

theorem entries_natCast (p : Nat → Nat) (n : Nat) :
    entries p (n : Int) = (List.range n).map p := by
  simp [entries]

/-- C8 (amended). For every comm node with `sites = evensites + oddsites` and
`sites < 2^31` (the size is returned as `int`): the entries of `get_sitelist(EVEN)`
followed by the entries of `get_sitelist(ODD)` are the entries of `get_sitelist(ALL)`, in
the same order. -/
theorem sitelist_even_then_odd (c : comm_node_struct)
    (hsum : c.sites = c.evensites + c.oddsites) (hint : c.sites < 2 ^ 31) :
    entries (c.get_sitelist Parity.EVEN).1 (c.get_sitelist Parity.EVEN).2 ++
      entries (c.get_sitelist Parity.ODD).1 (c.get_sitelist Parity.ODD).2 =
    entries (c.get_sitelist Parity.ALL).1 (c.get_sitelist Parity.ALL).2 := by
  have he : to_int c.evensites = (c.evensites : Int) := to_int_of_lt (by omega)
  have ho : to_int c.oddsites = (c.oddsites : Int) := to_int_of_lt (by omega)
  have hs : to_int c.sites = (c.sites : Int) := to_int_of_lt hint
  simp only [comm_node_struct.get_sitelist, he, ho, hs, entries_natCast,
    if_true, if_false, reduceCtorEq]
  rw [hsum, List.range_add, List.map_append, List.map_map]
  rfl

/-- C8 (witness). The sample sender lists two even sites and one odd site. -/
theorem sitelist_even_then_odd_witness :
    entries (sample_to_node.get_sitelist Parity.EVEN).1
        (sample_to_node.get_sitelist Parity.EVEN).2 ++
      entries (sample_to_node.get_sitelist Parity.ODD).1
        (sample_to_node.get_sitelist Parity.ODD).2 =
    entries (sample_to_node.get_sitelist Parity.ALL).1
      (sample_to_node.get_sitelist Parity.ALL).2 :=
  sitelist_even_then_odd sample_to_node (by decide) (by decide)

/-- C8 (counterexample). A comm node with one even and `2^32 - 1` odd sites: the size
reported for `ALL` is `0`, so its list is empty, while the list for `EVEN` has one entry. -/
theorem sitelist_even_then_odd_truncates :
    huge_comm_node.sites = huge_comm_node.evensites + huge_comm_node.oddsites ∧
    entries (huge_comm_node.get_sitelist Parity.EVEN).1
        (huge_comm_node.get_sitelist Parity.EVEN).2 ++
      entries (huge_comm_node.get_sitelist Parity.ODD).1
        (huge_comm_node.get_sitelist Parity.ODD).2 ≠
    entries (huge_comm_node.get_sitelist Parity.ALL).1
      (huge_comm_node.get_sitelist Parity.ALL).2 := by
  decide

/-- C9. For every comm node with `sites = evensites + oddsites` and `buffer + sites < 2^32`:
the halo ranges of `EVEN` and `ODD` are disjoint and adjacent, their union is the range of
`ALL`, and that range is `[buffer, buffer + sites)`. -/
theorem halo_ranges_partition (c : comm_node_struct)
    (hsum : c.sites = c.evensites + c.oddsites) (hfit : c.buffer + c.sites < 2 ^ 32) :
    (∀ i, ¬ (in_halo_range c Parity.EVEN i ∧ in_halo_range c Parity.ODD i)) ∧
    c.offset Parity.EVEN + c.n_sites Parity.EVEN = c.offset Parity.ODD ∧
    (∀ i, in_halo_range c Parity.ALL i ↔
      in_halo_range c Parity.EVEN i ∨ in_halo_range c Parity.ODD i) ∧
    (∀ i, in_halo_range c Parity.ALL i ↔ c.buffer ≤ i ∧ i < c.buffer + c.sites) := by
  have hb : to_unsigned c.buffer = c.buffer := to_unsigned_of_lt (by omega)
  have hbe : to_unsigned (c.buffer + c.evensites) = c.buffer + c.evensites :=
    to_unsigned_of_lt (by omega)
  have he : to_unsigned c.evensites = c.evensites := to_unsigned_of_lt (by omega)
  have ho : to_unsigned c.oddsites = c.oddsites := to_unsigned_of_lt (by omega)
  have hs : to_unsigned c.sites = c.sites := to_unsigned_of_lt (by omega)
  have hoE : c.offset Parity.EVEN = c.buffer := by
    simp only [comm_node_struct.offset, hb, if_false, reduceCtorEq]
  have hoO : c.offset Parity.ODD = c.buffer + c.evensites := by
    simp only [comm_node_struct.offset, hbe, if_true]
  have hoA : c.offset Parity.ALL = c.buffer := by
    simp only [comm_node_struct.offset, hb, if_false, reduceCtorEq]
  have hnE : c.n_sites Parity.EVEN = c.evensites := by
    simp only [comm_node_struct.n_sites, he, if_true, if_false, reduceCtorEq]
  have hnO : c.n_sites Parity.ODD = c.oddsites := by
    simp only [comm_node_struct.n_sites, ho, if_false, reduceCtorEq]
  have hnA : c.n_sites Parity.ALL = c.sites := by
    simp only [comm_node_struct.n_sites, hs, if_true]
  refine ⟨fun i => ?_, ?_, fun i => ?_, fun i => ?_⟩ <;>
    simp only [in_halo_range, hoE, hoO, hoA, hnE, hnO, hnA] <;> omega

/-- C9 (witness). The sample receiver: `buffer = 8`, two even sites and one odd site. -/
theorem halo_ranges_partition_witness :
    (∀ i, ¬ (in_halo_range sample_from_node Parity.EVEN i ∧
      in_halo_range sample_from_node Parity.ODD i)) ∧
    sample_from_node.offset Parity.EVEN + sample_from_node.n_sites Parity.EVEN =
      sample_from_node.offset Parity.ODD ∧
    (∀ i, in_halo_range sample_from_node Parity.ALL i ↔
      in_halo_range sample_from_node Parity.EVEN i ∨
        in_halo_range sample_from_node Parity.ODD i) ∧
    (∀ i, in_halo_range sample_from_node Parity.ALL i ↔
      sample_from_node.buffer ≤ i ∧ i < sample_from_node.buffer + sample_from_node.sites) :=
  halo_ranges_partition sample_from_node (by decide) (by decide)

namespace field_storage

/-- Effect of the threads of a `place_elements` launch: when the field fits 32 bit
addressing and the listed indices are valid and pairwise different, every listed site
holds its buffer entry. -/
theorem place_elements_threads {β : Type} {n_elements : Nat}
    (buffer : Mem (Fin n_elements → β)) (site_index : Nat → Nat) (n_int : Int) (n F : Nat)
    (hn : int_to_unsigned n_int = n) (hF : n_elements * F ≤ 2 ^ 32)
    (hidx : ∀ k, k < n → site_index k < F)
    (hinj : ∀ k k', k < n → k' < n → site_index k = site_index k' → k = k')
    (L : List Nat) (field : Mem β) :
    ∃ fld', L.foldlM (fun st tid =>
        place_elements_kernel buffer site_index n_int F tid st) field = some fld' ∧
      ∀ tid ∈ L, to_unsigned tid < n → ∀ e : Fin n_elements,
        fld' (e.val * F + site_index (to_unsigned tid)) = buffer (to_unsigned tid) e := by
  obtain ⟨fld', h, -, hQ, -⟩ := foldlM_threads
    (place_elements_kernel buffer site_index n_int F) (fun _ => True)
    (fun tid st => to_unsigned tid < n → ∀ e : Fin n_elements,
        st (e.val * F + site_index (to_unsigned tid)) = buffer (to_unsigned tid) e)
    L field trivial (by
      intro tid _ st _
      by_cases hact : to_unsigned tid < n
      · obtain ⟨fp, hset, hval, hframe⟩ := set_spec st (buffer (to_unsigned tid)) hF
          (hidx _ hact)
        refine ⟨fp, by simp only [place_elements_kernel, hn, if_pos hact, hset],
          trivial, fun _ e => hval e, ?_⟩
        intro t hQt ht e
        by_cases hsame : to_unsigned t = to_unsigned tid
        · rw [hsame]; exact hval e
        · rw [hframe]
          · exact hQt ht e
          · intro e' he'
            exact hsame (hinj _ _ ht hact (addr_inj (hidx _ ht) (hidx _ hact) he').2)
      · exact ⟨st, by simp only [place_elements_kernel, hn, if_neg hact],
          trivial, fun h => absurd h hact, fun t hQt => hQt⟩)
  exact ⟨fld', h, hQ⟩

/-- Effect of the threads of a `gather_elements` launch: buffer entry `Index` holds the
element read at the listed site. -/
theorem gather_elements_threads {β : Type} {n_elements : Nat} (field : Mem β)
    (site_index : Nat → Nat) (n_int : Int) (n F : Nat)
    (hn : int_to_unsigned n_int = n) (hidx : ∀ k, k < n → site_index k < F)
    (L : List Nat) (buffer : Mem (Fin n_elements → β)) :
    ∃ buf', L.foldlM (fun st tid =>
        gather_elements_kernel field site_index n_int F tid st) buffer = some buf' ∧
      ∀ tid ∈ L, to_unsigned tid < n →
        buf' (to_unsigned tid) =
          fun e => field ((e.val * F + site_index (to_unsigned tid)) % UNSIGNED_MOD) := by
  obtain ⟨buf', h, -, hQ, -⟩ := foldlM_threads
    (gather_elements_kernel field site_index n_int F) (fun _ => True)
    (fun tid (st : Mem (Fin n_elements → β)) => to_unsigned tid < n →
        st (to_unsigned tid) =
          fun e => field ((e.val * F + site_index (to_unsigned tid)) % UNSIGNED_MOD))
    L buffer trivial (by
      intro tid _ st _
      by_cases hact : to_unsigned tid < n
      · have hget : (get field (site_index (to_unsigned tid)) F : Option (Fin n_elements → β)) =
            some (fun e => field ((e.val * F + site_index (to_unsigned tid)) % UNSIGNED_MOD)) := by
          unfold get; rw [if_pos (hidx _ hact)]
        refine ⟨st.write (to_unsigned tid)
            (fun e => field ((e.val * F + site_index (to_unsigned tid)) % UNSIGNED_MOD)),
          by simp only [gather_elements_kernel, hn, if_pos hact, hget],
          trivial, fun _ => Mem.write_same _ _ _, ?_⟩
        intro t hQt ht
        by_cases hsame : to_unsigned t = to_unsigned tid
        · rw [hsame]; exact Mem.write_same _ _ _
        · rw [Mem.write_of_ne _ _ hsame]; exact hQt ht
      · exact ⟨st, by simp only [gather_elements_kernel, hn, if_neg hact],
          trivial, fun h => absurd h hact, fun t hQt => hQt⟩)
  exact ⟨buf', h, hQ⟩

end field_storage

/-! ## Scatter followed by gather -/

/-- C10 (amended). When the field fits 32 bit addressing (`n_elements * F ≤ 2^32`): for
every list of `n` pairwise different indices, each below `F`, and every buffer,
`place_elements(buffer, index list, n)` completes, `gather_elements` with the same index
list called after it completes, and the buffer it returns has the `n` elements that were
placed. -/
theorem gather_after_place {β : Type} {n_elements : Nat} (N_threads : Nat)
    (d_alloc d_alloc' : Mem (Fin n_elements → β)) (fieldbuf : Mem β)
    (buffer buffer' : Mem (Fin n_elements → β)) (index_list : Nat → Nat) (n F : Nat)
    (hT : 0 < N_threads) (hn : n < 2 ^ 31) (hF : n_elements * F ≤ 2 ^ 32)
    (hidx : ∀ k, k < n → index_list k < F)
    (hinj : ∀ k k', k < n → k' < n → index_list k = index_list k' → k = k') :
    ∃ fld' buf',
      field_storage.place_elements N_threads d_alloc fieldbuf buffer index_list (n : Int) F
        = some fld' ∧
      field_storage.gather_elements N_threads d_alloc' fld' buffer' index_list (n : Int) F
        = some buf' ∧
      ∀ k, k < n → buf' k = buffer k := by
  have hnu : int_to_unsigned (n : Int) = n := int_to_unsigned_natCast (by omega)
  have hcount : ((n : Int)).toNat = n := Int.toNat_ofNat n
  obtain ⟨fld', hplace, hQ⟩ := field_storage.place_elements_threads
    (cudaMemcpy d_alloc buffer n) index_list (n : Int) n F hnu hF hidx hinj
    (List.range ((n / N_threads + 1) * N_threads)) fieldbuf
  obtain ⟨buf', hgather, hG⟩ := field_storage.gather_elements_threads fld' index_list
    (n : Int) n F hnu hidx (List.range ((n / N_threads + 1) * N_threads)) d_alloc'
  refine ⟨fld', cudaMemcpy buffer' buf' n, ?_, ?_, ?_⟩
  · unfold field_storage.place_elements launch
    simp only [tdiv_blocks, hcount]
    exact hplace
  · unfold field_storage.gather_elements launch
    simp only [tdiv_blocks, hcount]
    rw [hgather]
    rfl
  · intro k hk
    have hku : to_unsigned k = k := to_unsigned_of_lt (by omega)
    have h1 := hG k (mem_launch_range hT hk) (by rw [hku]; exact hk)
    have h2 := hQ k (mem_launch_range hT hk) (by rw [hku]; exact hk)
    rw [hku] at h1 h2
    simp only [cudaMemcpy, if_pos hk] at h2 ⊢
    rw [h1]
    funext e
    rw [← h2 e]
    simp only [UNSIGNED_MOD]
    rw [Nat.mod_eq_of_lt (addr_lt e hF (hidx k hk))]

/-- C10 (witness). Two components, the indices `1, 3, 5` in a field of `8` sites. -/
theorem gather_after_place_witness :
    ∃ fld' buf',
      field_storage.place_elements 4 (fun _ _ => 0) (fun _ => 0)
        (fun k (e : Fin 2) => (10 * k + e.val : Int)) (fun k => 2 * k + 1) ((3 : Nat) : Int) 8
        = some fld' ∧
      field_storage.gather_elements 4 (fun _ _ => 0) fld' (fun _ _ => 0)
        (fun k => 2 * k + 1) ((3 : Nat) : Int) 8 = some buf' ∧
      ∀ k, k < 3 → buf' k = (fun k (e : Fin 2) => (10 * k + e.val : Int)) k :=
  gather_after_place 4 (fun _ _ => 0) (fun _ _ => 0) (fun _ => 0)
    (fun k (e : Fin 2) => (10 * k + e.val : Int)) (fun _ _ => 0) (fun k => 2 * k + 1) 3 8
    (by decide) (by decide) (by decide) (by decide)
    (by intro k k' _ _ h; simp only [] at h; omega)

set_option maxRecDepth 1000000 in
/-- C10 (counterexample). A field of `2^28 + 1` sites with 18 components per element and
the two different indices `0` and `16`: placing a buffer of two elements and gathering
them again does not return the first element that was placed. -/
theorem gather_after_place_wraps :
    (0 : Nat) ≠ 16 ∧ 0 < 2 ^ 28 + 1 ∧ 16 < 2 ^ 28 + 1 ∧
    ((field_storage.place_elements 256 (fun _ _ => 0) (fun _ => 0)
        (fun k (e : Fin 18) => 100 * k + e.val) (fun k => 16 * k) 2 (2 ^ 28 + 1)).bind
      (fun fld' => field_storage.gather_elements 256 (fun _ _ => 0) fld' (fun _ _ => 0)
        (fun k => 16 * k) 2 (2 ^ 28 + 1))).map (fun buf' => buf' 0)
      ≠ some ((fun k (e : Fin 18) => 100 * k + e.val) 0) := by
  refine ⟨by decide, by decide, by decide, ?_⟩
  intro h
  have h16 := congrArg (Option.map (fun v : Fin 18 → Nat => v 16)) h
  revert h16
  decide

/-! ## Launches as store sequences -/

theorem store_all_append {β : Type} (ws ws' : List (Nat × β)) (m : Mem β) :
    store_all (ws ++ ws') m = store_all ws' (store_all ws m) := by
  simp [store_all, List.foldl_append]

theorem store_all_of_not_mem {β : Type} (a : Nat) :
    ∀ (ws : List (Nat × β)) (m : Mem β), (∀ w ∈ ws, w.1 ≠ a) → store_all ws m a = m a := by
  intro ws m h
  exact foldl_write_of_not_mem (fun w : Nat × β => w.1) (fun w => w.2) a ws m h

/-- The content of an address that some store writes does not depend on the content
before the stores. -/
theorem store_all_agree {β : Type} (a : Nat) :
    ∀ (ws : List (Nat × β)) (m m' : Mem β), (∃ w ∈ ws, w.1 = a) →
      store_all ws m a = store_all ws m' a := by
  intro ws
  induction ws with
  | nil => intro m m' h; obtain ⟨w, hw, _⟩ := h; cases hw
  | cons x xs ih =>
    intro m m' h
    by_cases hxs : ∃ w ∈ xs, w.1 = a
    · exact ih _ _ hxs
    · have hnot : ∀ w ∈ xs, w.1 ≠ a := fun w hw hwa => hxs ⟨w, hw, hwa⟩
      have hx : x.1 = a := by
        obtain ⟨w, hw, hwa⟩ := h
        rcases List.mem_cons.mp hw with rfl | hw'
        · exact hwa
        · exact absurd hwa (hnot w hw')
      show store_all xs (m.write x.1 x.2) a = store_all xs (m'.write x.1 x.2) a
      rw [store_all_of_not_mem a xs _ hnot, store_all_of_not_mem a xs _ hnot, hx,
        Mem.write_same, Mem.write_same]

/-- Running the same stores a second time changes nothing. -/
theorem store_all_idem {β : Type} (ws : List (Nat × β)) (m : Mem β) :
    store_all ws (store_all ws m) = store_all ws m := by
  funext a
  by_cases h : ∃ w ∈ ws, w.1 = a
  · exact store_all_agree a ws _ _ h
  · exact store_all_of_not_mem a ws _ (fun w hw hwa => h ⟨w, hw, hwa⟩)

/-- A launch whose threads are store lists and that completes from one state completes
from every state, with the stores of all its threads. -/
theorem foldlM_stores {β : Type} (W : Nat → Option (List (Nat × β))) :
    ∀ (L : List Nat) (s s' : Mem β),
      L.foldlM (fun st tid => (W tid).map (fun ws => store_all ws st)) s = some s' →
      (∀ tid ∈ L, ∃ ws, W tid = some ws) ∧
      ∀ s2, L.foldlM (fun st tid => (W tid).map (fun ws => store_all ws st)) s2 =
        some (store_all (launch_stores W L) s2) := by
  intro L
  induction L with
  | nil => intro s s' _; exact ⟨fun _ h => absurd h (List.not_mem_nil _), fun s2 => rfl⟩
  | cons x xs ih =>
    intro s s' h
    rw [List.foldlM_cons] at h
    cases hW : W x with
    | none => rw [hW] at h; simp at h
    | some ws =>
      rw [hW] at h
      obtain ⟨hall, hrun⟩ := ih (store_all ws s) s' h
      refine ⟨?_, ?_⟩
      · intro tid htid
        rcases List.mem_cons.mp htid with rfl | hmem
        · exact ⟨ws, hW⟩
        · exact hall tid hmem
      · intro s2
        rw [List.foldlM_cons, hW]
        show xs.foldlM _ (store_all ws s2) = _
        rw [hrun (store_all ws s2)]
        simp [launch_stores, hW, store_all_append]

theorem mem_launch_stores {β : Type} (W : Nat → Option (List (Nat × β))) (L : List Nat)
    (tid : Nat) (htid : tid ∈ L) (ws : List (Nat × β)) (hW : W tid = some ws)
    (w : Nat × β) (hw : w ∈ ws) : w ∈ launch_stores W L := by
  simp only [launch_stores, List.mem_flatten, List.mem_map]
  exact ⟨ws, ⟨tid, htid, by rw [hW]; rfl⟩, hw⟩

namespace field_storage

theorem gather_kernel_stores {β : Type} {n_elements : Nat}
    (neg : (Fin n_elements → β) → (Fin n_elements → β)) (field : Mem β)
    (site_index : Nat → Nat) (n : Int) (F : Nat) (tid : Nat) (st : Mem β) :
    gather_comm_elements_negated_kernel neg field site_index n F tid st =
      (gather_comm_stores neg field site_index n F tid).map (fun ws => store_all ws st) := by
  unfold gather_comm_elements_negated_kernel gather_comm_stores
  by_cases hact : to_unsigned tid < int_to_unsigned n
  · simp only [if_pos hact]
    cases get field (site_index (to_unsigned tid)) F with
    | none => rfl
    | some got => simp [store_all, List.foldl_map]
  · simp only [if_neg hact]
    rfl

theorem place_kernel_stores {β : Type} (n_elements : Nat) (buffer : Mem β) (offset : Nat)
    (n : Int) (F : Nat) (tid : Nat) (st : Mem β) :
    place_comm_elements_kernel n_elements buffer offset n F tid st =
      (place_comm_stores n_elements buffer offset n F tid).map
        (fun ws => store_all ws st) := by
  unfold place_comm_elements_kernel place_comm_stores set
  by_cases hact : to_unsigned tid < int_to_unsigned n
  · simp only [if_pos hact]
    by_cases hi : to_unsigned (offset + to_unsigned tid) < F
    · simp [if_pos hi, store_all, List.foldl_map]
    · simp [if_neg hi]
  · simp only [if_neg hact]
    rfl

/-- The place kernel reads the buffer only below `n * n_elements` and below `2^32`. -/
theorem place_kernel_congr {β : Type} (n_elements : Nat) (b1 b2 : Mem β) (offset : Nat)
    (n : Int) (F : Nat)
    (h : ∀ a, a < int_to_unsigned n * n_elements → a < 2 ^ 32 → b1 a = b2 a) :
    place_comm_elements_kernel n_elements b1 offset n F =
      place_comm_elements_kernel n_elements b2 offset n F := by
  funext tid st
  unfold place_comm_elements_kernel
  by_cases hact : to_unsigned tid < int_to_unsigned n
  · simp only [if_pos hact]
    congr 1
    funext e
    exact h _ (lt_of_le_of_lt (to_unsigned_le _) (buf_addr_lt e hact)) (to_unsigned_lt _)
  · simp only [if_neg hact]

end field_storage

theorem to_int_lt (x : Nat) : to_int x < 2 ^ 31 := by
  unfold to_int UNSIGNED_MOD
  have : x % 2 ^ 32 < 2 ^ 32 := Nat.mod_lt _ (by norm_num)
  split <;> omega

namespace field_storage

/-- The gather wrapper as a launch of store lists. -/
theorem gather_comm_elements_eq {β : Type} {n_elements : Nat} (N_threads : Nat)
    (CUDA_AWARE_MPI : Bool) (d_alloc : Mem β)
    (neg : (Fin n_elements → β) → (Fin n_elements → β))
    (fieldbuf buffer : Mem β) (to_node : comm_node_struct) (par : Parity) (F : Nat)
    (antiperiodic : Bool) :
    gather_comm_elements N_threads CUDA_AWARE_MPI d_alloc neg fieldbuf buffer to_node par F
        antiperiodic =
      ((List.range ((Int.tdiv (to_node.get_sitelist par).2 (N_threads : Int) + 1).toNat
          * N_threads)).foldlM
        (fun st tid => (gather_comm_stores (if antiperiodic then neg else id) fieldbuf
          (to_node.get_sitelist par).1 (to_node.get_sitelist par).2 F tid).map
            (fun ws => store_all ws st))
        (if CUDA_AWARE_MPI then buffer else d_alloc)).map
      (fun d => if CUDA_AWARE_MPI then d
        else cudaMemcpy buffer d ((to_node.get_sitelist par).2.toNat * n_elements)) := by
  unfold gather_comm_elements launch
  simp only [gather_comm_elements_kernel_eq, gather_kernel_stores]
  cases antiperiodic <;> cases CUDA_AWARE_MPI <;> simp

/-- The place wrapper as a launch of store lists. -/
theorem place_comm_elements_eq {β : Type} (n_elements : Nat) (N_threads : Nat)
    (CUDA_AWARE_MPI : Bool) (d_alloc fieldbuf : Mem β) (par : Parity) (buffer : Mem β)
    (from_node : comm_node_struct) (F : Nat) :
    place_comm_elements n_elements N_threads CUDA_AWARE_MPI d_alloc fieldbuf par buffer
        from_node F =
      (List.range (to_unsigned (from_node.n_sites par / N_threads + 1) * N_threads)).foldlM
        (fun st tid => (place_comm_stores n_elements
          (if CUDA_AWARE_MPI then buffer
            else cudaMemcpy d_alloc buffer (from_node.n_sites par * n_elements))
          (from_node.offset par) (to_int (from_node.n_sites par)) F tid).map
            (fun ws => store_all ws st))
        fieldbuf := by
  unfold place_comm_elements launch
  simp only [place_kernel_stores]

/-- Every buffer position below the copied size (and below `2^32`) is stored by a thread
of a completed gather launch. -/
theorem gather_covers {β : Type} {n_elements : Nat} (N_threads : Nat) (hT : 0 < N_threads)
    (ng : (Fin n_elements → β) → (Fin n_elements → β)) (field : Mem β)
    (site_index : Nat → Nat) (c : Nat) (F : Nat)
    (hall : ∀ tid ∈ List.range ((Int.tdiv (to_int c) (N_threads : Int) + 1).toNat * N_threads),
      ∃ ws, gather_comm_stores ng field site_index (to_int c) F tid = some ws)
    (a : Nat) (ha : a < (to_int c).toNat * n_elements) (ha32 : a < 2 ^ 32) :
    ∃ w ∈ launch_stores (gather_comm_stores ng field site_index (to_int c) F)
        (List.range ((Int.tdiv (to_int c) (N_threads : Int) + 1).toNat * N_threads)),
      w.1 = a := by
  have hlt := to_int_lt c
  generalize to_int c = n_int at hall ha hlt ⊢
  have hm0 : 0 < n_int.toNat := Nat.pos_of_ne_zero (fun h0 => by rw [h0] at ha; omega)
  obtain ⟨m, rfl⟩ : ∃ m : Nat, n_int = (m : Int) := ⟨n_int.toNat, by omega⟩
  have hm : ((m : Int)).toNat = m := Int.toNat_ofNat m
  rw [hm] at ha hm0
  rw [tdiv_blocks] at hall ⊢
  have hmu : int_to_unsigned (m : Int) = m := int_to_unsigned_natCast (by omega)
  have hidx : a % m < m := Nat.mod_lt _ hm0
  have hidxu : to_unsigned (a % m) = a % m := to_unsigned_of_lt (by omega)
  have he : a / m < n_elements := by
    apply Nat.div_lt_of_lt_mul
    exact ha
  have hmem := mem_launch_range hT hidx
  obtain ⟨ws, hws⟩ := hall (a % m) hmem
  have hws' := hws
  simp only [gather_comm_stores, hmu, hidxu, if_pos hidx] at hws'
  cases hget : (get field (site_index (a % m)) F : Option (Fin n_elements → β)) with
  | none => rw [hget] at hws'; cases hws'
  | some got =>
    rw [hget] at hws'
    simp only [Option.map_some'] at hws'
    cases hws'
    refine ⟨(to_unsigned (a % m + m * (⟨a / m, he⟩ : Fin n_elements).val),
      ng got ⟨a / m, he⟩), ?_, ?_⟩
    · exact mem_launch_stores _ _ (a % m) hmem _ hws
        _ (List.mem_map.mpr ⟨⟨a / m, he⟩, List.mem_finRange _, rfl⟩)
    · show to_unsigned (a % m + m * (a / m)) = a
      rw [Nat.mod_add_div]
      exact to_unsigned_of_lt ha32

end field_storage

theorem comm_node_struct.get_sitelist_size_eq (c : comm_node_struct) (par : Parity) :
    ∃ count, (c.get_sitelist par).2 = to_int count := by
  cases par
  · exact ⟨c.evensites, by simp [comm_node_struct.get_sitelist]⟩
  · exact ⟨c.oddsites, by simp [comm_node_struct.get_sitelist]⟩
  · exact ⟨c.sites, by simp [comm_node_struct.get_sitelist]⟩

namespace field_storage

/-- The place kernel's stores read the buffer only below `n * n_elements` and `2^32`. -/
theorem place_stores_congr {β : Type} (n_elements : Nat) (b1 b2 : Mem β) (offset : Nat)
    (n : Int) (F : Nat)
    (h : ∀ a, a < int_to_unsigned n * n_elements → a < 2 ^ 32 → b1 a = b2 a) :
    place_comm_stores n_elements b1 offset n F = place_comm_stores n_elements b2 offset n F := by
  funext tid
  unfold place_comm_stores
  by_cases hact : to_unsigned tid < int_to_unsigned n
  · simp only [if_pos hact]
    by_cases hi : to_unsigned (offset + to_unsigned tid) < F
    · simp only [if_pos hi]
      congr 2
      funext e
      rw [h _ (lt_of_le_of_lt (to_unsigned_le _) (buf_addr_lt e hact)) (to_unsigned_lt _)]
    · simp only [if_neg hi]
  · simp only [if_neg hact]

/-- A completed gather is a fixed list of stores `WS`, which covers the copied part of
the buffer: from any buffer and any fresh allocation the call completes with them. -/
theorem gather_comm_elements_runs {β : Type} {n_elements : Nat} (N_threads : Nat)
    (CUDA_AWARE_MPI : Bool) (d_alloc : Mem β)
    (neg : (Fin n_elements → β) → (Fin n_elements → β))
    (fieldbuf buffer : Mem β) (to_node : comm_node_struct) (par : Parity) (F : Nat)
    (antiperiodic : Bool) (buf1 : Mem β) (hT : 0 < N_threads)
    (hgather : gather_comm_elements N_threads CUDA_AWARE_MPI d_alloc neg fieldbuf buffer
      to_node par F antiperiodic = some buf1) :
    ∃ (WS : List (Nat × β)) (C : Nat),
      (∀ a, a < C → a < 2 ^ 32 → ∃ w ∈ WS, w.1 = a) ∧
      ∀ d_alloc' buffer' : Mem β,
        gather_comm_elements N_threads CUDA_AWARE_MPI d_alloc' neg fieldbuf buffer'
          to_node par F antiperiodic =
        some (if CUDA_AWARE_MPI then store_all WS buffer'
          else cudaMemcpy buffer' (store_all WS d_alloc') C) := by
  obtain ⟨count, hcount⟩ := to_node.get_sitelist_size_eq par
  rw [gather_comm_elements_eq, hcount] at hgather
  cases hrun : (List.range ((Int.tdiv (to_int count) (N_threads : Int) + 1).toNat
      * N_threads)).foldlM
    (fun st tid => (gather_comm_stores (if antiperiodic then neg else id) fieldbuf
      (to_node.get_sitelist par).1 (to_int count) F tid).map (fun ws => store_all ws st))
    (if CUDA_AWARE_MPI then buffer else d_alloc) with
  | none => rw [hrun] at hgather; cases hgather
  | some D1 =>
    obtain ⟨hall, hstores⟩ := foldlM_stores _ _ _ _ hrun
    refine ⟨_, (to_int count).toNat * n_elements,
      fun a ha ha32 => gather_covers N_threads hT _ fieldbuf _ count F hall a ha ha32, ?_⟩
    intro d_alloc' buffer'
    rw [gather_comm_elements_eq, hcount,
      hstores (if CUDA_AWARE_MPI then buffer' else d_alloc'), Option.map_some']
    cases CUDA_AWARE_MPI <;> simp

/-- A completed place completes again on the field it produced and reproduces it, from
any buffer that agrees with the first one below `2^32`. -/
theorem place_comm_elements_again {β : Type} (n_elements : Nat) (N_threads : Nat)
    (CUDA_AWARE_MPI : Bool) (d_alloc d_alloc' fieldbuf : Mem β) (par : Parity)
    (b1 b2 : Mem β) (from_node : comm_node_struct) (F : Nat) (g1 : Mem β)
    (hplace : place_comm_elements n_elements N_threads CUDA_AWARE_MPI d_alloc fieldbuf par
      b1 from_node F = some g1)
    (hagree : ∀ a, a < 2 ^ 32 → b2 a = b1 a) :
    place_comm_elements n_elements N_threads CUDA_AWARE_MPI d_alloc' g1 par b2 from_node F
      = some g1 := by
  have hnu : int_to_unsigned (to_int (from_node.n_sites par)) = from_node.n_sites par := by
    rw [int_to_unsigned_to_int]; exact to_unsigned_of_lt (from_node.n_sites_lt par)
  have hcongr := place_stores_congr n_elements
    (if CUDA_AWARE_MPI then b2
      else cudaMemcpy d_alloc' b2 (from_node.n_sites par * n_elements))
    (if CUDA_AWARE_MPI then b1
      else cudaMemcpy d_alloc b1 (from_node.n_sites par * n_elements))
    (from_node.offset par) (to_int (from_node.n_sites par)) F (by
      intro a ha ha32
      rw [hnu] at ha
      cases CUDA_AWARE_MPI
      · simp [cudaMemcpy, ha, hagree a ha32]
      · simpa using hagree a ha32)
  rw [place_comm_elements_eq] at hplace ⊢
  rw [hcongr]
  obtain ⟨-, hP⟩ := foldlM_stores _ _ _ _ hplace
  have hg1 := hP fieldbuf
  rw [hplace] at hg1
  rw [hP g1]
  conv_lhs => rw [Option.some.inj hg1, store_all_idem]
  exact hg1.symm

end field_storage

namespace field_storage

/-- Effect of the threads of a local boundary launch, when the written range lies inside
a field that fits 32 bit addressing and every source site is valid and outside it. -/
theorem set_local_boundary_threads {β : Type} {n_elements : Nat}
    (neg : (Fin n_elements → β) → (Fin n_elements → β)) (offset : Nat)
    (site_index : Nat → Nat) (n_int : Int) (n F : Nat) (hn : int_to_unsigned n_int = n)
    (hF : n_elements * F ≤ 2 ^ 32) (hFu : F < 2 ^ 32) (hoff : offset + n ≤ F)
    (hsrc : ∀ k, k < n → site_index k < F ∧ (site_index k < offset ∨ offset + n ≤ site_index k))
    (L : List Nat) (field : Mem β) :
    ∃ fld', L.foldlM (fun st tid =>
        set_local_boundary_elements_kernel neg offset site_index n_int F tid st) field
          = some fld' ∧
      (∀ a, (∀ k, k < n → ∀ e : Fin n_elements, a ≠ e.val * F + (offset + k)) →
        fld' a = field a) ∧
      ∀ tid ∈ L, to_unsigned tid < n → ∀ e : Fin n_elements,
        fld' (e.val * F + (offset + to_unsigned tid)) =
          neg (fun e => field (e.val * F + site_index (to_unsigned tid))) e := by
  obtain ⟨fld', h, hI, hQ, -⟩ := foldlM_threads
    (set_local_boundary_elements_kernel neg offset site_index n_int F)
    (fun st => ∀ a, (∀ k, k < n → ∀ e : Fin n_elements, a ≠ e.val * F + (offset + k)) →
        st a = field a)
    (fun tid st => to_unsigned tid < n → ∀ e : Fin n_elements,
        st (e.val * F + (offset + to_unsigned tid)) =
          neg (fun e => field (e.val * F + site_index (to_unsigned tid))) e)
    L field (fun _ _ => rfl) (by
      intro tid _ st hI
      by_cases hact : to_unsigned tid < n
      · have hi : offset + to_unsigned tid < F := by omega
        have hiu : to_unsigned (offset + to_unsigned tid) = offset + to_unsigned tid :=
          to_unsigned_of_lt (by omega)
        have hs := hsrc _ hact
        have hgot : (fun e : Fin n_elements => st (e.val * F + site_index (to_unsigned tid))) =
            fun e => field (e.val * F + site_index (to_unsigned tid)) := by
          funext e
          apply hI
          intro k hk e' he'
          have := (addr_inj hs.1 (show offset + k < F by omega) he').2
          omega
        have hget : (get st (site_index (to_unsigned tid)) F : Option (Fin n_elements → β)) =
            some (fun e => field (e.val * F + site_index (to_unsigned tid))) := by
          rw [get_eq st hF hs.1, hgot]
        obtain ⟨fp, hset, hval, hframe⟩ := set_spec st
          (neg (fun e : Fin n_elements => field (e.val * F + site_index (to_unsigned tid))))
          hF hi
        refine ⟨fp, by simp only [set_local_boundary_elements_kernel, hn, if_pos hact, hget,
          hiu, hset], ?_, fun _ e => hval e, ?_⟩
        · intro a ha
          rw [hframe a (fun e => ha _ hact e)]
          exact hI a ha
        · intro t hQt ht e
          by_cases hsame : to_unsigned t = to_unsigned tid
          · rw [hsame]; exact hval e
          · rw [hframe]
            · exact hQt ht e
            · intro e' he'
              have := (addr_inj (show offset + to_unsigned t < F by omega) hi he').2
              omega
      · exact ⟨st, by simp only [set_local_boundary_elements_kernel, hn, if_neg hact],
          hI, fun h => absurd h hact, fun t hQt => hQt⟩)
  exact ⟨fld', h, hI, hQ⟩

end field_storage

namespace field_storage

/-- The host function in terms of the site count and start position of the parity, when
these and the offset are `unsigned` values. -/
theorem set_local_boundary_elements_eq {β : Type} {n_elements : Nat} (N_threads : Nat)
    (neg : (Fin n_elements → β) → (Fin n_elements → β)) (fieldbuf : Mem β)
    (sb : special_boundary_struct) (par : Parity) (F : Nat)
    (hc : sb.count par < 2 ^ 32) (hs : sb.offset + sb.start par < 2 ^ 32) :
    set_local_boundary_elements N_threads neg fieldbuf sb par F true =
      launch (to_unsigned (sb.count par / N_threads + 1)) N_threads
        (set_local_boundary_elements_kernel neg (sb.offset + sb.start par)
          (fun k => sb.move_index (sb.start par + k)) (to_int (sb.count par)) F) fieldbuf := by
  have hs' : sb.start par < 2 ^ 32 := by omega
  have ho : sb.offset < 2 ^ 32 := by omega
  cases par <;>
    simp only [special_boundary_struct.count, special_boundary_struct.start, if_true,
      if_false, reduceCtorEq] at hc hs hs' ⊢ <;>
    simp only [set_local_boundary_elements, if_true, if_false, reduceCtorEq,
      to_unsigned_of_lt hc, to_unsigned_of_lt hs, to_unsigned_of_lt hs',
      to_unsigned_of_lt ho, Nat.add_zero,
      Nat.zero_add]

end field_storage

/-! ## Local antiperiodic boundary -/

/-- C11 (amended). `set_local_boundary_elements` leaves the field unchanged when
`antiperiodic` is false. When it is true, with `(start, n)` the start position and count
of the parity in `special_boundaries[dir]`, the written range
`[offset + start, offset + start + n)` inside a field that fits 32 bit addressing
(`n_elements * F ≤ 2^32`) and every `move_index[start + k]`, `k < n`, a valid index
outside the written range: the call completes, for every `k < n` the slot
`offset + start + k` holds the negation of the value stored at index
`move_index[start + k]`, and no other slot is changed. -/
theorem set_local_boundary_elements_correct {β : Type} {n_elements : Nat}
    (N_threads : Nat) (neg : (Fin n_elements → β) → (Fin n_elements → β))
    (fieldbuf : Mem β) (sb : special_boundary_struct) (par : Parity) (F : Nat)
    (hT : 0 < N_threads) (hF : n_elements * F ≤ 2 ^ 32) (hFu : F < 2 ^ 32)
    (hrange : sb.offset + sb.start par + sb.count par ≤ F)
    (hsrc : ∀ k, k < sb.count par →
      sb.move_index (sb.start par + k) < F ∧
      (sb.move_index (sb.start par + k) < sb.offset + sb.start par ∨
        sb.offset + sb.start par + sb.count par ≤ sb.move_index (sb.start par + k))) :
    field_storage.set_local_boundary_elements N_threads neg fieldbuf sb par F false
      = some fieldbuf ∧
    ∃ g', field_storage.set_local_boundary_elements N_threads neg fieldbuf sb par F true
        = some g' ∧
      (∀ k, k < sb.count par → ∃ v : Fin n_elements → β,
        field_storage.get fieldbuf (sb.move_index (sb.start par + k)) F = some v ∧
        field_storage.get g' (sb.offset + sb.start par + k) F = some (neg v)) ∧
      (∀ j, j < F → (j < sb.offset + sb.start par ∨
          sb.offset + sb.start par + sb.count par ≤ j) →
        (field_storage.get g' j F : Option (Fin n_elements → β)) =
          field_storage.get fieldbuf j F) := by
  refine ⟨by simp [field_storage.set_local_boundary_elements], ?_⟩
  have hnlt : sb.count par + 1 < 2 ^ 32 := by
    by_cases h0 : sb.count par = 0
    · rw [h0]; norm_num
    · have := hsrc 0 (Nat.pos_of_ne_zero h0)
      omega
  have hblocks : to_unsigned (sb.count par / N_threads + 1) =
      sb.count par / N_threads + 1 := by
    have := Nat.div_le_self (sb.count par) N_threads
    exact to_unsigned_of_lt (by omega)
  have hnu : int_to_unsigned (to_int (sb.count par)) = sb.count par := by
    rw [int_to_unsigned_to_int]; exact to_unsigned_of_lt (by omega)
  obtain ⟨g', hrun, hframe, hQ⟩ := field_storage.set_local_boundary_threads neg
    (sb.offset + sb.start par) (fun k => sb.move_index (sb.start par + k))
    (to_int (sb.count par)) (sb.count par) F hnu hF hFu hrange hsrc
    (List.range ((sb.count par / N_threads + 1) * N_threads)) fieldbuf
  refine ⟨g', ?_, ?_, ?_⟩
  · rw [field_storage.set_local_boundary_elements_eq N_threads neg fieldbuf sb par F
      (by omega) (by omega), hblocks]
    exact hrun
  · intro k hk
    have hku : to_unsigned k = k := to_unsigned_of_lt (by omega)
    have hs := hsrc k hk
    refine ⟨fun e => fieldbuf (e.val * F + sb.move_index (sb.start par + k)),
      field_storage.get_eq fieldbuf hF hs.1, ?_⟩
    rw [field_storage.get_eq g' hF (by omega)]
    congr 1
    funext e
    have := hQ k (mem_launch_range hT hk) (by rw [hku]; exact hk) e
    rw [hku] at this
    exact this
  · intro j hj hout
    rw [field_storage.get_eq g' hF hj, field_storage.get_eq fieldbuf hF hj]
    congr 1
    funext e
    apply hframe
    intro k hk e' he'
    have := (addr_inj hj (show sb.offset + sb.start par + k < F by omega) he').2
    omega

/-- C11 (witness). The odd site of the sample boundary: slot `10` receives the negated
element of site `5`, in a field of `12` sites with two integer components. -/
theorem set_local_boundary_elements_correct_witness :
    field_storage.set_local_boundary_elements 4 (neg_int 2) (fun a => (a : Int))
      sample_boundary Parity.ODD 12 false = some (fun a : Nat => (a : Int)) ∧
    ∃ g', field_storage.set_local_boundary_elements 4 (neg_int 2) (fun a => (a : Int))
        sample_boundary Parity.ODD 12 true = some g' ∧
      (∀ k, k < sample_boundary.count Parity.ODD → ∃ v : Fin 2 → Int,
        field_storage.get (fun a => (a : Int))
          (sample_boundary.move_index (sample_boundary.start Parity.ODD + k)) 12 = some v ∧
        field_storage.get g'
          (sample_boundary.offset + sample_boundary.start Parity.ODD + k) 12
            = some (neg_int 2 v)) ∧
      (∀ j, j < 12 → (j < sample_boundary.offset + sample_boundary.start Parity.ODD ∨
          sample_boundary.offset + sample_boundary.start Parity.ODD +
            sample_boundary.count Parity.ODD ≤ j) →
        (field_storage.get g' j 12 : Option (Fin 2 → Int)) =
          field_storage.get (fun a => (a : Int)) j 12) :=
  set_local_boundary_elements_correct 4 (neg_int 2) (fun a => (a : Int)) sample_boundary
    Parity.ODD 12 (by decide) (by decide) (by decide) (by decide) (by decide)

set_option maxRecDepth 1000000 in
/-- C11 (counterexample). A field of `2^28 + 1` sites with 18 integer components and the
boundary of 17 sites at `[100, 117)` moved from the sites `0, 2, .., 32`: every
`move_index` entry is outside the written range, the call completes, and slot `100` does
not hold the negation of the value stored at index `move_index[0]`. -/
theorem set_local_boundary_elements_wraps :
    (∀ k, k < wide_boundary.count Parity.ALL →
      wide_boundary.move_index (wide_boundary.start Parity.ALL + k) <
        wide_boundary.offset + wide_boundary.start Parity.ALL) ∧
    wide_boundary.offset + wide_boundary.start Parity.ALL + wide_boundary.count Parity.ALL
      ≤ 2 ^ 28 + 1 ∧
    (field_storage.set_local_boundary_elements 256 (neg_int 18) (fun a => (a : Int))
        wide_boundary Parity.ALL (2 ^ 28 + 1) true).bind
      (fun g' => field_storage.get g'
        (wide_boundary.offset + wide_boundary.start Parity.ALL + 0) (2 ^ 28 + 1))
    ≠ (field_storage.get (fun a => (a : Int))
        (wide_boundary.move_index (wide_boundary.start Parity.ALL + 0)) (2 ^ 28 + 1) :
          Option (Fin 18 → Int)).map (neg_int 18) := by
  refine ⟨by decide, by decide, ?_⟩
  intro h
  have h16 := congrArg (Option.map (fun v : Fin 18 → Int => v 16)) h
  revert h16
  decide

/-! ## Assertions of the single element access -/

/-- C15. `get(i, F)` and `set(v, i, F)` fail their assertion if and only if `i ≥ F`, and a
failing `set` leaves the field array as it was; a `set` that passes its assertion returns
the array it leaves behind. -/
theorem access_assertion_iff {β : Type} {n_elements : Nat} (fieldbuf : Mem β)
    (value : Fin n_elements → β) (i F : Nat) :
    ((field_storage.get fieldbuf i F : Option (Fin n_elements → β)) = none ↔ F ≤ i) ∧
    (field_storage.set fieldbuf value i F = none ↔ F ≤ i) ∧
    (F ≤ i → field_storage.set_effect fieldbuf value i F = fieldbuf) ∧
    (i < F → field_storage.set fieldbuf value i F =
      some (field_storage.set_effect fieldbuf value i F)) := by
  refine ⟨?_, ?_, ?_, ?_⟩
  · by_cases h : i < F
    · simp [field_storage.get, h]
    · simp only [field_storage.get, if_neg h]; simp; omega
  · by_cases h : i < F
    · simp [field_storage.set, h]
    · simp only [field_storage.set, if_neg h]; simp; omega
  · intro h
    simp only [field_storage.set_effect, if_neg (Nat.not_lt.mpr h)]
  · intro h
    simp only [field_storage.set, field_storage.set_effect, if_pos h]

/-- C15 (witness). Index `7` in a field of `5` sites, and index `2` in the same field. -/
theorem access_assertion_iff_witness :
    ((field_storage.get (fun _ => (0 : Int)) 7 5 : Option (Fin 2 → Int)) = none ↔ 5 ≤ 7) ∧
    (field_storage.set (fun _ => (0 : Int)) (fun _ : Fin 2 => 1) 7 5 = none ↔ 5 ≤ 7) ∧
    (5 ≤ 7 → field_storage.set_effect (fun _ => (0 : Int)) (fun _ : Fin 2 => 1) 7 5
      = fun _ => (0 : Int)) ∧
    (7 < 5 → field_storage.set (fun _ => (0 : Int)) (fun _ : Fin 2 => 1) 7 5 =
      some (field_storage.set_effect (fun _ => (0 : Int)) (fun _ : Fin 2 => 1) 7 5)) :=
  access_assertion_iff (fun _ => (0 : Int)) (fun _ : Fin 2 => 1) 7 5

/-! ## Host side single element access -/

/-- What `set_element` stores does not depend on the value it is given. -/
theorem set_element_ignores_value {β : Type} {n_elements : Nat}
    (pointer_object : Fin n_elements → β) (d_alloc : Mem (Fin n_elements → β))
    (fieldbuf : Mem β) (v v' : Fin n_elements → β) (i F : Nat) :
    field_storage.set_element pointer_object d_alloc fieldbuf v i F =
      field_storage.set_element pointer_object d_alloc fieldbuf v' i F :=
  rfl

/-- C16 (the code at the failing input). Two components, a field of `4` sites, index
`1`, value `(5, 6)`, and a pointer object that holds `(1234, 77)`: `get_element` after
`set_element` returns `(1234, 77)`, not the value that was set. -/
theorem get_element_after_set_element :
    (1 : Nat) < 4 ∧
    ((field_storage.set_element (fun e : Fin 2 => 1234 - 1157 * e.val)
        (fun _ _ => 0) (fun _ => 0) (fun e : Fin 2 => 5 + e.val) 1 4).bind
      (fun fp => field_storage.get_element (fun _ _ => 0) fp 1 4)).map
        (fun v : Fin 2 → Nat => (v 0, v 1)) = some (1234, 77) ∧
    (field_storage.set_element (fun e : Fin 2 => 1234 - 1157 * e.val)
        (fun _ _ => 0) (fun _ => 0) (fun e : Fin 2 => 5 + e.val) 1 4).bind
      (fun fp => field_storage.get_element (fun _ _ => 0) fp 1 4)
      ≠ some (fun e : Fin 2 => 5 + e.val) := by
  decide

/-! ## Integer arithmetic of the reductions -/

theorem wrap_int_add_left (bits : Nat) (signed : Bool) (a b : Int) :
    wrap_int bits signed (wrap_int bits signed a + b) = wrap_int bits signed (a + b) := by
  unfold wrap_int
  cases signed
  · simp only [Bool.false_eq_true, if_false]
    exact Int.emod_add_emod a (2 ^ bits) b
  · simp only [if_true]
    have h : (a + 2 ^ (bits - 1)) % 2 ^ bits - 2 ^ (bits - 1) + b + 2 ^ (bits - 1) =
        (a + 2 ^ (bits - 1)) % 2 ^ bits + b := by ring
    rw [h, Int.emod_add_emod]
    congr 2
    ring

theorem wrap_int_idem (bits : Nat) (signed : Bool) (a : Int) :
    wrap_int bits signed (wrap_int bits signed a) = wrap_int bits signed a := by
  have := wrap_int_add_left bits signed a 0
  simpa using this

theorem number_wrap_add_left (nt : number_type) (a b : Int) :
    number_wrap nt (number_wrap nt a + b) = number_wrap nt (a + b) :=
  wrap_int_add_left _ _ a b

theorem number_wrap_idem (nt : number_type) (a : Int) :
    number_wrap nt (number_wrap nt a) = number_wrap nt a :=
  wrap_int_idem _ _ a

/-- Adding up a list in the integer type `nt`, from a start value of that type. -/
theorem foldl_number_add (nt : number_type) :
    ∀ (xs : List Int) (x : Int), number_wrap nt x = x →
      xs.foldl (number_add nt) x = number_wrap nt (x + xs.sum) := by
  intro xs
  induction xs with
  | nil => intro x hx; simpa using hx.symm
  | cons y ys ih =>
    intro x _
    rw [List.foldl_cons, ih (number_add nt x y) (number_wrap_idem nt _)]
    unfold number_add
    rw [number_wrap_add_left, List.sum_cons, Int.add_assoc]

/-- The combination of the contributions of the processes is their sum in the type. -/
theorem MPI_combine_number_add (nt : number_type) (xs : List Int) (hne : xs ≠ [])
    (hrep : ∀ x ∈ xs, number_wrap nt x = x) :
    MPI_combine (number_add nt) xs = some (number_wrap nt xs.sum) := by
  cases xs with
  | nil => exact absurd rfl hne
  | cons x ys =>
    simp only [MPI_combine, List.sum_cons]
    rw [foldl_number_add nt ys x (hrep x (List.mem_cons_self _ _))]

theorem zipWith_of_const_right {α γ δ : Type} (F : α → δ) (f : α → γ → δ)
    (hf : ∀ a c, f a c = F a) :
    ∀ (as : List α) (cs : List γ), cs.length = as.length →
      List.zipWith f as cs = as.map F := by
  intro as
  induction as with
  | nil => intro cs _; simp
  | cons a as ih =>
    intro cs hlen
    cases cs with
    | nil => simp at hlen
    | cons c cs =>
      simp only [List.zipWith_cons_cons, List.map_cons, hf]
      rw [ih cs (by simpa using hlen)]

theorem zipWith_zip_of_const_right {α γ δ : Type} (F : Nat → α → δ)
    (f : Nat → α × γ → δ) (hf : ∀ r a c, f r (a, c) = F r a) :
    ∀ (rs : List Nat) (as : List α) (cs : List γ), cs.length = as.length →
      List.zipWith f rs (List.zip as cs) = List.zipWith F rs as := by
  intro rs
  induction rs with
  | nil => intro as cs _; simp
  | cons r rs ih =>
    intro as cs hlen
    cases as with
    | nil => simp
    | cons a as =>
      cases cs with
      | nil => simp at hlen
      | cons c cs =>
        simp only [List.zip_cons_cons, List.zipWith_cons_cons, hf]
        rw [ih as cs (by simpa using hlen)]

/-- Alignment of two rank-indexed passes over the processes. -/
theorem zipWith_range_zip {α γ δ : Type} (Fin' : Nat → γ → γ) (Fout : Nat → α × γ → δ)
    (Fres : Nat → α → δ) (h : ∀ r a c, Fout r (a, Fin' r c) = Fres r a) :
    ∀ (as : List α) (cs : List γ) (s : Nat), cs.length = as.length →
      List.zipWith Fout (List.range' s as.length)
        (List.zip as (List.zipWith Fin' (List.range' s cs.length) cs)) =
      List.zipWith Fres (List.range' s as.length) as := by
  intro as
  induction as with
  | nil => intro cs s _; simp
  | cons a as ih =>
    intro cs s hlen
    cases cs with
    | nil => simp at hlen
    | cons c cs =>
      simp only [List.length_cons, List.range'_succ, List.zipWith_cons_cons,
        List.zip_cons_cons, h]
      rw [ih cs (s + 1) (by simpa using hlen)]

/-! ## Sum reduction over the processes -/

theorem MPI_SUM_defined_of_integer (nt : number_type)
    (hnt : nt = number_type.int_t ∨ nt = number_type.unsigned_t ∨ nt = number_type.long_t ∨
      nt = number_type.unsigned_long_t) :
    MPI_SUM_defined (get_MPI_number_type nt false).1 = true := by
  rcases hnt with rfl | rfl | rfl | rfl <;> decide

/-- What the reduction leaves in the local array `work`, copied over `v`. -/
theorem MPI_reduced_number_add (nt : number_type) (k N : Nat) (value : List (Mem Int))
    (hne : value ≠ [])
    (hrep : ∀ v ∈ value, ∀ i, i < N * k → number_wrap nt (v i) = v i) (v w : Mem Int) :
    (fun i => if i < N * k then
        MPI_reduced (number_add nt) value ((N * k : Nat) : Int) w i else v i) =
      reduced_sum nt k N value v := by
  funext i
  unfold reduced_sum
  by_cases hi : i < N * k
  · simp only [if_pos hi, MPI_reduced, Int.toNat_ofNat]
    rw [MPI_combine_number_add nt _ (by simpa using hne)
      (by
        intro x hx
        obtain ⟨s, hs, rfl⟩ := List.mem_map.mp hx
        exact hrep s hs i hi)]
    rfl
  · simp only [if_neg hi]

/-- C13 (amended). For an element type whose number type is `int`, `unsigned`, `long`
(`int64_t`) or `uint64_t`, with `N * sizeof(T) / sizeof(number_type)` below `2^31`:
after `reduce_node_sum(value, N, distribute = true)` every entry `value[i]`, `i < N`, on
every process is the sum over all processes of the `value[i]` they passed in, taken in
the element's integer type (modulo `2^bits`); with `distribute = false` this holds on
rank `0` and the array of every other rank is left unchanged. -/
theorem reduce_node_sum_correct (nt : number_type) (k N : Nat) (work value : List (Mem Int))
    (hnt : nt = number_type.int_t ∨ nt = number_type.unsigned_t ∨ nt = number_type.long_t ∨
      nt = number_type.unsigned_long_t)
    (hcount : N * k < 2 ^ 31) (hlen : work.length = value.length)
    (hrep : ∀ v ∈ value, ∀ i, i < N * k → number_wrap nt (v i) = v i) :
    reduce_node_sum (number_add nt) nt k work value N true =
      some (value.map (reduced_sum nt k N value)) ∧
    reduce_node_sum (number_add nt) nt k work value N false =
      some (List.zipWith (fun rank v => if rank = 0 then reduced_sum nt k N value v else v)
        (List.range value.length) value) := by
  have hdef := MPI_SUM_defined_of_integer nt hnt
  have hc : to_int (N * k) = ((N * k : Nat) : Int) := to_int_of_lt hcount
  have hnn : ¬ (((N * k : Nat) : Int) < 0) := by omega
  by_cases hne : value = []
  · subst hne
    have hw : work = [] := List.eq_nil_of_length_eq_zero (by simpa using hlen)
    subst hw
    simp [reduce_node_sum, MPI_Allreduce, MPI_Reduce, hdef, hc, hnn]
    positivity
  · constructor
    · simp only [reduce_node_sum, MPI_Allreduce, hdef, hc, hnn, if_true, or_false,
        Bool.true_eq_false, if_false, Option.map_some']
      congr 1
      rw [List.zipWith_map_right]
      exact zipWith_of_const_right (reduced_sum nt k N value) _
        (fun v w => MPI_reduced_number_add nt k N value hne hrep v w) value work hlen
    · simp only [reduce_node_sum, MPI_Reduce, hdef, hc, hnn, or_false,
        Bool.true_eq_false, Bool.false_eq_true, if_false, Option.map_some']
      congr 1
      rw [List.range_eq_range', List.range_eq_range']
      refine zipWith_range_zip _ _ _ ?_ value work 0 hlen
      intro r v w
      by_cases hr : r = 0
      · simp only [hr, if_true]
        exact MPI_reduced_number_add nt k N value hne hrep v w
      · simp only [hr, if_false]

/-- C13 (witness). Three processes, arrays of two `int`. -/
theorem reduce_node_sum_correct_witness :
    reduce_node_sum (number_add number_type.int_t) number_type.int_t 1
        [fun _ => 0, fun _ => 0, fun _ => 0] sample_values 2 true =
      some (sample_values.map (reduced_sum number_type.int_t 1 2 sample_values)) ∧
    reduce_node_sum (number_add number_type.int_t) number_type.int_t 1
        [fun _ => 0, fun _ => 0, fun _ => 0] sample_values 2 false =
      some (List.zipWith
        (fun rank v => if rank = 0 then reduced_sum number_type.int_t 1 2 sample_values v
          else v)
        (List.range sample_values.length) sample_values) :=
  reduce_node_sum_correct number_type.int_t 1 2 [fun _ => 0, fun _ => 0, fun _ => 0]
    sample_values (by decide) (by decide) (by decide) (by decide)

/-- C13 (counterexample). Two processes that pass in the `unsigned` values `2^32 - 1` and
`1`: both end with `0`, which is not the sum `2^32`. Two processes that pass in `short`
values: the reduction does not complete, because `get_MPI_number_type` has no case for
`short` and selects `MPI_BYTE`, for which `MPI_SUM` is not defined. -/
theorem reduce_node_sum_not_exact :
    (reduce_node_sum (number_add number_type.unsigned_t) number_type.unsigned_t 1
        [fun _ => 0, fun _ => 0] [fun _ => 4294967295, fun _ => 1] 1 true).map
      (fun res => res.map (fun v => v 0)) = some [0, 0] ∧
    ([(4294967295 : Int), 1].sum ≠ 0) ∧
    (reduce_node_sum (number_add number_type.short_t) number_type.short_t 1
        [fun _ => 0, fun _ => 0] [fun _ => 1, fun _ => 2] 1 true).isSome = false := by
  decide

/-! ## Broadcast -/

/-- With `check_input` off and a valid rank, `broadcast` is `MPI_Bcast` from rank `0`,
whatever the rank argument. -/
theorem broadcast_eq {α : Type} (var : List α) (rank : Int)
    (h : 0 ≤ rank ∧ rank < (var.length : Int)) :
    broadcast false var rank = MPI_Bcast var 0 := by
  simp only [broadcast, Bool.false_eq_true, if_false, if_pos h]

/-- C12 (the code at the failing input). Two processes that hold `10` and `20`, root rank
`1`, `check_input` off: after `broadcast` both hold `10`, the value of rank `0`, while the
value on rank `1` before the call was `20`. -/
theorem broadcast_ignores_rank :
    broadcast false [10, 20] 1 = some [10, 10] ∧ [10, 20].get? 1 = some 20 := by
  decide

/-! ## Counting the sites by a reduction -/

theorem number_wrap_zero (nt : number_type) : number_wrap nt 0 = 0 := by
  cases nt <;> decide

theorem number_wrap_add_right (nt : number_type) (a b : Int) :
    number_wrap nt (a + number_wrap nt b) = number_wrap nt (a + b) := by
  rw [Int.add_comm, number_wrap_add_left, Int.add_comm]

theorem number_wrap_sum_map (nt : number_type) (xs : List Int) :
    number_wrap nt ((xs.map (number_wrap nt)).sum) = number_wrap nt xs.sum := by
  induction xs with
  | nil => rfl
  | cons x xs ih =>
    rw [List.map_cons, List.sum_cons, List.sum_cons, number_wrap_add_left,
      ← number_wrap_add_right, ih, number_wrap_add_right]

/-- A loop that adds `c` once per index adds `n * c` in the integer type. -/
theorem foldl_range_number_add (nt : number_type) (c : Int) (n : Nat) :
    (List.range n).foldl (fun sum _ => number_add nt sum c) 0 =
      number_wrap nt ((n : Int) * c) := by
  induction n with
  | zero => simp [number_wrap_zero]
  | succ n ih =>
    rw [List.range_succ, List.foldl_append, ih]
    simp only [List.foldl_cons, List.foldl_nil, number_add]
    rw [number_wrap_add_left]
    congr 1
    push_cast
    ring

/-- The total of the loop over all sites of a node whose site count fits `int`. -/
theorem onsites_sum_all (nt : number_type) (EVEN_SITES_FIRST : Bool) (mynode : node_struct)
    (hs : mynode.sites < 2 ^ 31) :
    onsites_sum nt EVEN_SITES_FIRST mynode Parity.ALL 1 = number_wrap nt mynode.sites := by
  have hb : loop_begin EVEN_SITES_FIRST mynode Parity.ALL = 0 := by
    cases EVEN_SITES_FIRST <;> simp [loop_begin]
  have he : loop_end EVEN_SITES_FIRST mynode Parity.ALL = (mynode.sites : Int) := by
    cases EVEN_SITES_FIRST <;> simp [loop_end, to_int_of_lt hs]
  unfold onsites_sum
  rw [hb, he, Int.sub_zero, Int.toNat_ofNat, foldl_range_number_add, Int.mul_one]

theorem sum_sites_cast (nodes : List node_struct) :
    (nodes.map (fun nd => (nd.sites : Int))).sum =
      (((nodes.map (fun nd => nd.sites)).sum : Nat) : Int) := by
  induction nodes with
  | nil => rfl
  | cons nd nds ih => simp only [List.map_cons, List.sum_cons, Nat.cast_add, ih]

/-- C14 (amended). With `check_input` off, an accumulator whose number type is `int`,
`unsigned`, `long` (`int64_t`) or `uint64_t`, every process's site count below `2^31`,
the site counts adding up to the global volume and the volume representable in the
accumulator type: accumulating the constant `1` over each process's `ALL` loop range and
combining the totals with `reduce_node_sum` (`distribute = true`) yields the global
volume on every process, for every process count and in both site orderings. -/
theorem volume_by_reduction (nt : number_type) (EVEN_SITES_FIRST : Bool)
    (nodes : List node_struct) (work : List (Mem Int)) (volume : Nat)
    (hnt : nt = number_type.int_t ∨ nt = number_type.unsigned_t ∨ nt = number_type.long_t ∨
      nt = number_type.unsigned_long_t)
    (hlen : work.length = nodes.length)
    (hsites : ∀ nd ∈ nodes, nd.sites < 2 ^ 31)
    (hvol : (nodes.map (fun nd => nd.sites)).sum = volume)
    (hfit : number_wrap nt (volume : Int) = (volume : Int)) :
    ∃ res, reduce_node_sum_value false (number_add nt) nt 1 work
        (nodes.map (fun nd => fun _ => onsites_sum nt EVEN_SITES_FIRST nd Parity.ALL 1))
        true = some res ∧
      res.length = nodes.length ∧ ∀ r ∈ res, r 0 = (volume : Int) := by
  have hval : nodes.map (fun nd => fun (_ : Nat) =>
        onsites_sum nt EVEN_SITES_FIRST nd Parity.ALL 1) =
      nodes.map (fun nd => fun (_ : Nat) => number_wrap nt (nd.sites : Int)) := by
    apply List.map_congr_left
    intro nd hnd
    funext _
    exact onsites_sum_all nt EVEN_SITES_FIRST nd (hsites nd hnd)
  rw [hval]
  obtain ⟨hall, -⟩ := reduce_node_sum_correct nt 1 1 work
    (nodes.map (fun nd => fun (_ : Nat) => number_wrap nt (nd.sites : Int))) hnt
    (by norm_num) (by simpa using hlen)
    (by
      intro v hv i _
      obtain ⟨nd, _, rfl⟩ := List.mem_map.mp hv
      exact number_wrap_idem nt _)
  refine ⟨_, by simp only [reduce_node_sum_value, if_true]; exact hall, by simp, ?_⟩
  intro r hr
  obtain ⟨v, _, rfl⟩ := List.mem_map.mp hr
  simp only [reduced_sum, Nat.mul_one, Nat.lt_one_iff, if_true, List.map_map]
  have hsum : (List.map ((fun s : Mem Int => s 0) ∘
      fun nd => fun (_ : Nat) => number_wrap nt (nd.sites : Int)) nodes) =
      (nodes.map (fun nd => (nd.sites : Int))).map (number_wrap nt) := by
    rw [List.map_map]; rfl
  rw [hsum, number_wrap_sum_map]
  rw [sum_sites_cast, hvol, hfit]

/-- C14 (witness). Extent `(4,4,4,4)` on four processes of 64 sites, an `int` accumulator:
every process ends with `256`. -/
theorem volume_by_reduction_witness :
    ∃ res, reduce_node_sum_value false (number_add number_type.int_t) number_type.int_t 1
        [fun _ => 0, fun _ => 0, fun _ => 0, fun _ => 0]
        (four_nodes.map
          (fun nd => fun _ => onsites_sum number_type.int_t true nd Parity.ALL 1))
        true = some res ∧
      res.length = four_nodes.length ∧ ∀ r ∈ res, r 0 = ((256 : Nat) : Int) :=
  volume_by_reduction number_type.int_t true four_nodes
    [fun _ => 0, fun _ => 0, fun _ => 0, fun _ => 0] 256
    (by decide) (by decide) (by decide) (by decide) (by decide)

set_option maxRecDepth 1000000 in
/-- C14 (counterexample). Extent `(4,4,4,4)` on two processes of 128 sites with
`check_input` on: `reduce_node_sum` skips the reduction and every process keeps its own
total `128`, not the volume `256`. -/
theorem volume_by_reduction_skipped :
    (two_nodes.map (fun nd => nd.sites)).sum = 256 ∧
    (reduce_node_sum_value true (number_add number_type.int_t) number_type.int_t 1
        [fun _ => 0, fun _ => 0]
        (two_nodes.map
          (fun nd => fun _ => onsites_sum number_type.int_t true nd Parity.ALL 1))
        true).map (fun res => res.map (fun r => r 0)) = some [128, 128] := by
  decide

/-! ## Seed shuffling -/

/-- The low 31 bits of the shuffled seed are those of `seed + n`. -/
theorem shuffle_low_bits (seed n : Nat) :
    (((seed + n) % 2 ^ 64) ^^^ ((n <<< 31) % 2 ^ 64)) % 2 ^ 31 = (seed + n) % 2 ^ 31 := by
  apply Nat.eq_of_testBit_eq
  intro i
  simp only [Nat.testBit_mod_two_pow, Nat.testBit_xor, Nat.testBit_shiftLeft]
  by_cases hi : i < 31
  · have h64 : i < 64 := by omega
    have h31 : ¬ (31 ≤ i) := by omega
    simp [hi, h64, h31]
  · simp [hi]

/-- C20. For every seed and every two parameter sets whose node numbers `n1 ≠ n2` are
below `2^31`, `shuffle_rng_seed` returns different seeds. -/
theorem shuffle_rng_seed_injective (seed myrank1 partitions_number1 lattice_offset1
    myrank2 partitions_number2 lattice_offset2 : Nat)
    (hne : node_number myrank1 partitions_number1 lattice_offset1 ≠
      node_number myrank2 partitions_number2 lattice_offset2)
    (h1 : node_number myrank1 partitions_number1 lattice_offset1 < 2 ^ 31)
    (h2 : node_number myrank2 partitions_number2 lattice_offset2 < 2 ^ 31) :
    shuffle_rng_seed seed myrank1 partitions_number1 lattice_offset1 ≠
      shuffle_rng_seed seed myrank2 partitions_number2 lattice_offset2 := by
  intro h
  unfold shuffle_rng_seed at h
  simp only [] at h
  have hlow := congrArg (fun x => x % 2 ^ 31) h
  simp only [shuffle_low_bits] at hlow
  generalize node_number myrank1 partitions_number1 lattice_offset1 = n1 at hne h1 hlow
  generalize node_number myrank2 partitions_number2 lattice_offset2 = n2 at hne h2 hlow
  omega

/-- C20 (witness). Ranks `0` and `1` of the second of two partitions of four nodes, seed
`2^64 - 1`. -/
theorem shuffle_rng_seed_injective_witness :
    shuffle_rng_seed (2 ^ 64 - 1) 0 2 4 ≠ shuffle_rng_seed (2 ^ 64 - 1) 1 2 4 :=
  shuffle_rng_seed_injective (2 ^ 64 - 1) 0 2 4 1 2 4 (by decide) (by decide) (by decide)

/-! ## Local index and coordinate maps -/

theorem mem_box_sites : ∀ (box : SubBox) (c : CoordinateVector),
    c ∈ box_sites box ↔ is_on_mynode box c = true := by
  intro box
  induction box with
  | nil =>
    intro c
    cases c <;> simp [box_sites, is_on_mynode]
  | cons ms rest ih =>
    intro c
    obtain ⟨m, s⟩ := ms
    cases c with
    | nil => simp [box_sites, is_on_mynode]
    | cons x c =>
      simp only [box_sites, List.mem_flatMap, List.mem_range, List.mem_map, is_on_mynode,
        Bool.and_eq_true, decide_eq_true_eq]
      constructor
      · rintro ⟨k, hk, c', hc', heq⟩
        obtain ⟨rfl, rfl⟩ := List.cons.inj heq
        exact ⟨⟨by omega, by omega⟩, (ih c').mp hc'⟩
      · rintro ⟨⟨h1, h2⟩, h3⟩
        refine ⟨(x - m).toNat, by omega, c, (ih c).mpr h3, ?_⟩
        congr 1
        omega

theorem nodup_box_sites : ∀ box : SubBox, (box_sites box).Nodup := by
  intro box
  induction box with
  | nil => simp [box_sites]
  | cons ms rest ih =>
    obtain ⟨m, s⟩ := ms
    simp only [box_sites]
    rw [List.nodup_flatMap]
    refine ⟨fun x _ => ih.map (fun a b h => (List.cons.inj h).2), ?_⟩
    refine (List.nodup_range s).pairwise_of_forall_ne ?_
    intro a _ b _ hab
    simp only [Function.onFun, List.disjoint_left, List.mem_map]
    rintro c ⟨c1, _, rfl⟩ ⟨c2, _, h⟩
    have := (List.cons.inj h).1
    omega

theorem length_box_sites : ∀ box : SubBox, (box_sites box).length = box_volume box := by
  intro box
  induction box with
  | nil => rfl
  | cons ms rest ih =>
    obtain ⟨m, s⟩ := ms
    simp [box_sites, box_volume, List.length_flatMap, ih, Function.comp_def]

theorem site_order_perm (box : SubBox) : List.Perm (site_order box) (box_sites box) :=
  List.filter_append_perm parity_even (box_sites box)

theorem nodup_site_order (box : SubBox) : (site_order box).Nodup :=
  (site_order_perm box).nodup_iff.mpr (nodup_box_sites box)

theorem length_site_order (box : SubBox) : (site_order box).length = box_volume box := by
  rw [(site_order_perm box).length_eq, length_box_sites]

theorem mem_site_order (box : SubBox) (c : CoordinateVector) :
    c ∈ site_order box ↔ is_on_mynode box c = true := by
  rw [(site_order_perm box).mem_iff, mem_box_sites]

theorem position_getElem (l : List CoordinateVector) (hnd : l.Nodup) :
    ∀ (i : Nat) (h : i < l.length), position l[i] l = i := by
  induction l with
  | nil => intro i h; simp at h
  | cons x xs ih =>
    intro i h
    cases i with
    | zero => simp [position]
    | succ i =>
      have hi : i < xs.length := by simpa using h
      have hne : x ≠ xs[i] := by
        intro heq
        exact (List.nodup_cons.mp hnd).1 (heq ▸ List.getElem_mem hi)
      simp only [List.getElem_cons_succ, position, if_neg hne]
      rw [ih (List.nodup_cons.mp hnd).2 i hi]

theorem getD_position (c : CoordinateVector) :
    ∀ l : List CoordinateVector, c ∈ l → l.getD (position c l) [] = c := by
  intro l
  induction l with
  | nil => intro h; cases h
  | cons x xs ih =>
    intro h
    by_cases hx : x = c
    · simp [position, hx]
    · have hmem : c ∈ xs := by
        rcases List.mem_cons.mp h with rfl | h'
        · exact absurd rfl hx
        · exact h'
      simp only [position, if_neg hx, List.getD_cons_succ]
      exact ih hmem

/-- C19. The local index and coordinate maps are mutually inverse:
`site_index(coordinates(i)) = i` for every local index `i < mynode.sites`, and
`coordinates(site_index(c)) = c` for every coordinate `c` that lies on this node. -/
theorem site_index_coordinates (box : SubBox) :
    (∀ i, i < box_volume box → site_index box (coordinates box i) = i) ∧
    (∀ c, is_on_mynode box c = true → coordinates box (site_index box c) = c) := by
  constructor
  · intro i hi
    have hlt : i < (site_order box).length := by rw [length_site_order]; exact hi
    unfold site_index coordinates
    rw [List.getD_eq_getElem _ _ hlt]
    exact position_getElem _ (nodup_site_order box) i hlt
  · intro c hc
    exact getD_position c _ ((mem_site_order box c).mpr hc)

/-- C19 (witness). Local index `3` and the coordinate `(1, 4)` of the sample sub-box. -/
theorem site_index_coordinates_witness :
    site_index sample_box (coordinates sample_box 3) = 3 ∧
    coordinates sample_box (site_index sample_box [1, 4]) = [1, 4] :=
  ⟨(site_index_coordinates sample_box).1 3 (by decide),
    (site_index_coordinates sample_box).2 [1, 4] (by decide)⟩

/-! ## Neighbour coordinates -/

theorem is_site_iff : ∀ (l_size v : CoordinateVector),
    is_site l_size v = true ↔
      v.length = l_size.length ∧
      ∀ (j : Nat) (hv : j < v.length) (hl : j < l_size.length), 0 ≤ v[j] ∧ v[j] < l_size[j] := by
  intro l_size
  induction l_size with
  | nil =>
    intro c
    cases c <;> simp [is_site]
  | cons l ls ih =>
    intro c
    cases c with
    | nil => simp [is_site]
    | cons x c =>
      simp only [is_site, Bool.and_eq_true, decide_eq_true_eq, ih c, List.length_cons,
        Nat.add_right_cancel_iff]
      constructor
      · rintro ⟨⟨h0, h1⟩, hlen, hrest⟩
        refine ⟨hlen, ?_⟩
        intro j hc hl
        cases j with
        | zero => exact ⟨h0, h1⟩
        | succ j => exact hrest j (by simpa using hc) (by simpa using hl)
      · rintro ⟨hlen, hall⟩
        refine ⟨hall 0 (by simp) (by simp), hlen, ?_⟩
        intro j hc hl
        exact hall (j + 1) (by simpa using hc) (by simpa using hl)

theorem length_neighbour_coordinate (l_size c : CoordinateVector) (d : Direction)
    (hlen : c.length = l_size.length) :
    (neighbour_coordinate l_size c d).length = l_size.length := by
  simp [neighbour_coordinate, mod_size, unit_vector, hlen]

/-- Component `j` of the neighbour coordinate. -/
theorem getElem_neighbour_coordinate (l_size v : CoordinateVector) (d : Direction)
    (j : Nat) (hn : j < (neighbour_coordinate l_size v d).length) (hv : j < v.length)
    (hl : j < l_size.length) :
    (neighbour_coordinate l_size v d)[j] =
      (v[j] + (if j = d.axis then (if d.up then 1 else -1) else 0)) % l_size[j] := by
  simp [neighbour_coordinate, mod_size, unit_vector]

/-- C18. On a periodic lattice opposite neighbour links are mutually inverse: for every
site `x` and every direction `d`, the neighbour in direction `-d` of the neighbour of `x`
in direction `d` is the site with the coordinates of `x`. (This holds for every extent for
which `x` is a site, in particular for extent at least `2` in every axis.) -/
theorem neighbour_opposite (l_size v : CoordinateVector) (d : Direction)
    (hv : is_site l_size v = true) :
    neighbour_coordinate l_size (neighbour_coordinate l_size v d) (opp_dir d) = v := by
  obtain ⟨hlen, hcomp⟩ := (is_site_iff l_size v).mp hv
  have hlen1 := length_neighbour_coordinate l_size v d hlen
  have hlen2 := length_neighbour_coordinate l_size (neighbour_coordinate l_size v d)
    (opp_dir d) hlen1
  apply List.ext_getElem (by rw [hlen2, hlen])
  intro j h1 h2
  have hl : j < l_size.length := by rw [← hlen]; exact h2
  rw [getElem_neighbour_coordinate _ _ _ j h1 (by rw [hlen1]; exact hl) hl,
    getElem_neighbour_coordinate _ _ _ j (by rw [hlen1]; exact hl) h2 hl,
    Int.emod_add_emod]
  obtain ⟨h0, hlt⟩ := hcomp j h2 hl
  have hzero : (if j = d.axis then (if d.up then (1 : Int) else -1) else 0) +
      (if j = (opp_dir d).axis then (if (opp_dir d).up then (1 : Int) else -1) else 0) = 0 := by
    obtain ⟨ax, up⟩ := d
    simp only [opp_dir]
    by_cases hj : j = ax <;> cases up <;> simp [hj]
  rw [Int.add_assoc, hzero, Int.add_zero]
  exact Int.emod_eq_of_lt h0 hlt

/-- C18 (witness). The site `(0, 4)` of the lattice of extent `(4, 5)`, direction down
along the first axis. -/
theorem neighbour_opposite_witness :
    neighbour_coordinate [4, 5] (neighbour_coordinate [4, 5] [0, 4] ⟨0, false⟩)
      (opp_dir ⟨0, false⟩) = [0, 4] :=
  neighbour_opposite [4, 5] [0, 4] ⟨0, false⟩ (by decide)

/-! ## SU(2) products -/

/-- C21 (the code at the failing input). For `x = (a, b, c, d) = (1, 0, 0, 0)` and
`y = (0, 0, 1, 0)`, both of determinant `1`: the binary product `x * y` is `(0, 1, 0, 0)`,
and after `x *= y` the members of `x` are `(0, 0, 0, 0)`. -/
theorem mul_assign_differs_from_mul :
    SU2.det (⟨1, 0, 0, 0⟩ : SU2 Int) = 1 ∧ SU2.det (⟨0, 0, 1, 0⟩ : SU2 Int) = 1 ∧
    SU2.mul (⟨1, 0, 0, 0⟩ : SU2 Int) ⟨0, 0, 1, 0⟩ = ⟨0, 1, 0, 0⟩ ∧
    SU2.mul_assign (⟨1, 0, 0, 0⟩ : SU2 Int) ⟨0, 0, 1, 0⟩ = ⟨0, 0, 0, 0⟩ := by
  decide

/-- C28. The determinant of `SU2` is multiplicative over exact arithmetic (a commutative
ring): `(x * y).det() = x.det() * y.det()` for all `x` and `y`, so the product of two
elements of determinant `1` has determinant `1`. -/
theorem det_mul {radix : Type} [CommRing radix] (x y : SU2 radix) :
    SU2.det (SU2.mul x y) = SU2.det x * SU2.det y ∧
    (SU2.det x = 1 → SU2.det y = 1 → SU2.det (SU2.mul x y) = 1) := by
  have h : SU2.det (SU2.mul x y) = SU2.det x * SU2.det y := by
    simp only [SU2.det, SU2.mul, nn_a, nn_b, nn_c, nn_d]
    ring
  exact ⟨h, fun hx hy => by rw [h, hx, hy, mul_one]⟩

/-- C28 (witness). The elements `(3/5, 0, 0, 4/5)` and `(0, 5/13, 12/13, 0)` of
determinant `1` over the rationals. -/
theorem det_mul_witness :
    SU2.det (SU2.mul (⟨3 / 5, 0, 0, 4 / 5⟩ : SU2 ℚ) ⟨0, 5 / 13, 12 / 13, 0⟩) =
      SU2.det (⟨3 / 5, 0, 0, 4 / 5⟩ : SU2 ℚ) * SU2.det (⟨0, 5 / 13, 12 / 13, 0⟩ : SU2 ℚ) ∧
    SU2.det (SU2.mul (⟨3 / 5, 0, 0, 4 / 5⟩ : SU2 ℚ) ⟨0, 5 / 13, 12 / 13, 0⟩) = 1 :=
  ⟨(det_mul _ _).1, (det_mul _ _).2 (by norm_num [SU2.det]) (by norm_num [SU2.det])⟩

/-! ## Thermalization step size -/

theorem wrap_int_of_range {x : Int} (h1 : -(2 ^ 31) ≤ x) (h2 : x < 2 ^ 31) :
    wrap_int 32 true x = x := by
  simp only [wrap_int, if_true]
  have : (x + 2 ^ (32 - 1)) % 2 ^ 32 = x + 2 ^ 31 := by
    apply Int.emod_eq_of_lt <;> norm_num <;> omega
  rw [this]
  norm_num

/-- The doubling loop run `m` times while `trajlen * 2^m` stays in the range of `int`. -/
theorem reduce_loop (dt : ℚ) (trajlen : Int) (m : Nat)
    (h1 : -(2 ^ 31) ≤ trajlen * 2 ^ m) (h2 : trajlen * 2 ^ m < 2 ^ 31) :
    (List.range m).foldl (fun p _ => (p.1 * (1 / 2), wrap_int 32 true (p.2 * 2)))
      (dt, trajlen) = (dt * (1 / 2) ^ m, trajlen * 2 ^ m) := by
  induction m with
  | zero => simp
  | succ m ih =>
    have hp : (0 : Int) < 2 ^ m := by positivity
    have e : trajlen * 2 ^ (m + 1) = trajlen * 2 ^ m * 2 := by ring
    rw [e] at h1 h2
    rw [List.range_succ, List.foldl_append, ih (by nlinarith) (by nlinarith)]
    simp only [List.foldl_cons, List.foldl_nil]
    rw [wrap_int_of_range h1 h2]
    refine Prod.ext ?_ ?_
    · show dt * (1 / 2) ^ m * (1 / 2) = dt * (1 / 2) ^ (m + 1)
      ring
    · show trajlen * 2 ^ m * 2 = trajlen * 2 ^ (m + 1)
      ring

/-- The step size after the adjustment, whatever happens to the trajectory length. -/
theorem reduce_step_size_fst (dt : ℚ) (trajlen nreject : Int) (h : 1 < nreject) :
    (reduce_step_size dt trajlen nreject).1 = dt * (1 / 2) ^ (nreject - 1).toNat := by
  simp only [reduce_step_size, gt_iff_lt, if_pos h]
  generalize (nreject - 1).toNat = m
  induction m with
  | zero => simp
  | succ m ih =>
    rw [List.range_succ, List.foldl_append]
    simp only [List.foldl_cons, List.foldl_nil]
    rw [ih]
    ring

/-- C24 (amended). For `nreject ≤ 1` the adjustment changes neither `dt` nor `trajlen`.
For `nreject > 1` with `trajlen * 2^(nreject-1)` in the range of `int`
(`-2^31 ≤ trajlen * 2^(nreject-1) < 2^31`) it multiplies `dt` by `2^-(nreject-1)` and
`trajlen` by `2^(nreject-1)`, so the product `dt * trajlen` after the adjustment equals
its value before it. -/
theorem reduce_step_size_keeps_length (dt : ℚ) (trajlen nreject : Int) :
    (nreject ≤ 1 → reduce_step_size dt trajlen nreject = (dt, trajlen)) ∧
    (1 < nreject → -(2 ^ 31) ≤ trajlen * 2 ^ (nreject - 1).toNat →
      trajlen * 2 ^ (nreject - 1).toNat < 2 ^ 31 →
      reduce_step_size dt trajlen nreject =
        (dt * (1 / 2) ^ (nreject - 1).toNat, trajlen * 2 ^ (nreject - 1).toNat) ∧
      (reduce_step_size dt trajlen nreject).1 * ((reduce_step_size dt trajlen nreject).2 : ℚ)
        = dt * (trajlen : ℚ)) := by
  constructor
  · intro h
    simp only [reduce_step_size, if_neg (not_lt.mpr h)]
  · intro h h1 h2
    have hr : reduce_step_size dt trajlen nreject =
        (dt * (1 / 2) ^ (nreject - 1).toNat, trajlen * 2 ^ (nreject - 1).toNat) := by
      simp only [reduce_step_size, gt_iff_lt, if_pos h]
      exact reduce_loop dt trajlen _ h1 h2
    refine ⟨hr, ?_⟩
    rw [hr]
    push_cast
    have : ((1 : ℚ) / 2) ^ (nreject - 1).toNat * 2 ^ (nreject - 1).toNat = 1 := by
      rw [← mul_pow]; norm_num
    calc dt * (1 / 2) ^ (nreject - 1).toNat * ((trajlen : ℚ) * 2 ^ (nreject - 1).toNat)
        = dt * (trajlen : ℚ) * ((1 / 2) ^ (nreject - 1).toNat * 2 ^ (nreject - 1).toNat) := by
          ring
      _ = dt * (trajlen : ℚ) := by rw [this, mul_one]

/-- C24 (witness). Step size `1/10`, trajectory length `20`, first without and then with
three rejections. -/
theorem reduce_step_size_keeps_length_witness :
    reduce_step_size (1 / 10) 20 1 = (1 / 10, 20) ∧
    reduce_step_size (1 / 10) 20 3 = (1 / 10 * (1 / 2) ^ (3 - 1 : Int).toNat,
      20 * 2 ^ (3 - 1 : Int).toNat) ∧
    (reduce_step_size (1 / 10) 20 3).1 * ((reduce_step_size (1 / 10) 20 3).2 : ℚ) =
      1 / 10 * ((20 : Int) : ℚ) :=
  ⟨(reduce_step_size_keeps_length (1 / 10) 20 1).1 (by decide),
    (reduce_step_size_keeps_length (1 / 10) 20 3).2 (by decide) (by decide) (by decide)⟩

set_option maxRecDepth 100000 in
/-- C24 (counterexample). Trajectory length `1` and `nreject = 32`: no `int` is
`1 * 2^31`; the adjustment leaves the trajectory length `-2^31`, and the product
`dt * trajlen` is `-1` after it and `1` before it. -/
theorem reduce_step_size_overflows :
    (∀ t : Int, -(2 ^ 31) ≤ t → t < 2 ^ 31 → t ≠ 1 * 2 ^ (32 - 1 : Int).toNat) ∧
    (reduce_step_size 1 1 32).2 = -(2 ^ 31) ∧
    (reduce_step_size 1 1 32).1 * ((reduce_step_size 1 1 32).2 : ℚ) = -1 ∧
    (1 : ℚ) * ((1 : Int) : ℚ) ≠ -1 := by
  have h2 : (reduce_step_size 1 1 32).2 = -(2 ^ 31) := by decide
  refine ⟨?_, h2, ?_, by norm_num⟩
  · intro t _ ht h
    rw [h] at ht
    revert ht
    decide
  · rw [h2, reduce_step_size_fst 1 1 32 (by decide)]
    have e : (32 - 1 : Int).toNat = 31 := by decide
    rw [e]
    norm_num

/-! ## Send list access -/

/-- C25 (amended). For every comm node and parity `par` with `n_sites(par) < 2^31` (the
size is reported as an `int`): the size reported by `get_sitelist(par)` equals
`n_sites(par)`, and for every position `k < n_sites(par)`, `site_index(k, par)` is the
`k`-th entry of the list returned by `get_sitelist(par)`. -/
theorem site_index_eq_sitelist_entry (c : comm_node_struct) (par : Parity)
    (h : c.n_sites par < 2 ^ 31) :
    (c.get_sitelist par).2 = (c.n_sites par : Int) ∧
    ∀ k, k < c.n_sites par →
      (entries (c.get_sitelist par).1 (c.get_sitelist par).2)[k]? =
        some (c.site_index k par) := by
  have hsize := comm_node_struct.get_sitelist_size_of_lt c par h
  refine ⟨hsize, ?_⟩
  intro k hk
  rw [hsize, entries_natCast]
  simp [hk, comm_node_struct.get_sitelist_entry]

/-- C25 (witness). The odd part of the sample sender, position `0`. -/
theorem site_index_eq_sitelist_entry_witness :
    (sample_to_node.get_sitelist Parity.ODD).2 = (sample_to_node.n_sites Parity.ODD : Int) ∧
    ∀ k, k < sample_to_node.n_sites Parity.ODD →
      (entries (sample_to_node.get_sitelist Parity.ODD).1
        (sample_to_node.get_sitelist Parity.ODD).2)[k]? =
        some (sample_to_node.site_index k Parity.ODD) :=
  site_index_eq_sitelist_entry sample_to_node Parity.ODD (by decide)

/-- C25 (counterexample). A comm node with `2^32 - 1` odd sites: `n_sites(ODD)` is
`2^32 - 1`, the size reported by `get_sitelist(ODD)` is `-1`, and the list of that size
has no entry at position `0`. -/
theorem sitelist_size_differs_from_n_sites :
    huge_comm_node.n_sites Parity.ODD = 4294967295 ∧
    (huge_comm_node.get_sitelist Parity.ODD).2 = -1 ∧
    (entries (huge_comm_node.get_sitelist Parity.ODD).1
      (huge_comm_node.get_sitelist Parity.ODD).2)[0]? = none := by
  decide

/-! ## Frame of the single element write -/

/-- C26 (amended). When the field fits 32 bit addressing (`n_elements * F ≤ 2^32`), for
all indices `i ≠ j` with `i, j < F` and every value `v`: `set(v, i, F)` completes and
`get(j, F)` returns the same value before and after it. -/
theorem set_frame {β : Type} {n_elements : Nat} (fieldbuf : Mem β)
    (v : Fin n_elements → β) (i j F : Nat) (hF : n_elements * F ≤ 2 ^ 32)
    (hi : i < F) (hj : j < F) (hij : i ≠ j) :
    ∃ fp, field_storage.set fieldbuf v i F = some fp ∧
      (field_storage.get fp j F : Option (Fin n_elements → β)) =
        field_storage.get fieldbuf j F := by
  obtain ⟨fp, hset, -, hother⟩ := field_storage.set_spec fieldbuf v hF hi
  refine ⟨fp, hset, ?_⟩
  rw [field_storage.get_eq fp hF hj, field_storage.get_eq fieldbuf hF hj]
  congr 1
  funext e
  apply hother
  intro e' h
  exact hij (addr_inj hj hi h).2.symm

/-- C26 (witness). Three components, `F = 5`, write at index `2`, read at index `4`. -/
theorem set_frame_witness :
    ∃ fp, field_storage.set (fun a => (a : Int)) (fun e : Fin 3 => (e.val : Int) - 1) 2 5
        = some fp ∧
      (field_storage.get fp 4 5 : Option (Fin 3 → Int)) =
        field_storage.get (fun a => (a : Int)) 4 5 :=
  set_frame (fun a : Nat => (a : Int)) (fun e : Fin 3 => (e.val : Int) - 1) 2 4 5
    (by norm_num) (by norm_num) (by norm_num) (by norm_num)

set_option maxRecDepth 1000000 in
/-- C26 (counterexample). With `F = 2^28 + 1` and 18 components, a write at index `0`
changes what `get` returns at index `16`: component 16 of site `0` has the address
`16 * F mod 2^32 = 16`, which is component 0 of site `16`. -/
theorem set_frame_wraps :
    (0 : Nat) < 2 ^ 28 + 1 ∧ (16 : Nat) < 2 ^ 28 + 1 ∧
    (field_storage.set (fun _ => (0 : Nat)) (fun e : Fin 18 => e.val + 100) 0
        (2 ^ 28 + 1)).bind (fun fp => field_storage.get fp 16 (2 ^ 28 + 1))
      ≠ (field_storage.get (fun _ => (0 : Nat)) 16 (2 ^ 28 + 1) :
          Option (Fin 18 → Nat)) := by
  refine ⟨by decide, by decide, ?_⟩
  intro h
  have h0 := congrArg (Option.map (fun v : Fin 18 → Nat => v 0)) h
  revert h0
  decide

/-! ## Element count of the sum reduction -/

theorem sizeof_number_pos (nt : number_type) : 0 < sizeof_number nt := by
  cases nt <;> decide

/-- For an element type made of `k` numbers the count is `N * k`, the count that
`reduce_node_sum` is given. -/
theorem reduce_node_sum_count_eq (N k : Nat) (nt : number_type) :
    reduce_node_sum_count N (k * sizeof_number nt) nt = to_int (N * k) := by
  unfold reduce_node_sum_count
  rw [← Nat.mul_assoc, Nat.mul_div_cancel _ (sizeof_number_pos nt)]

/-- For the number types that `get_MPI_number_type` lists, the collective covers the whole
array as long as the count fits `int`. -/
theorem reduce_node_sum_bytes_listed (N k : Nat) (nt : number_type)
    (hnt : (get_MPI_number_type nt false).1 ≠ MPI_Datatype.MPI_BYTE)
    (hcount : N * k < 2 ^ 31) :
    reduce_node_sum_bytes N (k * sizeof_number nt) nt =
      ((N * (k * sizeof_number nt) : Nat) : Int) := by
  unfold reduce_node_sum_bytes
  rw [reduce_node_sum_count_eq, to_int_of_lt hcount]
  cases nt <;> first
    | (exfalso; revert hnt; decide)
    | (simp [get_MPI_number_type, sizeof_number, int64_t, uint64_t]; ring)

/-- C27 (the code at the failing input). For `T = short` and `N = 1`:
`get_MPI_number_type` selects the fallback `MPI_BYTE` with size `1`, the count is
`1 * sizeof(short) / sizeof(short) = 1`, and the collective covers `1` byte of the
`N * sizeof(T) = 2` bytes of the array. -/
theorem reduce_node_sum_bytes_short :
    get_MPI_number_type number_type.short_t false = (MPI_Datatype.MPI_BYTE, 1) ∧
    reduce_node_sum_count 1 (sizeof_number number_type.short_t) number_type.short_t = 1 ∧
    reduce_node_sum_bytes 1 (sizeof_number number_type.short_t) number_type.short_t = 1 ∧
    ((1 * sizeof_number number_type.short_t : Nat) : Int) = 2 := by
  decide

/-! ## Adaptive Wilson flow -/

/-- C23 (the code at the failing input). Flow from `l_start = 0` to `l_end = 1/10` with
`tstep = 1/1000`, so `tmax = 1/800`, on a field that records its steps, with an error
estimate that accepts the first step and rejects the second: the second step is the one
that sets `stop`, the loop ends after its rejection, and the function returns with
`t = 51/80000` and the field after the single step `51/80000`, not with `t = tmax`. -/
theorem wilson_flow_stops_short :
    (0 : ℚ) ≤ 0 ∧ (0 : ℚ) < 1 / 10 ∧ (1 / 10 : ℚ) * (1 / 10) / 8 = 1 / 800 ∧
    (do_wilson_flow_adapt record_step sample_error_root id 10 [] 0 (1 / 10) (1 / 1000)).map
      (fun s => (s.t, s.stop, s.V)) = some (51 / 80000, true, [51 / 80000]) ∧
    (51 / 80000 : ℚ) ≠ 1 / 800 := by
  refine ⟨le_refl _, by norm_num, by norm_num, ?_, by norm_num⟩
  norm_num [do_wilson_flow_adapt, wilson_flow_loop, wilson_flow_iteration, record_step,
    sample_error_root]

/-! ## Coefficients of the adjugate of the characteristic matrix -/

/-- The trace of the adjugate of `X - A` is the derivative of the characteristic
polynomial of `A`. -/
theorem trace_adjugate_charmatrix {R : Type} [CommRing R] {n : Type} [Fintype n]
    [DecidableEq n] (A : Matrix n n R) :
    Matrix.trace (Matrix.adjugate (Matrix.charmatrix A)) =
      Polynomial.derivative A.charpoly := by
  unfold Matrix.charpoly
  rw [Matrix.det_apply, map_sum]
  simp only [Matrix.trace, Matrix.diag_apply, Matrix.adjugate_apply, Matrix.det_apply]
  rw [Finset.sum_comm]
  refine Finset.sum_congr rfl (fun σ _ => ?_)
  rw [Polynomial.derivative_smul, ← Finset.smul_sum]
  congr 1
  have hprod : (∏ i, Matrix.charmatrix A (σ i) i) =
      (Multiset.map (fun i => Matrix.charmatrix A (σ i) i) Finset.univ.val).prod := rfl
  rw [hprod, Polynomial.derivative_prod]
  show _ = ∑ i, _
  refine Finset.sum_congr rfl (fun i _ => ?_)
  have herase : (Multiset.map (fun k => Matrix.charmatrix A (σ k) k)
      (Finset.univ.val.erase i)).prod =
      ∏ k in Finset.univ.erase i, Matrix.charmatrix A (σ k) k := by
    rw [← Finset.erase_val]
    rfl
  rw [herase]
  by_cases hi : σ i = i
  · rw [hi, Matrix.charmatrix_apply_eq, Polynomial.derivative_X_sub_C, mul_one,
      ← Finset.mul_prod_erase Finset.univ _ (Finset.mem_univ i), hi, Matrix.updateRow_self,
      Pi.single_eq_same, one_mul]
    refine Finset.prod_congr rfl (fun k hk => ?_)
    have hki : k ≠ i := Finset.ne_of_mem_erase hk
    have hσ : σ k ≠ i := fun h => hki (σ.injective (h.trans hi.symm))
    rw [Matrix.updateRow_ne hσ]
  · rw [Matrix.charmatrix_apply_ne _ _ _ hi, Polynomial.derivative_neg,
      Polynomial.derivative_C, neg_zero, mul_zero]
    refine Finset.prod_eq_zero (Finset.mem_univ (σ.symm i)) ?_
    rw [Equiv.apply_symm_apply, Matrix.updateRow_self]
    refine Pi.single_eq_of_ne ?_ _
    intro h
    apply hi
    rw [← h, Equiv.apply_symm_apply, h]

/-- Coefficient `m + 1` of the identity `(X - A) * adj(X - A) = charpoly`. -/
theorem adjugate_coeff_succ {R : Type} [CommRing R] {n : Type} [Fintype n] [DecidableEq n]
    (A : Matrix n n R) (m : Nat) :
    (matPolyEquiv (Matrix.adjugate (Matrix.charmatrix A))).coeff m -
      A * (matPolyEquiv (Matrix.adjugate (Matrix.charmatrix A))).coeff (m + 1) =
    A.charpoly.coeff (m + 1) • (1 : Matrix n n R) := by
  have h : Matrix.charmatrix A * Matrix.adjugate (Matrix.charmatrix A) =
      A.charpoly • (1 : Matrix n n (Polynomial R)) := Matrix.mul_adjugate _
  have h2 := congrArg (fun q => Polynomial.coeff (matPolyEquiv q) (m + 1)) h
  simp only [map_mul, Matrix.matPolyEquiv_charmatrix, matPolyEquiv_smul_one, sub_mul,
    Polynomial.coeff_sub, Polynomial.coeff_X_mul, Polynomial.coeff_C_mul,
    Polynomial.coeff_map] at h2
  rw [h2, Algebra.algebraMap_eq_smul_one]

/-- Coefficient `0` of the identity `(X - A) * adj(X - A) = charpoly`. -/
theorem adjugate_coeff_zero {R : Type} [CommRing R] {n : Type} [Fintype n] [DecidableEq n]
    (A : Matrix n n R) :
    A * (matPolyEquiv (Matrix.adjugate (Matrix.charmatrix A))).coeff 0 =
      (-A.charpoly.coeff 0) • (1 : Matrix n n R) := by
  have h : Matrix.charmatrix A * Matrix.adjugate (Matrix.charmatrix A) =
      A.charpoly • (1 : Matrix n n (Polynomial R)) := Matrix.mul_adjugate _
  have h2 := congrArg (fun q => Polynomial.coeff (matPolyEquiv q) 0) h
  simp only [map_mul, Matrix.matPolyEquiv_charmatrix, matPolyEquiv_smul_one, sub_mul,
    Polynomial.coeff_sub, Polynomial.coeff_X_mul_zero, Polynomial.coeff_C_mul,
    Polynomial.coeff_map, zero_sub] at h2
  rw [neg_smul, ← Algebra.algebraMap_eq_smul_one, ← h2, neg_neg]

/-- The trace of coefficient `m` of `adj(X - A)` is `(m + 1)` times coefficient `m + 1` of
the characteristic polynomial. -/
theorem trace_adjugate_coeff {R : Type} [CommRing R] {n : Type} [Fintype n] [DecidableEq n]
    (A : Matrix n n R) (m : Nat) :
    Matrix.trace ((matPolyEquiv (Matrix.adjugate (Matrix.charmatrix A))).coeff m) =
      A.charpoly.coeff (m + 1) * ((m : R) + 1) := by
  rw [← Polynomial.coeff_derivative, ← trace_adjugate_charmatrix]
  simp only [Matrix.trace, Matrix.diag_apply, matPolyEquiv_coeff_apply,
    Polynomial.finset_sum_coeff]

/-- The adjugate of `X - A` has no coefficients from the size of the matrix on. -/
theorem adjugate_coeff_of_card_le {R : Type} [CommRing R] [Nontrivial R] {n : Type}
    [Fintype n] [DecidableEq n] (A : Matrix n n R) :
    ∀ m, Fintype.card n ≤ m →
      (matPolyEquiv (Matrix.adjugate (Matrix.charmatrix A))).coeff m = 0 := by
  have key : ∀ j m, Fintype.card n ≤ m →
      (matPolyEquiv (Matrix.adjugate (Matrix.charmatrix A))).natDegree < m + j →
      (matPolyEquiv (Matrix.adjugate (Matrix.charmatrix A))).coeff m = 0 := by
    intro j
    induction j with
    | zero =>
      intro m _ hd
      exact Polynomial.coeff_eq_zero_of_natDegree_lt hd
    | succ j ih =>
      intro m hm hd
      have h1 := adjugate_coeff_succ A m
      have h2 : A.charpoly.coeff (m + 1) = 0 :=
        Polynomial.coeff_eq_zero_of_natDegree_lt
          (by rw [Matrix.charpoly_natDegree_eq_dim]; omega)
      rw [ih (m + 1) (by omega) (by omega), h2, mul_zero, sub_zero, zero_smul] at h1
      exact h1
  intro m hm
  exact key ((matPolyEquiv (Matrix.adjugate (Matrix.charmatrix A))).natDegree + 1) m hm
    (by omega)

/-- The leading coefficient of the adjugate of `X - A` is the identity matrix. -/
theorem adjugate_coeff_card_pred {R : Type} [CommRing R] [Nontrivial R] {n : Type}
    [Fintype n] [DecidableEq n] (A : Matrix n n R) (hpos : 0 < Fintype.card n) :
    (matPolyEquiv (Matrix.adjugate (Matrix.charmatrix A))).coeff (Fintype.card n - 1) =
      1 := by
  have h1 := adjugate_coeff_succ A (Fintype.card n - 1)
  have e : Fintype.card n - 1 + 1 = Fintype.card n := by omega
  have h2 : A.charpoly.coeff (Fintype.card n) = 1 := by
    have := (Matrix.charpoly_monic A).coeff_natDegree
    rwa [Matrix.charpoly_natDegree_eq_dim] at this
  rw [e, adjugate_coeff_of_card_le A _ (le_refl _), h2, mul_zero, sub_zero, one_smul] at h1
  exact h1

/-- The product of `A` with coefficient `N - k` of `adj(X - A)`. -/
theorem mul_adjugate_coeff {R : Type} [CommRing R] {N : Nat}
    (A : Matrix (Fin N) (Fin N) R) (k : Nat) (hk : k < N) :
    A * (matPolyEquiv (Matrix.adjugate (Matrix.charmatrix A))).coeff (N - k) =
      (matPolyEquiv (Matrix.adjugate (Matrix.charmatrix A))).coeff (N - (k + 1)) -
        A.charpoly.coeff (N - k) • (1 : Matrix (Fin N) (Fin N) R) := by
  have h := adjugate_coeff_succ A (N - (k + 1))
  have e : N - (k + 1) + 1 = N - k := by omega
  rw [e] at h
  rw [← h]
  abel

/-- The trace that `ch_inv` divides by `k`. -/
theorem trace_mul_adjugate_coeff {R : Type} [CommRing R] {N : Nat}
    (A : Matrix (Fin N) (Fin N) R) (k : Nat) (hk : k ≤ N) :
    Matrix.trace
        (A * (matPolyEquiv (Matrix.adjugate (Matrix.charmatrix A))).coeff (N - k)) =
      -((k : R) * A.charpoly.coeff (N - k)) := by
  rcases Nat.lt_or_eq_of_le hk with hlt | heq
  · rw [mul_adjugate_coeff A k hlt, Matrix.trace_sub, Matrix.trace_smul, Matrix.trace_one,
      trace_adjugate_coeff]
    have e : N - (k + 1) + 1 = N - k := by omega
    have hN : (N : R) = ((N - (k + 1) : Nat) : R) + 1 + (k : R) := by
      have h1 : ((N - (k + 1) + 1 + k : Nat) : R) = (N : R) := by
        congr 1
        omega
      rw [← h1]
      push_cast
      rfl
    rw [e, Fintype.card_fin, smul_eq_mul, hN]
    ring
  · subst heq
    rw [Nat.sub_self, adjugate_coeff_zero, Matrix.trace_smul, Matrix.trace_one,
      Fintype.card_fin, smul_eq_mul]
    ring

/-! ## The loop of `ch_inv` -/

/-- One pass of the loop of `ch_inv`, seen through `tB[ip]` and `tB[1-ip]`. -/
theorem ch_inv_step_spec {K : Type} [Field K] {N : Nat} (U : Matrix (Fin N) (Fin N) K)
    (k : Nat) (s : ch_inv_state K N) :
    (ch_inv_step U k s).tB (ch_inv_step U k s).ip =
      s.tB (1 - s.ip) - Matrix.diagonal (fun _ => s.tc) ∧
    (ch_inv_step U k s).tB (1 - (ch_inv_step U k s).ip) =
      U * (s.tB (1 - s.ip) - Matrix.diagonal (fun _ => s.tc)) ∧
    (ch_inv_step U k s).tc =
      Matrix.trace (U * (s.tB (1 - s.ip) - Matrix.diagonal (fun _ => s.tc))) / (k : K) := by
  obtain ⟨tB, ip, tc⟩ := s
  fin_cases ip <;> simp [ch_inv_step, Function.update]

/-- Invariant of the loop of `ch_inv`: after the passes for `k = 2, .., j + 1` the matrix
`tB[ip]` is coefficient `N - (j + 1)` of `adj(X - U)`, `tB[1-ip]` is `U` times it, and `tc`
is minus coefficient `N - (j + 1)` of the characteristic polynomial. -/
theorem ch_inv_loop_invariant {K : Type} [Field K] [CharZero K] {N : Nat}
    (U : Matrix (Fin N) (Fin N) K) (j : Nat) (hj : j + 1 ≤ N) :
    ∃ s : ch_inv_state K N,
      (List.range' 2 j).foldl (fun s k => ch_inv_step U k s)
        ({ tB := fun i => if i = 0 then 1 else U, ip := 0, tc := Matrix.trace U } :
          ch_inv_state K N) = s ∧
      s.tB s.ip =
        (matPolyEquiv (Matrix.adjugate (Matrix.charmatrix U))).coeff (N - (j + 1)) ∧
      s.tB (1 - s.ip) =
        U * (matPolyEquiv (Matrix.adjugate (Matrix.charmatrix U))).coeff (N - (j + 1)) ∧
      s.tc = -U.charpoly.coeff (N - (j + 1)) := by
  induction j with
  | zero =>
    have h1 :
        (matPolyEquiv (Matrix.adjugate (Matrix.charmatrix U))).coeff (N - (0 + 1)) = 1 := by
      have := adjugate_coeff_card_pred U (by rw [Fintype.card_fin]; omega)
      rwa [Fintype.card_fin] at this
    have h2 := trace_mul_adjugate_coeff U 1 hj
    rw [h1, mul_one] at h2
    refine ⟨_, rfl, ?_⟩
    simp only [List.range'_zero, List.foldl_nil, h1, mul_one]
    refine ⟨by simp, by simp, ?_⟩
    rw [h2]
    simp
  | succ j ih =>
    obtain ⟨s, hs, hcur, hoth, htc⟩ := ih (by omega)
    refine ⟨ch_inv_step U (2 + j) s, ?_, ?_⟩
    · rw [List.range'_1_concat, List.foldl_append, hs]
      rfl
    obtain ⟨h1, h2, h3⟩ := ch_inv_step_spec U (2 + j) s
    have hnew :
        U * (matPolyEquiv (Matrix.adjugate (Matrix.charmatrix U))).coeff (N - (j + 1)) -
          Matrix.diagonal (fun _ => -U.charpoly.coeff (N - (j + 1))) =
        (matPolyEquiv (Matrix.adjugate (Matrix.charmatrix U))).coeff (N - (j + 1 + 1)) := by
      rw [mul_adjugate_coeff U (j + 1) (by omega), ← Matrix.smul_one_eq_diagonal, neg_smul]
      abel
    rw [hoth, htc, hnew] at h1 h2 h3
    refine ⟨h1, h2, ?_⟩
    rw [h3, trace_mul_adjugate_coeff U (j + 1 + 1) hj]
    have hk : ((2 + j : Nat) : K) ≠ 0 := by
      exact_mod_cast (by omega : 2 + j ≠ 0)
    have e : ((j + 1 + 1 : Nat) : K) = ((2 + j : Nat) : K) := by
      congr 1
      omega
    rw [e, neg_div, mul_div_cancel_left₀ _ hk]

/-- C22. For every square matrix `U` over a field of characteristic `0` with a non-zero
determinant (an invertible matrix), of every size `N`, the product of `U` with
`ch_inv(U)` is the identity matrix. -/
theorem ch_inv_correct {K : Type} [Field K] [CharZero K] {N : Nat}
    (U : Matrix (Fin N) (Fin N) K) (hU : U.det ≠ 0) : U * ch_inv U = 1 := by
  rcases Nat.eq_zero_or_pos N with h0 | hpos
  · subst h0
    exact Subsingleton.elim _ _
  obtain ⟨s, hs, hcur, -, htc⟩ := ch_inv_loop_invariant U (N - 1) (by omega)
  have e : N - (N - 1 + 1) = 0 := by omega
  rw [e] at hcur htc
  have hc0 : U.charpoly.coeff 0 ≠ 0 := by
    intro h
    apply hU
    rw [Matrix.det_eq_sign_charpoly_coeff, h, mul_zero]
  have hmap : (s.tB s.ip).map (fun x => x / s.tc) = s.tc⁻¹ • s.tB s.ip := by
    ext i j
    simp [div_eq_inv_mul]
  unfold ch_inv
  simp only [hs]
  rw [hmap, hcur, htc, Matrix.mul_smul, adjugate_coeff_zero, smul_smul,
    inv_mul_cancel₀ (neg_ne_zero.mpr hc0), one_smul]

/-- C22 (witness). The sample `3 × 3` matrix of determinant `8`. -/
theorem ch_inv_correct_witness : sample_matrix * ch_inv sample_matrix = 1 :=
  ch_inv_correct sample_matrix (by
    simp [sample_matrix, Matrix.det_fin_three]
    norm_num)

/-! ## Launches in any thread order -/

/-- When stores to one address all carry one value, the address holds that value after
the stores. -/
theorem store_all_of_mem {β : Type} :
    ∀ (ws : List (Nat × β)), (∀ w ∈ ws, ∀ w' ∈ ws, w.1 = w'.1 → w.2 = w'.2) →
      ∀ (m : Mem β) (w : Nat × β), w ∈ ws → store_all ws m w.1 = w.2 := by
  intro ws
  induction ws with
  | nil => intro _ _ w hw; cases hw
  | cons x xs ih =>
    intro hc m w hw
    have hcx : ∀ w ∈ xs, ∀ w' ∈ xs, w.1 = w'.1 → w.2 = w'.2 :=
      fun w hw w' hw' h => hc w (List.mem_cons_of_mem _ hw) w' (List.mem_cons_of_mem _ hw') h
    show store_all xs (m.write x.1 x.2) w.1 = w.2
    by_cases hxs : ∃ w' ∈ xs, w'.1 = w.1
    · obtain ⟨w', hw', he⟩ := hxs
      rw [← he, ih hcx _ w' hw']
      exact hc w' (List.mem_cons_of_mem _ hw') w hw he
    · have hnot : ∀ w' ∈ xs, w'.1 ≠ w.1 := fun w' hw' he => hxs ⟨w', hw', he⟩
      rw [store_all_of_not_mem w.1 xs _ hnot]
      rcases List.mem_cons.mp hw with rfl | hw'
      · exact Mem.write_same _ _ _
      · exact absurd rfl (hnot w hw')

/-- Two store sequences with the same stores, in which stores to one address carry one
value, leave the same memory. -/
theorem store_all_congr {β : Type} (ws ws' : List (Nat × β))
    (hiff : ∀ w, w ∈ ws ↔ w ∈ ws')
    (hc : ∀ w ∈ ws, ∀ w' ∈ ws, w.1 = w'.1 → w.2 = w'.2) (m : Mem β) :
    store_all ws m = store_all ws' m := by
  have hc' : ∀ w ∈ ws', ∀ w' ∈ ws', w.1 = w'.1 → w.2 = w'.2 :=
    fun w hw w' hw' h => hc w ((hiff w).mpr hw) w' ((hiff w').mpr hw') h
  funext a
  by_cases h : ∃ w ∈ ws, w.1 = a
  · obtain ⟨w, hw, rfl⟩ := h
    rw [store_all_of_mem ws hc m w hw, store_all_of_mem ws' hc' m w ((hiff w).mp hw)]
  · rw [store_all_of_not_mem a ws m (fun w hw he => h ⟨w, hw, he⟩),
      store_all_of_not_mem a ws' m (fun w hw he => h ⟨w, (hiff w).mpr hw, he⟩)]

theorem mem_launch_stores_iff {β : Type} (W : Nat → Option (List (Nat × β))) (L : List Nat)
    (w : Nat × β) :
    w ∈ launch_stores W L ↔ ∃ tid ∈ L, ∃ ws, W tid = some ws ∧ w ∈ ws := by
  simp only [launch_stores, List.mem_flatten, List.mem_map]
  constructor
  · rintro ⟨l, ⟨tid, htid, rfl⟩, hw⟩
    cases hW : W tid with
    | none => rw [hW] at hw; cases hw
    | some ws => rw [hW] at hw; exact ⟨tid, htid, ws, hW, hw⟩
  · rintro ⟨tid, htid, ws, hW, hw⟩
    exact ⟨ws, ⟨tid, htid, by rw [hW]; rfl⟩, hw⟩

/-- The stores of a launch are the same in every order of its threads. -/
theorem mem_launch_stores_perm {β : Type} (W : Nat → Option (List (Nat × β)))
    (L L' : List Nat) (hp : L.Perm L') (w : Nat × β) :
    w ∈ launch_stores W L ↔ w ∈ launch_stores W L' := by
  simp only [mem_launch_stores_iff, hp.mem_iff]

/-- A launch whose threads all pass their assertions completes with their stores. -/
theorem foldlM_stores_of_all {β : Type} (W : Nat → Option (List (Nat × β))) :
    ∀ (L : List Nat) (s : Mem β), (∀ tid ∈ L, ∃ ws, W tid = some ws) →
      L.foldlM (fun st tid => (W tid).map (fun ws => store_all ws st)) s =
        some (store_all (launch_stores W L) s) := by
  intro L
  induction L with
  | nil => intro s _; rfl
  | cons x xs ih =>
    intro s h
    obtain ⟨ws, hW⟩ := h x (List.mem_cons_self _ _)
    rw [List.foldlM_cons, hW]
    show xs.foldlM _ (store_all ws s) = _
    rw [ih (store_all ws s) (fun tid htid => h tid (List.mem_cons_of_mem _ htid))]
    simp [launch_stores, hW, store_all_append]

/-- Without wrap-around of the buffer positions, two stores of a gather launch to one
buffer position carry one value. -/
theorem gather_stores_consistent {β : Type} {n_elements : Nat}
    (ng : (Fin n_elements → β) → (Fin n_elements → β)) (field : Mem β)
    (site_index : Nat → Nat) (n : Int) (F : Nat)
    (hbuf : int_to_unsigned n * n_elements ≤ 2 ^ 32) (L : List Nat) :
    ∀ w ∈ launch_stores (gather_comm_stores ng field site_index n F) L,
      ∀ w' ∈ launch_stores (gather_comm_stores ng field site_index n F) L,
        w.1 = w'.1 → w.2 = w'.2 := by
  have key : ∀ (tid : Nat) (ws : List (Nat × β)) (w : Nat × β),
      gather_comm_stores ng field site_index n F tid = some ws → w ∈ ws →
      to_unsigned tid < int_to_unsigned n ∧
      ∃ (got : Fin n_elements → β) (e : Fin n_elements),
        field_storage.get field (site_index (to_unsigned tid)) F = some got ∧
        w = (to_unsigned tid + int_to_unsigned n * e.val, ng got e) := by
    intro tid ws w hW hw
    unfold gather_comm_stores at hW
    by_cases hact : to_unsigned tid < int_to_unsigned n
    · rw [if_pos hact] at hW
      cases hget : (field_storage.get field (site_index (to_unsigned tid)) F :
          Option (Fin n_elements → β)) with
      | none => rw [hget] at hW; cases hW
      | some got =>
        rw [hget] at hW
        simp only [Option.map_some', Option.some.injEq] at hW
        subst hW
        obtain ⟨e, -, rfl⟩ := List.mem_map.mp hw
        refine ⟨hact, got, e, rfl, ?_⟩
        have hlt := buf_addr_lt e hact
        rw [to_unsigned_of_lt (by omega)]
    · rw [if_neg hact] at hW
      cases hW
      cases hw
  intro w hw w' hw' haddr
  obtain ⟨tid, -, ws, hW, hmem⟩ := (mem_launch_stores_iff _ _ _).mp hw
  obtain ⟨tid', -, ws', hW', hmem'⟩ := (mem_launch_stores_iff _ _ _).mp hw'
  obtain ⟨hact, got, e, hget, rfl⟩ := key tid ws w hW hmem
  obtain ⟨hact', got', e', hget', rfl⟩ := key tid' ws' w' hW' hmem'
  obtain ⟨hI, he⟩ := buf_addr_inj hact hact' haddr
  rw [hI, hget'] at hget
  cases hget
  rw [Fin.ext he]

/-- Without wrap-around of the component addresses, two stores of a place launch to one
word of the field carry one value. -/
theorem place_stores_consistent {β : Type} (n_elements : Nat) (buffer : Mem β)
    (offset : Nat) (n : Int) (F : Nat) (hF : n_elements * F ≤ 2 ^ 32) (L : List Nat) :
    ∀ w ∈ launch_stores (place_comm_stores n_elements buffer offset n F) L,
      ∀ w' ∈ launch_stores (place_comm_stores n_elements buffer offset n F) L,
        w.1 = w'.1 → w.2 = w'.2 := by
  have key : ∀ (tid : Nat) (ws : List (Nat × β)) (w : Nat × β),
      place_comm_stores n_elements buffer offset n F tid = some ws → w ∈ ws →
      to_unsigned (offset + to_unsigned tid) < F ∧
      ∃ e : Fin n_elements,
        w = (e.val * F + to_unsigned (offset + to_unsigned tid),
          buffer (to_unsigned (to_unsigned tid + int_to_unsigned n * e.val))) := by
    intro tid ws w hW hw
    unfold place_comm_stores at hW
    by_cases hact : to_unsigned tid < int_to_unsigned n
    · rw [if_pos hact] at hW
      by_cases hi : to_unsigned (offset + to_unsigned tid) < F
      · rw [if_pos hi] at hW
        simp only [Option.some.injEq] at hW
        subst hW
        obtain ⟨e, -, rfl⟩ := List.mem_map.mp hw
        refine ⟨hi, e, ?_⟩
        have hlt := addr_lt e hF hi
        simp only [UNSIGNED_MOD]
        rw [Nat.mod_eq_of_lt hlt]
      · rw [if_neg hi] at hW
        cases hW
    · rw [if_neg hact] at hW
      cases hW
      cases hw
  intro w hw w' hw' haddr
  obtain ⟨tid, -, ws, hW, hmem⟩ := (mem_launch_stores_iff _ _ _).mp hw
  obtain ⟨tid', -, ws', hW', hmem'⟩ := (mem_launch_stores_iff _ _ _).mp hw'
  obtain ⟨hi, e, rfl⟩ := key tid ws w hW hmem
  obtain ⟨hi', e', rfl⟩ := key tid' ws' w' hW' hmem'
  obtain ⟨he, hslot⟩ := addr_inj hi hi' haddr
  have h1 := to_unsigned_lt tid
  have h2 := to_unsigned_lt tid'
  have hI : to_unsigned tid = to_unsigned tid' := by
    simp only [to_unsigned, UNSIGNED_MOD] at hslot h1 h2 ⊢
    omega
  show buffer _ = buffer _
  rw [hI, he]

namespace field_storage

/-- The scheduled gather wrapper as a launch of store lists. -/
theorem gather_comm_elements_scheduled_eq {β : Type} {n_elements : Nat}
    (schedule : List Nat → List Nat) (N_threads : Nat)
    (CUDA_AWARE_MPI : Bool) (d_alloc : Mem β)
    (neg : (Fin n_elements → β) → (Fin n_elements → β))
    (fieldbuf buffer : Mem β) (to_node : comm_node_struct) (par : Parity) (F : Nat)
    (antiperiodic : Bool) :
    gather_comm_elements_scheduled schedule N_threads CUDA_AWARE_MPI d_alloc neg fieldbuf
        buffer to_node par F antiperiodic =
      ((schedule (List.range
          ((Int.tdiv (to_node.get_sitelist par).2 (N_threads : Int) + 1).toNat
            * N_threads))).foldlM
        (fun st tid => (gather_comm_stores (if antiperiodic then neg else id) fieldbuf
          (to_node.get_sitelist par).1 (to_node.get_sitelist par).2 F tid).map
            (fun ws => store_all ws st))
        (if CUDA_AWARE_MPI then buffer else d_alloc)).map
      (fun d => if CUDA_AWARE_MPI then d
        else cudaMemcpy buffer d ((to_node.get_sitelist par).2.toNat * n_elements)) := by
  unfold gather_comm_elements_scheduled launch_scheduled
  simp only [gather_comm_elements_kernel_eq, gather_kernel_stores]
  cases antiperiodic <;> cases CUDA_AWARE_MPI <;> simp

/-- The scheduled place wrapper as a launch of store lists. -/
theorem place_comm_elements_scheduled_eq {β : Type} (n_elements : Nat)
    (schedule : List Nat → List Nat) (N_threads : Nat)
    (CUDA_AWARE_MPI : Bool) (d_alloc fieldbuf : Mem β) (par : Parity) (buffer : Mem β)
    (from_node : comm_node_struct) (F : Nat) :
    place_comm_elements_scheduled n_elements schedule N_threads CUDA_AWARE_MPI d_alloc
        fieldbuf par buffer from_node F =
      (schedule (List.range
          (to_unsigned (from_node.n_sites par / N_threads + 1) * N_threads))).foldlM
        (fun st tid => (place_comm_stores n_elements
          (if CUDA_AWARE_MPI then buffer
            else cudaMemcpy d_alloc buffer (from_node.n_sites par * n_elements))
          (from_node.offset par) (to_int (from_node.n_sites par)) F tid).map
            (fun ws => store_all ws st))
        fieldbuf := by
  unfold place_comm_elements_scheduled launch_scheduled
  simp only [place_kernel_stores]

/-- The scheduled wrappers in increasing thread order are the wrappers. -/
theorem gather_comm_elements_scheduled_id {β : Type} {n_elements : Nat} (N_threads : Nat)
    (CUDA_AWARE_MPI : Bool) (d_alloc : Mem β)
    (neg : (Fin n_elements → β) → (Fin n_elements → β))
    (fieldbuf buffer : Mem β) (to_node : comm_node_struct) (par : Parity) (F : Nat)
    (antiperiodic : Bool) :
    gather_comm_elements_scheduled id N_threads CUDA_AWARE_MPI d_alloc neg fieldbuf
        buffer to_node par F antiperiodic =
      gather_comm_elements N_threads CUDA_AWARE_MPI d_alloc neg fieldbuf buffer to_node par F
        antiperiodic := rfl

theorem place_comm_elements_scheduled_id {β : Type} (n_elements : Nat) (N_threads : Nat)
    (CUDA_AWARE_MPI : Bool) (d_alloc fieldbuf : Mem β) (par : Parity) (buffer : Mem β)
    (from_node : comm_node_struct) (F : Nat) :
    place_comm_elements_scheduled n_elements id N_threads CUDA_AWARE_MPI d_alloc
        fieldbuf par buffer from_node F =
      place_comm_elements n_elements N_threads CUDA_AWARE_MPI d_alloc fieldbuf par buffer
        from_node F := rfl

/-- A completed gather, run again in any thread order on the buffer it produced, with the
sender field unchanged, completes with a buffer that agrees with the first one below
`2^32`, when the buffer positions do not wrap. -/
theorem gather_comm_elements_scheduled_again {β : Type} {n_elements : Nat}
    (s1 s3 : List Nat → List Nat) (hs1 : ∀ l, (s1 l).Perm l) (hs3 : ∀ l, (s3 l).Perm l)
    (N_threads : Nat) (CUDA_AWARE_MPI : Bool) (d_alloc1 d_alloc2 : Mem β)
    (neg : (Fin n_elements → β) → (Fin n_elements → β))
    (fieldbuf buffer : Mem β) (to_node : comm_node_struct) (par : Parity) (F : Nat)
    (antiperiodic : Bool) (buf1 : Mem β) (hT : 0 < N_threads)
    (hbuf : to_node.n_sites par * n_elements ≤ 2 ^ 32)
    (hgather : gather_comm_elements_scheduled s1 N_threads CUDA_AWARE_MPI d_alloc1 neg
      fieldbuf buffer to_node par F antiperiodic = some buf1) :
    ∃ buf2, gather_comm_elements_scheduled s3 N_threads CUDA_AWARE_MPI d_alloc2 neg
        fieldbuf buf1 to_node par F antiperiodic = some buf2 ∧
      ∀ a, a < 2 ^ 32 → buf2 a = buf1 a := by
  have hnu := to_node.get_sitelist_size par
  obtain ⟨count, hcount⟩ := to_node.get_sitelist_size_eq par
  rw [gather_comm_elements_scheduled_eq] at hgather ⊢
  rw [hcount] at hgather hnu ⊢
  rw [← hnu] at hbuf
  generalize hR : List.range ((Int.tdiv (to_int count) (N_threads : Int) + 1).toNat
      * N_threads) = R at hgather ⊢
  generalize hWdef : gather_comm_stores (if antiperiodic then neg else id) fieldbuf
      (to_node.get_sitelist par).1 (to_int count) F = W at hgather ⊢
  cases hrun : (s1 R).foldlM (fun st tid => (W tid).map (fun ws => store_all ws st))
      (if CUDA_AWARE_MPI then buffer else d_alloc1) with
  | none => rw [hrun] at hgather; cases hgather
  | some D1 =>
    obtain ⟨hall1, hstores1⟩ := foldlM_stores W _ _ _ hrun
    have hallR : ∀ tid ∈ R, ∃ ws, W tid = some ws :=
      fun tid htid => hall1 tid ((hs1 R).mem_iff.mpr htid)
    have hall3 : ∀ tid ∈ s3 R, ∃ ws, W tid = some ws :=
      fun tid htid => hallR tid ((hs3 R).mem_iff.mp htid)
    have hcons : ∀ w ∈ launch_stores W (s3 R), ∀ w' ∈ launch_stores W (s3 R),
        w.1 = w'.1 → w.2 = w'.2 := by
      rw [← hWdef]
      exact gather_stores_consistent _ _ _ _ _ hbuf _
    have hsame : ∀ m : Mem β,
        store_all (launch_stores W (s3 R)) m = store_all (launch_stores W (s1 R)) m :=
      fun m => store_all_congr _ _
        (mem_launch_stores_perm W _ _ ((hs3 R).trans (hs1 R).symm)) hcons m
    have hD1 := hstores1 (if CUDA_AWARE_MPI then buffer else d_alloc1)
    rw [hrun] at hD1
    have hD1' := Option.some.inj hD1
    rw [hrun, Option.map_some', Option.some.injEq] at hgather
    rw [foldlM_stores_of_all W (s3 R) _ hall3, Option.map_some']
    refine ⟨_, rfl, ?_⟩
    intro a ha32
    cases CUDA_AWARE_MPI
    · simp only [Bool.false_eq_true, if_false] at hgather hD1' ⊢
      rw [← hgather]
      by_cases hC : a < (to_int count).toNat * n_elements
      · simp only [cudaMemcpy, if_pos hC]
        rw [hsame, hD1']
        apply store_all_agree
        obtain ⟨w, hw, hwa⟩ := gather_covers N_threads hT
          (if antiperiodic then neg else id) fieldbuf (to_node.get_sitelist par).1 count F
          (by rw [hR, hWdef]; exact hallR) a hC ha32
        rw [hR, hWdef] at hw
        exact ⟨w, (mem_launch_stores_perm W _ _ (hs1 R) w).mpr hw, hwa⟩
      · simp only [cudaMemcpy, if_neg hC]
    · simp only [if_true] at hgather hD1' ⊢
      rw [hsame, ← hgather, hD1', store_all_idem]

/-- A completed place, run again in any thread order on the field it produced, from a
buffer that agrees with the first one below `2^32`, completes and reproduces the field,
when the component addresses do not wrap. -/
theorem place_comm_elements_scheduled_again {β : Type} (n_elements : Nat)
    (s2 s4 : List Nat → List Nat) (hs2 : ∀ l, (s2 l).Perm l) (hs4 : ∀ l, (s4 l).Perm l)
    (N_threads : Nat) (CUDA_AWARE_MPI : Bool) (d_alloc d_alloc' fieldbuf : Mem β)
    (par : Parity) (b1 b2 : Mem β) (from_node : comm_node_struct) (F : Nat) (g1 : Mem β)
    (hF : n_elements * F ≤ 2 ^ 32)
    (hplace : place_comm_elements_scheduled n_elements s2 N_threads CUDA_AWARE_MPI d_alloc
      fieldbuf par b1 from_node F = some g1)
    (hagree : ∀ a, a < 2 ^ 32 → b2 a = b1 a) :
    place_comm_elements_scheduled n_elements s4 N_threads CUDA_AWARE_MPI d_alloc' g1 par
      b2 from_node F = some g1 := by
  have hnu : int_to_unsigned (to_int (from_node.n_sites par)) = from_node.n_sites par := by
    rw [int_to_unsigned_to_int]; exact to_unsigned_of_lt (from_node.n_sites_lt par)
  have hcongr := place_stores_congr n_elements
    (if CUDA_AWARE_MPI then b2
      else cudaMemcpy d_alloc' b2 (from_node.n_sites par * n_elements))
    (if CUDA_AWARE_MPI then b1
      else cudaMemcpy d_alloc b1 (from_node.n_sites par * n_elements))
    (from_node.offset par) (to_int (from_node.n_sites par)) F (by
      intro a ha ha32
      rw [hnu] at ha
      cases CUDA_AWARE_MPI
      · simp [cudaMemcpy, ha, hagree a ha32]
      · simpa using hagree a ha32)
  rw [place_comm_elements_scheduled_eq] at hplace ⊢
  rw [hcongr]
  generalize List.range (to_unsigned (from_node.n_sites par / N_threads + 1) * N_threads)
    = R at hplace ⊢
  generalize hWdef : place_comm_stores n_elements
    (if CUDA_AWARE_MPI then b1
      else cudaMemcpy d_alloc b1 (from_node.n_sites par * n_elements))
    (from_node.offset par) (to_int (from_node.n_sites par)) F = W at hplace ⊢
  obtain ⟨hall2, hP⟩ := foldlM_stores W _ _ _ hplace
  have hall4 : ∀ tid ∈ s4 R, ∃ ws, W tid = some ws :=
    fun tid htid => hall2 tid ((hs2 R).mem_iff.mpr ((hs4 R).mem_iff.mp htid))
  have hcons : ∀ w ∈ launch_stores W (s4 R), ∀ w' ∈ launch_stores W (s4 R),
      w.1 = w'.1 → w.2 = w'.2 := by
    rw [← hWdef]
    exact place_stores_consistent _ _ _ _ _ hF _
  have hg1 := hP fieldbuf
  rw [hplace] at hg1
  have hg1' := Option.some.inj hg1
  rw [foldlM_stores_of_all W (s4 R) g1 hall4,
    store_all_congr _ _ (mem_launch_stores_perm W _ _ ((hs4 R).trans (hs2 R).symm)) hcons]
  conv_lhs => rw [hg1', store_all_idem]
  exact hg1.symm

end field_storage

/-! ## Idempotence of the halo transfer -/

/-- C5 (amended). Idempotence of the halo transfer when no two threads of a launch store
to the same word, that is when the buffer positions and the component addresses of the
receiver field do not wrap (`to_node.n_sites(par) * n_elements ≤ 2^32` and
`n_elements * field_alloc_size ≤ 2^32`): after a completed transfer (gather on the sender
field `f`, place on the receiver field `g`), a second transfer for the same comm nodes and
parity, with `f` unchanged and the same host buffer, completes and leaves the receiver
field as the first transfer left it, in whatever order the threads of the four launches
run. This holds for both settings of `antiperiodic` and of `CUDA_AWARE_MPI`, whatever the
fresh device allocations hold, for every positive thread count per block. -/
theorem halo_transfer_idempotent {β : Type} {n_elements : Nat}
    (s1 s2 s3 s4 : List Nat → List Nat) (N_threads : Nat)
    (CUDA_AWARE_MPI : Bool) (d_alloc1 d_alloc1' d_alloc2 d_alloc2' : Mem β)
    (neg : (Fin n_elements → β) → (Fin n_elements → β)) (f g buffer : Mem β)
    (to_node from_node : comm_node_struct) (par : Parity) (F_f F_g : Nat)
    (antiperiodic : Bool) (buf1 g1 : Mem β)
    (hs1 : ∀ l, (s1 l).Perm l) (hs2 : ∀ l, (s2 l).Perm l)
    (hs3 : ∀ l, (s3 l).Perm l) (hs4 : ∀ l, (s4 l).Perm l) (hT : 0 < N_threads)
    (hbuf : to_node.n_sites par * n_elements ≤ 2 ^ 32)
    (hF : n_elements * F_g ≤ 2 ^ 32)
    (hgather : field_storage.gather_comm_elements_scheduled s1 N_threads CUDA_AWARE_MPI
      d_alloc1 neg f buffer to_node par F_f antiperiodic = some buf1)
    (hplace : field_storage.place_comm_elements_scheduled n_elements s2 N_threads
      CUDA_AWARE_MPI d_alloc1' g par buf1 from_node F_g = some g1) :
    ∃ buf2, field_storage.gather_comm_elements_scheduled s3 N_threads CUDA_AWARE_MPI
        d_alloc2 neg f buf1 to_node par F_f antiperiodic = some buf2 ∧
      field_storage.place_comm_elements_scheduled n_elements s4 N_threads CUDA_AWARE_MPI
        d_alloc2' g1 par buf2 from_node F_g = some g1 := by
  obtain ⟨buf2, hbuf2, hagree⟩ := field_storage.gather_comm_elements_scheduled_again s1 s3
    hs1 hs3 N_threads CUDA_AWARE_MPI d_alloc1 d_alloc2 neg f buffer to_node par F_f
    antiperiodic buf1 hT hbuf hgather
  exact ⟨buf2, hbuf2, field_storage.place_comm_elements_scheduled_again n_elements s2 s4
    hs2 hs4 N_threads CUDA_AWARE_MPI d_alloc1' d_alloc2' g par buf1 buf2 from_node F_g g1
    hF hplace hagree⟩

/-- C5 (witness). A second antiperiodic transfer between the sample nodes, with other
content in the fresh device allocations and its threads in decreasing order, reproduces
the field of the first. -/
theorem halo_transfer_idempotent_witness :
    ∃ buf2, field_storage.gather_comm_elements_scheduled List.reverse 4 false (fun _ => 7)
        (neg_int 2) (fun a => (a : Int)) (first_transfer_buffer) sample_to_node Parity.ALL
          8 true = some buf2 ∧
      field_storage.place_comm_elements_scheduled 2 List.reverse 4 false (fun _ => 9)
        first_transfer_field Parity.ALL buf2 sample_from_node 12 =
          some first_transfer_field :=
  halo_transfer_idempotent id id List.reverse List.reverse 4 false (fun _ => 0)
    (fun _ => 0) (fun _ => 7) (fun _ => 9)
    (neg_int 2) (fun a => (a : Int)) (fun _ => 0) (fun _ => 0) sample_to_node
    sample_from_node Parity.ALL 8 12 true first_transfer_buffer first_transfer_field
    (fun l => List.Perm.refl l) (fun l => List.Perm.refl l) List.reverse_perm
    List.reverse_perm (by decide) (by decide) (by decide) rfl rfl

set_option maxRecDepth 1000000 in
/-- C5 (counterexample). A receiver field of `2^28 + 1` sites with 18 components and 17
halo sites from offset `100`: the threads `0` and `16` of the place launch both store to
word `116` of the field. After a first transfer with the threads in increasing order the
word holds `32`; after a second transfer, with the sender field unchanged and the threads
of the place launch in decreasing order, it holds `16`. -/
theorem halo_transfer_order_dependent :
    ((field_storage.gather_comm_elements_scheduled id 32 false (fun _ => 0)
        (id : (Fin 18 → Nat) → Fin 18 → Nat)
        (fun a => a) (fun _ => 0) wide_to_node Parity.ALL (2 ^ 28 + 1) false).bind
      (fun buf1 => (field_storage.place_comm_elements_scheduled 18 id 32 false
        (fun _ => 0) (fun _ => 0) Parity.ALL buf1 wide_from_node (2 ^ 28 + 1)).bind
        (fun g1 => (field_storage.gather_comm_elements_scheduled id 32 false (fun _ => 0)
            (id : (Fin 18 → Nat) → Fin 18 → Nat)
            (fun a => a) buf1 wide_to_node Parity.ALL (2 ^ 28 + 1) false).bind
          (fun buf2 => (field_storage.place_comm_elements_scheduled 18 List.reverse 32 false
            (fun _ => 0) g1 Parity.ALL buf2 wide_from_node (2 ^ 28 + 1)).map
            (fun g2 => (g1 116, g2 116)))))) = some (32, 16) := by
  decide

/-! ## Halo exchange -/

theorem halo_offset_from_ge (box : SubBox) (l_size : CoordinateVector) (d : Direction) :
    ∀ (ds : List Direction) (c_offset : Nat),
      c_offset ≤ halo_offset_from box l_size ds c_offset d := by
  intro ds
  induction ds with
  | nil => intro _; exact le_refl _
  | cons d' ds ih =>
    intro c_offset
    simp only [halo_offset_from]
    split
    · exact le_refl _
    · exact le_trans (Nat.le_add_right _ _) (ih _)

/-! ## Layers of a sub-box -/

end HILA
